import Mathlib

/-!
# Resume text extraction engine (`src/app.js`, class `DocumentParser`)

A shallow embedding of the extraction functions of `DocumentParser` and of the
fragment of ECMAScript regular expressions they use.

Conventions of the embedding:

* a JavaScript string is a `List Char`;
* `String.prototype.toLowerCase` is modelled on the ASCII letters (all other
  characters are left unchanged);
* a regular expression literal of the source is transcribed constructor by
  constructor into the type `Re`, and matched by a backtracking matcher that
  follows the ECMAScript pattern semantics (continuation passing, greedy and
  lazy quantifiers with the empty-iteration check, leftmost start position);
* a function of the source that could raise (reading a property of
  `undefined`, passing too many arguments to a call) returns an `Option`,
  `none` standing for the raise;
* the number of arguments an engine accepts in one call is not fixed by
  ECMAScript: it is the parameter `argLimit` of the functions that spread a list
  into the arguments of a call, which raise `RangeError` beyond it.
-/

namespace ResumeParser

/-! ## Characters -/

/-- JavaScript strings, as lists of characters. -/
abbrev Str := List Char

/-- ECMAScript `LineTerminator`: LF, CR, LS, PS. -/
def isLineTerminator (c : Char) : Bool :=
  c.toNat == 0x0A || c.toNat == 0x0D || c.toNat == 0x2028 || c.toNat == 0x2029

/-- The characters matched by `\s` (ECMAScript `WhiteSpace` and
`LineTerminator`); the same set is stripped by `String.prototype.trim`. -/
def isWhiteSpace (c : Char) : Bool :=
  c.toNat == 0x09 || c.toNat == 0x0A || c.toNat == 0x0B || c.toNat == 0x0C ||
  c.toNat == 0x0D || c.toNat == 0x20 || c.toNat == 0xA0 || c.toNat == 0x1680 ||
  (0x2000 ≤ c.toNat && c.toNat ≤ 0x200A) || c.toNat == 0x2028 ||
  c.toNat == 0x2029 || c.toNat == 0x202F || c.toNat == 0x205F ||
  c.toNat == 0x3000 || c.toNat == 0xFEFF

/-- The characters matched by `\d`. -/
def isDigit (c : Char) : Bool := 0x30 ≤ c.toNat && c.toNat ≤ 0x39

/-- ASCII upper-case letters. -/
def isUpperAZ (c : Char) : Bool := 0x41 ≤ c.toNat && c.toNat ≤ 0x5A

/-- ASCII lower-case letters. -/
def isLowerAZ (c : Char) : Bool := 0x61 ≤ c.toNat && c.toNat ≤ 0x7A

/-- The characters matched by `\w`: letters, digits and the underscore. -/
def isWordChar (c : Char) : Bool :=
  isUpperAZ c || isLowerAZ c || isDigit c || c.toNat == 0x5F

/-- Lower-case form of one character (ASCII letters only). -/
def lowerChar (c : Char) : Char :=
  if isUpperAZ c then Char.ofNat (c.toNat + 32) else c

/-- Upper-case form of one character (ASCII letters only). -/
def upperChar (c : Char) : Char :=
  if isLowerAZ c then Char.ofNat (c.toNat - 32) else c

/-- `String.prototype.toLowerCase`. -/
def toLowerCase (s : Str) : Str := s.map lowerChar

/-- The characters that have the same canonical form as `c` when the `i` flag
is set (ECMAScript `Canonicalize` without the `u` flag).  A non-ASCII
character is never identified with an ASCII one; among the characters written
in the patterns of this program only the ASCII letters and U+00E2 have a case
variant. -/
def caseVariants (c : Char) : List Char :=
  if isUpperAZ c then [c, lowerChar c]
  else if isLowerAZ c then [c, upperChar c]
  else if c.toNat == 0xE2 then [c, Char.ofNat 0xC2]
  else if c.toNat == 0xC2 then [c, Char.ofNat 0xE2]
  else [c]

/-! ## Regular expressions -/

/-- One member of a character class (or a single-character atom). -/
inductive ClassItem where
  /-- A literal character. -/
  | ch (c : Char)
  /-- A range `lo-hi`. -/
  | range (lo hi : Char)
  /-- The escape `\s`. -/
  | space
  /-- The escape `\S`. -/
  | nonSpace
  /-- The escape `\d`. -/
  | digit
  /-- The escape `\w`. -/
  | word
  deriving Repr

/-- Membership of a character in a class item, case-sensitively. -/
def ClassItem.test : ClassItem → Char → Bool
  | .ch c, x => x == c
  | .range lo hi, x => lo.toNat ≤ x.toNat && x.toNat ≤ hi.toNat
  | .space, x => isWhiteSpace x
  | .nonSpace, x => !isWhiteSpace x
  | .digit, x => isDigit x
  | .word, x => isWordChar x

/-- Membership of a character in a class; with `ignoreCase` a character
matches when one of its case variants does. -/
def classTest (ignoreCase : Bool) (items : List ClassItem) (x : Char) : Bool :=
  if ignoreCase then (caseVariants x).any (fun y => items.any (fun it => it.test y))
  else items.any (fun it => it.test x)

/-- The fragment of ECMAScript patterns used by the program. -/
inductive Re where
  /-- The empty pattern. -/
  | empty
  /-- A character class `[...]`, an escape such as `\s`, or a literal character. -/
  | cls (items : List ClassItem)
  /-- Concatenation. -/
  | seq (a b : Re)
  /-- Alternation `a|b`. -/
  | alt (a b : Re)
  /-- Quantifier `a{min,max}` (greedy) or `a{min,max}?` (lazy); `max = none` is unbounded. -/
  | rep (greedy : Bool) (min : Nat) (max : Option Nat) (a : Re)
  /-- Capture group number `n`. -/
  | group (n : Nat) (a : Re)
  /-- The assertion `^`. -/
  | bol
  /-- The assertion `$`. -/
  | eol
  /-- The assertion `\b`. -/
  | wordB
  /-- Positive lookahead `(?=a)`. -/
  | look (a : Re)
  deriving Repr

namespace Re

/-- A literal character. -/
def chr (c : Char) : Re := cls [.ch c]
/-- The escape `\s`. -/
def ws : Re := cls [.space]
/-- The escape `\d`. -/
def dig : Re := cls [.digit]
/-- The class `[\s\S]`. -/
def anyChar : Re := cls [.space, .nonSpace]
/-- Greedy `a*`. -/
def star (a : Re) : Re := rep true 0 none a
/-- Greedy `a+`. -/
def plus (a : Re) : Re := rep true 1 none a
/-- Greedy `a?`. -/
def opt (a : Re) : Re := rep true 0 (some 1) a
/-- Lazy `a*?`. -/
def lazyStar (a : Re) : Re := rep false 0 none a
/-- Greedy `a{n}`. -/
def count (n : Nat) (a : Re) : Re := rep true n (some n) a
/-- Greedy `a{lo,hi}`. -/
def range (lo hi : Nat) (a : Re) : Re := rep true lo (some hi) a
/-- Greedy `a{lo,}`. -/
def atLeast (lo : Nat) (a : Re) : Re := rep true lo none a

/-- Concatenation of a list of patterns. -/
def seqs : List Re → Re
  | [] => empty
  | [a] => a
  | a :: rest => seq a (seqs rest)

/-- Alternation of a non-empty list of patterns, leftmost first. -/
def alts : List Re → Re
  | [] => empty
  | [a] => a
  | a :: rest => alt a (alts rest)

/-- A run of literal characters. -/
def lits (s : Str) : Re := seqs (s.map chr)

/-- A run of literal characters, written as a string. -/
def str (s : String) : Re := lits s.toList

end Re

/-- The flags `i` (ignoreCase) and `m` (multiline) of a regular expression. -/
structure Flags where
  /-- The flag `i`. -/
  ignoreCase : Bool
  /-- The flag `m`. -/
  multiline : Bool
  deriving Repr

/-- Matcher state: the characters before the current position (nearest
first), the characters from the current position on, and the captures
recorded so far (most recent first). -/
structure St where
  /-- Consumed input, reversed. -/
  pre : Str
  /-- Remaining input. -/
  suf : Str
  /-- Captures: group number and captured text. -/
  caps : List (Nat × Str)
  deriving Repr, DecidableEq

/-- Whether the character before (`pre.head?`) or after (`suf.head?`) the
position is a word character; a missing character is not one. -/
def isWordAt : Option Char → Bool
  | none => false
  | some c => isWordChar c

/-- The assertion `^` at a state. -/
def bolHolds (fl : Flags) (s : St) : Bool :=
  match s.pre with
  | [] => true
  | c :: _ => fl.multiline && isLineTerminator c

/-- The assertion `$` at a state. -/
def eolHolds (fl : Flags) (s : St) : Bool :=
  match s.suf with
  | [] => true
  | c :: _ => fl.multiline && isLineTerminator c

/-- The assertion `\b` at a state. -/
def wordBHolds (s : St) : Bool :=
  isWordAt s.pre.head? != isWordAt s.suf.head?

/-- ECMAScript `RepeatMatcher` for a body matcher `m`: `fuel` bounds the
number of iterations and is taken as `min + remaining length`, which no run
can exceed because an iteration beyond the first `min` must consume input. -/
def repLoop (m : St → (St → Option St) → Option St) (greedy : Bool) :
    Nat → Nat → Option Nat → St → (St → Option St) → Option St
  | 0, min, _, s, k => if min = 0 then k s else none
  | fuel + 1, min, max, s, k =>
    if max = some 0 then k s
    else
      let d : St → Option St := fun y =>
        if min = 0 ∧ y.suf.length = s.suf.length then none
        else repLoop m greedy fuel (min - 1) (max.map (· - 1)) y k
      if min ≠ 0 then m s d
      else if greedy then
        match m s d with
        | some z => some z
        | none => k s
      else
        match k s with
        | some z => some z
        | none => m s d

/-- The backtracking matcher: `r.m fl s k` matches `r` at state `s` and hands
every end state, in priority order, to the continuation `k` until one
succeeds. -/
def Re.m (fl : Flags) : Re → St → (St → Option St) → Option St
  | .empty, s, k => k s
  | .cls items, s, k =>
    match s.suf with
    | [] => none
    | c :: rest =>
      if classTest fl.ignoreCase items c then k { s with pre := c :: s.pre, suf := rest }
      else none
  | .seq a b, s, k => Re.m fl a s (fun t => Re.m fl b t k)
  | .alt a b, s, k =>
    match Re.m fl a s k with
    | some z => some z
    | none => Re.m fl b s k
  | .rep greedy min max a, s, k =>
    repLoop (Re.m fl a) greedy (min + s.suf.length) min max s k
  | .group n a, s, k =>
    Re.m fl a s (fun t =>
      k { t with caps := (n, s.suf.take (s.suf.length - t.suf.length)) :: t.caps })
  | .bol, s, k => if bolHolds fl s then k s else none
  | .eol, s, k => if eolHolds fl s then k s else none
  | .wordB, s, k => if wordBHolds s then k s else none
  | .look a, s, k =>
    match Re.m fl a s some with
    | some t => k { s with caps := t.caps }
    | none => none

/-- The result of a successful match: where it starts, the matched text
(`match[0]`) and the captures. -/
structure MatchResult where
  /-- Index of the first matched character (`match.index`). -/
  index : Nat
  /-- The matched text, `match[0]`. -/
  full : Str
  /-- The captures, most recent first. -/
  caps : List (Nat × Str)
  deriving Repr, DecidableEq

/-- The element `match[n]` for `n ≥ 1`: `none` is `undefined`. -/
def MatchResult.get (mt : MatchResult) (n : Nat) : Option Str :=
  (mt.caps.find? (fun p => p.1 == n)).map (fun p => p.2)

/-- Try the start positions from the current one on, leftmost first. -/
def search (fl : Flags) (r : Re) : Str → Str → Option MatchResult
  | pre, suf =>
    match r.m fl ⟨pre, suf, []⟩ some with
    | some t => some ⟨pre.length, suf.take (suf.length - t.suf.length), t.caps⟩
    | none =>
      match suf with
      | [] => none
      | c :: rest => search fl r (c :: pre) rest

/-- A regular expression with its flags. -/
structure RegExp where
  /-- The pattern. -/
  re : Re
  /-- The flags. -/
  flags : Flags
  deriving Repr

/-- `text.match(re)` for a regular expression without the `g` flag (and the
first element of the result with it): the leftmost match. -/
def RegExp.exec (re : RegExp) (text : Str) : Option MatchResult :=
  search re.flags re.re [] text

/-- `re.test(text)`. -/
def RegExp.test (re : RegExp) (text : Str) : Bool :=
  (re.exec text).isSome

/-! ## String helpers -/

/-- `s.includes(sub)`. -/
def includes : Str → Str → Bool
  | [], sub => sub.isEmpty
  | c :: s, sub => sub.isPrefixOf (c :: s) || includes s sub

/-- `String.prototype.trimStart`. -/
def trimStart (s : Str) : Str := s.dropWhile isWhiteSpace

/-- `String.prototype.trim`. -/
def trim (s : Str) : Str := (trimStart (trimStart s).reverse).reverse

/-- `[...new Set(xs)]`: the first occurrence of every element is kept. -/
def dedupKeepFirst : List String → List String
  | [] => []
  | x :: xs => x :: (dedupKeepFirst xs).filter (fun y => y != x)

/-! ## Constants of the program -/

/-- The constant `skillsTaxonomy`. -/
def skillsTaxonomy : List String :=
  ["JavaScript", "Python", "Java", "React", "Node.js", "Vue.js", "Angular",
   "HTML", "CSS", "TypeScript", "SQL", "MongoDB", "PostgreSQL", "MySQL",
   "AWS", "Azure", "Docker", "Kubernetes", "Jenkins", "Git", "Linux",
   "Machine Learning", "TensorFlow", "PyTorch", "Data Science", "Statistics",
   "Communication", "Leadership", "Problem Solving", "Teamwork", "Agile",
   "Express.js", "Redux", "GraphQL", "REST APIs", "Microservices", "CI/CD",
   "Pandas", "NumPy", "Scikit-learn", "Tableau", "Spring Boot", "Django"]

/-- The class `[A-Za-z]`. -/
def alpha : Re := .cls [.range 'A' 'Z', .range 'a' 'z']

/-- The class `[A-Za-z']`. -/
def alphaApos : Re := .cls [.range 'A' 'Z', .range 'a' 'z', .ch (Char.ofNat 39)]

/-- The class `[A-Z]`. -/
def upper : Re := .cls [.range 'A' 'Z']

/-- The class `[a-z]`. -/
def lower : Re := .cls [.range 'a' 'z']

/-- The class `[a-z']`. -/
def lowerApos : Re := .cls [.range 'a' 'z', .ch (Char.ofNat 39)]

/-- The line terminator `(?:\r?\n|$)` that closes the name patterns. -/
def lineEnd : Re := .alt (.seq (.opt (.chr '\r')) (.chr '\n')) .eol

/-- The captured part `([A-Za-z]+(?:\s+[A-Za-z']+){0,2})` of the labelled name patterns. -/
def labelledName : Re :=
  .group 1 (.seq (.plus alpha) (.range 0 2 (.seq (.plus .ws) (.plus alphaApos))))

/-- The pattern `namePatterns[0]`: `/Name:\s*([A-Za-z]+(?:\s+[A-Za-z']+){0,2})(?:\r?\n|$)/i`. -/
def namePattern0 : RegExp :=
  ⟨.seqs [.str "Name:", .star .ws, labelledName, lineEnd], ⟨true, false⟩⟩

/-- The pattern `namePatterns[1]`: `/Name:\s*([A-Za-z]+(?:\s+[A-Za-z']+){0,2})/i`. -/
def namePattern1 : RegExp :=
  ⟨.seqs [.str "Name:", .star .ws, labelledName], ⟨true, false⟩⟩

/-- The pattern `namePatterns[2]`: `/^\s*(?:Name:\s*)?([A-Z][a-z]+)\s*(?:\r?\n|$)/m`. -/
def namePattern2 : RegExp :=
  ⟨.seqs [.bol, .star .ws, .opt (.seq (.str "Name:") (.star .ws)),
          .group 1 (.seq upper (.plus lower)), .star .ws, lineEnd], ⟨false, true⟩⟩

/-- The pattern `namePatterns[3]`:
`/^\s*([A-Z][a-z]+(?:\s+[A-Z][a-z']+){1,2})\s*(?:\r?\n|$)/m`. -/
def namePattern3 : RegExp :=
  ⟨.seqs [.bol, .star .ws,
          .group 1 (.seqs [upper, .plus lower,
                           .range 1 2 (.seqs [.plus .ws, upper, .plus lowerApos])]),
          .star .ws, lineEnd], ⟨false, true⟩⟩

/-- The pattern `namePatterns[4]`:
`/^\s*([A-Z][a-z]+\s+[A-Z]\.?\s+[A-Z][a-z]+)\s*(?:\r?\n|$)/m`. -/
def namePattern4 : RegExp :=
  ⟨.seqs [.bol, .star .ws,
          .group 1 (.seqs [upper, .plus lower, .plus .ws, upper, .opt (.chr '.'), .plus .ws,
                           upper, .plus lower]),
          .star .ws, lineEnd], ⟨false, true⟩⟩

/-- The pattern `namePatterns[5]`: `/([A-Z][a-z]+(?:\s+[A-Z][a-z]+){1,2})(?:\r?\n|$)/`. -/
def namePattern5 : RegExp :=
  ⟨.seqs [.group 1 (.seqs [upper, .plus lower,
                           .range 1 2 (.seqs [.plus .ws, upper, .plus lower])]),
          lineEnd], ⟨false, false⟩⟩

/-- The array `namePatterns` of `extractPersonalInfo`. -/
def namePatterns : List RegExp :=
  [namePattern0, namePattern1, namePattern2, namePattern3, namePattern4, namePattern5]

/-- The confidence given to the name found by the pattern of index `i`
(`pattern === namePatterns[0] ? 98 : ... : 70`). -/
def nameConfidence (i : Nat) : Nat :=
  if i = 0 then 98 else if i = 1 then 95 else if i = 2 then 90 else if i = 3 then 85
  else if i = 4 then 80 else if i = 5 then 75 else 70

/-- The array `roleKeywords` of the primary pattern loop. -/
def roleKeywords : List String :=
  ["resume", "cv", "developer", "engineer", "software", "professional",
   "profile", "application", "candidate", "job", "position", "senior", "junior"]

/-- The array `roleKeywords` of the bulleted-name branch. -/
def roleKeywordsBullet : List String :=
  ["resume", "cv", "developer", "engineer", "software", "professional",
   "profile", "application", "candidate", "job", "position", "senior", "junior",
   "email", "phone", "location", "linkedin", "github", "portfolio", "contact"]

/-- `keywords.some(keyword => potentialName.toLowerCase().includes(keyword.toLowerCase()))`. -/
def containsRoleKeyword (keywords : List String) (potentialName : Str) : Bool :=
  keywords.any (fun keyword => includes (toLowerCase potentialName) (toLowerCase keyword.toList))

/-- The bullet class `[â€¢\*]` as it stands in the source file: the characters
U+00E2, U+20AC, U+00A2 and the asterisk. -/
def bullet : Re :=
  .cls [.ch (Char.ofNat 0xE2), .ch (Char.ofNat 0x20AC), .ch (Char.ofNat 0xA2), .ch '*']

/-- The pattern of `contactSectionMatch`:
`/Contact\s+Information[\s\S]*?Name:\s*([A-Za-z]+(?:\s+[A-Za-z]+){0,2})/i`. -/
def contactSectionPattern : RegExp :=
  ⟨.seqs [.str "Contact", .plus .ws, .str "Information", .lazyStar .anyChar, .str "Name:",
          .star .ws, .group 1 (.seq (.plus alpha) (.range 0 2 (.seq (.plus .ws) (.plus alpha))))],
   ⟨true, false⟩⟩

/-- The pattern of `bulletNameMatch`:
`/[â€¢\*]\s*Name:\s*([A-Za-z]+(?:\s+[A-Za-z]+){0,2})(?:\r?\n|$)/i`. -/
def bulletNamePattern : RegExp :=
  ⟨.seqs [bullet, .star .ws, .str "Name:", .star .ws,
          .group 1 (.seq (.plus alpha) (.range 0 2 (.seq (.plus .ws) (.plus alpha)))),
          lineEnd], ⟨true, false⟩⟩

/-- The pattern of `directBulletMatch`:
`/[â€¢\*]\s*([A-Z][a-z]+(?:\s+[A-Z][a-z]+){0,2})(?:\r?\n|$)/i`. -/
def directBulletPattern : RegExp :=
  ⟨.seqs [bullet, .star .ws,
          .group 1 (.seqs [upper, .plus lower, .range 0 2 (.seqs [.plus .ws, upper, .plus lower])]),
          lineEnd], ⟨true, false⟩⟩

/-- The email pattern `/([a-zA-Z0-9._%+-]+@[a-zA-Z0-9.-]+\.[a-zA-Z]{2,})/`. -/
def emailPattern : RegExp :=
  ⟨.group 1 (.seqs
      [.plus (.cls [.range 'a' 'z', .range 'A' 'Z', .range '0' '9', .ch '.', .ch '_', .ch '%',
                    .ch '+', .ch '-']),
       .chr '@',
       .plus (.cls [.range 'a' 'z', .range 'A' 'Z', .range '0' '9', .ch '.', .ch '-']),
       .chr '.',
       .atLeast 2 (.cls [.range 'a' 'z', .range 'A' 'Z'])]), ⟨false, false⟩⟩

/-- The separator class `[-.\s]`. -/
def phoneSep : Re := .cls [.ch '-', .ch '.', .space]

/-- The common part `\(?\d{3}\)?[-.\s]?\d{3}[-.\s]?\d{4}` of the phone patterns. -/
def phoneCore : Re :=
  .seqs [.opt (.chr '('), .count 3 .dig, .opt (.chr ')'), .opt phoneSep, .count 3 .dig,
         .opt phoneSep, .count 4 .dig]

/-- The pattern `phoneMatches[0]`: `/(\(?\d{3}\)?[-.\s]?\d{3}[-.\s]?\d{4})/`. -/
def phonePattern0 : RegExp := ⟨.group 1 phoneCore, ⟨false, false⟩⟩

/-- The pattern `phoneMatches[1]`: `/(\+1[-.\s]?\(?\d{3}\)?[-.\s]?\d{3}[-.\s]?\d{4})/`. -/
def phonePattern1 : RegExp :=
  ⟨.group 1 (.seqs [.chr '+', .chr '1', .opt phoneSep, phoneCore]), ⟨false, false⟩⟩

/-- The pattern `phoneMatches[2]`: `/(Phone:?\s*(\(?\d{3}\)?[-.\s]?\d{3}[-.\s]?\d{4}))/i`. -/
def phonePattern2 : RegExp :=
  ⟨.group 1 (.seqs [.str "Phone", .opt (.chr ':'), .star .ws, .group 2 phoneCore]),
   ⟨true, false⟩⟩

/-- The array `phoneMatches` of `extractPersonalInfo`. -/
def phoneMatches : List RegExp := [phonePattern0, phonePattern1, phonePattern2]

/-- The class `[A-Za-z\s]`. -/
def alphaSpace : Re := .cls [.range 'A' 'Z', .range 'a' 'z', .space]

/-- The pattern `locationPatterns[0]`: `/Location:\s*([A-Za-z\s,]+)$/m`. -/
def locationPattern0 : RegExp :=
  ⟨.seqs [.str "Location:", .star .ws,
          .group 1 (.plus (.cls [.range 'A' 'Z', .range 'a' 'z', .space, .ch ','])), .eol],
   ⟨false, true⟩⟩

/-- The pattern `locationPatterns[1]`: `/([A-Za-z\s]+,\s*[A-Z]{2})\s*$/m`. -/
def locationPattern1 : RegExp :=
  ⟨.seqs [.group 1 (.seqs [.plus alphaSpace, .chr ',', .star .ws, .count 2 upper]),
          .star .ws, .eol], ⟨false, true⟩⟩

/-- The pattern `locationPatterns[2]`:
`/([A-Za-z\s]+,\s*California|New York|Texas|Florida)/i`. -/
def locationPattern2 : RegExp :=
  ⟨.group 1 (.alts [.seqs [.plus alphaSpace, .chr ',', .star .ws, .str "California"],
                    .str "New York", .str "Texas", .str "Florida"]), ⟨true, false⟩⟩

/-- The array `locationPatterns` of `extractPersonalInfo`. -/
def locationPatterns : List RegExp := [locationPattern0, locationPattern1, locationPattern2]

/-! ## `calculateExtractionConfidence` -/

/-- The pattern of `hasEmail`: `/@[\w\.-]+\.\w+/`. -/
def hasEmailPattern : RegExp :=
  ⟨.seqs [.chr '@', .plus (.cls [.word, .ch '.', .ch '-']), .chr '.', .plus (.cls [.word])],
   ⟨false, false⟩⟩

/-- The pattern of `hasPhone`: `/\(?\d{3}\)?[-.\s]?\d{3}[-.\s]?\d{4}/`. -/
def hasPhonePattern : RegExp := ⟨phoneCore, ⟨false, false⟩⟩

/-- The pattern of `hasName`: `/^[A-Z][a-z]+\s+[A-Z][a-z]+/m`. -/
def hasNamePattern : RegExp :=
  ⟨.seqs [.bol, upper, .plus lower, .plus .ws, upper, .plus lower], ⟨false, true⟩⟩

/-- The test `skillsTaxonomy.some(skill => text.toLowerCase().includes(skill.toLowerCase()))`. -/
def hasSkills (text : Str) : Bool :=
  skillsTaxonomy.any (fun skill => includes (toLowerCase text) (toLowerCase skill.toList))

/-- The method `calculateExtractionConfidence(text, fileType)`. -/
def calculateExtractionConfidence (text : Str) (fileType : Str) : Nat :=
  let confidence := 70
  let confidence := if text.length > 1000 then confidence + 10 else confidence
  let confidence := if text.length > 2000 then confidence + 5 else confidence
  let confidence := if hasEmailPattern.test text then confidence + 5 else confidence
  let confidence := if hasPhonePattern.test text then confidence + 5 else confidence
  let confidence := if hasNamePattern.test text then confidence + 5 else confidence
  let confidence := if hasSkills text then confidence + 10 else confidence
  let confidence := if fileType = "docx".toList then confidence + 5 else confidence
  min 95 confidence

/-! ## `extractSkills` -/

/-- The characters of the class `[.*+?^${}()|[\]\\]`. -/
def isRegExpSpecial (c : Char) : Bool :=
  ".*+?^$()|[]\\\x7b\x7d".toList.contains c

/-- The call `s.replace(/[.*+?^${}()|[\]\\]/g, '\\$&')`: a backslash is put
before every special character. -/
def escapeRegExp : Str → Str
  | [] => []
  | c :: s => if isRegExpSpecial c then '\\' :: c :: escapeRegExp s else c :: escapeRegExp s

/-- The atoms of a pattern source made of plain characters, escaped
characters and the escape `\b` (what `new RegExp` receives in
`extractSkills`). -/
def parseAtoms : Str → List Re
  | [] => []
  | [c] => [.chr c]
  | c :: d :: s =>
    if c = '\\' then (if d = 'b' then .wordB else .chr d) :: parseAtoms s
    else .chr c :: parseAtoms (d :: s)

/-- The regular expression built in `extractSkills`:
`new RegExp("\\b" + escaped(skillLower) + "\\b", 'i')`. -/
def skillRegExp (skillLower : Str) : RegExp :=
  ⟨.seqs (parseAtoms ("\\b".toList ++ escapeRegExp skillLower ++ "\\b".toList)), ⟨true, false⟩⟩

/-- The method `extractSkills(text)`. -/
def extractSkills (text : Str) : List String :=
  let lowerText := toLowerCase text
  dedupKeepFirst (skillsTaxonomy.filter (fun skill =>
    let skillLower := toLowerCase skill.toList
    includes lowerText skillLower && (skillRegExp skillLower).test text))

/-! ## `extractPersonalInfo` -/

/-- The object `info.confidence`: a key is present when its field is `some`. -/
structure Confidence where
  /-- The key `name`. -/
  name : Option Nat
  /-- The key `email`. -/
  email : Option Nat
  /-- The key `phone`. -/
  phone : Option Nat
  /-- The key `location`. -/
  location : Option Nat
  deriving Repr, DecidableEq

/-- The object returned by `extractPersonalInfo`. -/
structure PersonalInfo where
  /-- The field `name`. -/
  name : Str
  /-- The field `email`. -/
  email : Str
  /-- The field `phone`. -/
  phone : Str
  /-- The field `location`. -/
  location : Str
  /-- The field `confidence`. -/
  confidence : Confidence
  deriving Repr, DecidableEq

/-- The loop over `namePatterns`, from the pattern of index `i` on.  The
result is `some (some (name, confidence))` when a pattern gives an accepted
candidate, `some none` when the loop ends with `nameFound` still false, and
`none` when `match[1]` is `undefined` (the call `.trim()` raises). -/
def primaryName (text : Str) : Nat → List RegExp → Option (Option (Str × Nat))
  | _, [] => some none
  | i, pattern :: rest =>
    match pattern.exec text with
    | none => primaryName text (i + 1) rest
    | some mt =>
      match mt.get 1 with
      | none => none
      | some cap =>
        let potentialName := trim cap
        if containsRoleKeyword roleKeywords potentialName then primaryName text (i + 1) rest
        else some (some (potentialName, nameConfidence i))

/-- The block `if (!nameFound) { ... }` with the three secondary patterns;
same result convention as `primaryName`. -/
def secondaryName (text : Str) : Option (Option (Str × Nat)) :=
  match contactSectionPattern.exec text with
  | some mt =>
    match mt.get 1 with
    | none => none
    | some cap => some (some (trim cap, 90))
  | none =>
    match bulletNamePattern.exec text with
    | some mt =>
      match mt.get 1 with
      | none => none
      | some cap => some (some (trim cap, 95))
    | none =>
      match directBulletPattern.exec text with
      | some mt =>
        match mt.get 1 with
        | none => none
        | some cap =>
          let potentialName := trim cap
          if containsRoleKeyword roleKeywordsBullet potentialName then some none
          else some (some (potentialName, 90))
      | none => some none

/-- The name part of `extractPersonalInfo`: the name and `confidence.name`. -/
def extractName (text : Str) : Option (Str × Nat) :=
  match primaryName text 0 namePatterns with
  | none => none
  | some (some found) => some found
  | some none =>
    match secondaryName text with
    | none => none
    | some (some found) => some found
    | some none => some ("John Doe".toList, 30)

/-- The email part of `extractPersonalInfo`: the email and `confidence.email`. -/
def extractEmail (text : Str) : Option (Str × Option Nat) :=
  match emailPattern.exec text with
  | some mt =>
    match mt.get 1 with
    | none => none
    | some cap => some (toLowerCase cap, some 95)
  | none => some ([], none)

/-- The loop over `phoneMatches`: the phone and `confidence.phone`.  The
value is `match[1] || match[2]`; the result is `none` when that expression is
`undefined`, which would leave a non-string in the field. -/
def extractPhone (text : Str) : List RegExp → Option (Str × Option Nat)
  | [] => some ([], none)
  | pattern :: rest =>
    match pattern.exec text with
    | some mt =>
      match mt.get 1 with
      | some (c :: cs) => some (c :: cs, some 85)
      | _ =>
        match mt.get 2 with
        | some v => some (v, some 85)
        | none => none
    | none => extractPhone text rest

/-- The loop over `locationPatterns`: the location and `confidence.location`;
`none` when `match[1]` is `undefined`. -/
def extractLocation (text : Str) : List RegExp → Option (Str × Option Nat)
  | [] => some ([], none)
  | pattern :: rest =>
    match pattern.exec text with
    | some mt =>
      match mt.get 1 with
      | none => none
      | some cap => some (trim cap, some 75)
    | none => extractLocation text rest

/-- The method `extractPersonalInfo(text)`. -/
def extractPersonalInfo (text : Str) : Option PersonalInfo :=
  match extractName text, extractEmail text, extractPhone text phoneMatches,
        extractLocation text locationPatterns with
  | some (name, cn), some (email, ce), some (phone, cp), some (location, cl) =>
    some ⟨name, email, phone, location, ⟨some cn, ce, cp, cl⟩⟩
  | _, _, _, _ => none

/-! ## `extractExperience` -/

/-- The pattern `expPatterns[0]`: `/(\d+)\+?\s*years?\s+(?:of\s+)?experience/i`. -/
def expPattern0 : RegExp :=
  ⟨.seqs [.group 1 (.plus .dig), .opt (.chr '+'), .star .ws, .str "year", .opt (.chr 's'),
          .plus .ws, .opt (.seq (.str "of") (.plus .ws)), .str "experience"], ⟨true, false⟩⟩

/-- The pattern `expPatterns[1]`: `/(\d+)\+?\s*yrs?\s+(?:of\s+)?experience/i`. -/
def expPattern1 : RegExp :=
  ⟨.seqs [.group 1 (.plus .dig), .opt (.chr '+'), .star .ws, .str "yr", .opt (.chr 's'),
          .plus .ws, .opt (.seq (.str "of") (.plus .ws)), .str "experience"], ⟨true, false⟩⟩

/-- The pattern `expPatterns[2]`: `/experience:\s*(\d+)\+?\s*years?/i`. -/
def expPattern2 : RegExp :=
  ⟨.seqs [.str "experience:", .star .ws, .group 1 (.plus .dig), .opt (.chr '+'), .star .ws,
          .str "year", .opt (.chr 's')], ⟨true, false⟩⟩

/-- The array `expPatterns` of `extractExperience`. -/
def expPatterns : List RegExp := [expPattern0, expPattern1, expPattern2]

/-- The pattern of `workSections`:
`/(?:EXPERIENCE|WORK HISTORY|PROFESSIONAL EXPERIENCE)([\s\S]*?)(?:EDUCATION|SKILLS|$)/i`. -/
def workSectionPattern : RegExp :=
  ⟨.seqs [.alts [.str "EXPERIENCE", .str "WORK HISTORY", .str "PROFESSIONAL EXPERIENCE"],
          .group 1 (.lazyStar .anyChar),
          .alts [.str "EDUCATION", .str "SKILLS", .eol]], ⟨true, false⟩⟩

/-- The pattern of `years`: `/20\d{2}/g`. -/
def yearPattern : RegExp := ⟨.seqs [.chr '2', .chr '0', .count 2 .dig], ⟨false, false⟩⟩

/-- The matched texts of `text.match(re)` for a regular expression with the
`g` flag, from the position that splits the text into `pre` (reversed) and
`suf`: after a match the search resumes at its end, one character further
when the match is empty.  `fuel` bounds the number of matches. -/
def globalMatchesFrom (re : RegExp) : Nat → Str → Str → List Str
  | 0, _, _ => []
  | fuel + 1, pre, suf =>
    match search re.flags re.re pre suf with
    | none => []
    | some mt =>
      let skip := mt.index - pre.length + (if mt.full.length = 0 then 1 else mt.full.length)
      if suf.length < skip then [mt.full]
      else mt.full :: globalMatchesFrom re fuel ((suf.take skip).reverse ++ pre) (suf.drop skip)

/-- The matched texts of `text.match(re)` for a regular expression with the `g` flag
(`null` is the empty list). -/
def globalMatches (re : RegExp) (text : Str) : List Str :=
  globalMatchesFrom re (text.length + 1) [] text

/-- `parseInt(s)` for a string of decimal digits. -/
def parseInt (s : Str) : Nat :=
  s.foldl (fun n c => 10 * n + (c.toNat - 48)) 0

/-- `Math.min(...xs)` for a list that starts with `x`: the elements are spread into the
arguments of one call, which raises `RangeError` (`none`) when there are more than
`argLimit` of them. -/
def mathMin (argLimit : Nat) (x : Nat) (xs : List Nat) : Option Nat :=
  if argLimit < xs.length + 1 then none else some (xs.foldl min x)

/-- `Math.max(...xs)` for a list that starts with `x`: the elements are spread into the
arguments of one call, which raises `RangeError` (`none`) when there are more than
`argLimit` of them. -/
def mathMax (argLimit : Nat) (x : Nat) (xs : List Nat) : Option Nat :=
  if argLimit < xs.length + 1 then none else some (xs.foldl max x)

/-- The loop over `expPatterns`: the string `match[1] + " years"` of the first
pattern that matches (an `undefined` capture would print as `undefined`). -/
def explicitExperience (text : Str) : List RegExp → Option Str
  | [] => none
  | pattern :: rest =>
    match pattern.exec text with
    | some mt =>
      match mt.get 1 with
      | some cap => some (cap ++ " years".toList)
      | none => some "undefined years".toList
    | none => explicitExperience text rest

/-- The inference from the work history: `some (some s)` when it returns
`s`, `some none` when it falls through, `none` when it raises: when
`workSections[1]` is `undefined` (the call `.match` raises) or when the years are
more than the arguments of a call can be. -/
def inferredExperience (argLimit : Nat) (text : Str) : Option (Option Str) :=
  match workSectionPattern.exec text with
  | none => some none
  | some workSections =>
    match workSections.get 1 with
    | none => none
    | some sectionText =>
      match (globalMatches yearPattern sectionText).map parseInt with
      | y0 :: y1 :: ys =>
        match mathMin argLimit y0 (y1 :: ys) with
        | none => none
        | some startYear =>
          match mathMax argLimit y0 (y1 :: ys) with
          | none => none
          | some endYear =>
            let experience := max 1 (endYear - startYear)
            some (some ((toString experience).toList ++ "+ years".toList))
      | _ => some none

/-- The method `extractExperience(text)`; `none` stands for a raise. -/
def extractExperience (argLimit : Nat) (text : Str) : Option Str :=
  match explicitExperience text expPatterns with
  | some s => some s
  | none =>
    match inferredExperience argLimit text with
    | none => none
    | some (some s) => some s
    | some none => some "Not specified".toList

/-! ## `extractEducation` -/

/-- The pattern `educationPatterns[0]`:
`/(Bachelor|Master|PhD|BS|MS|BA|MA|B\.S\.|M\.S\.|B\.A\.|M\.A\.)[\s\S]*?(?=\n\s*\n|\n[A-Z]|$)/gi`. -/
def educationPattern0 : RegExp :=
  ⟨.seqs [.group 1 (.alts [.str "Bachelor", .str "Master", .str "PhD", .str "BS", .str "MS",
                           .str "BA", .str "MA", .str "B.S.", .str "M.S.", .str "B.A.",
                           .str "M.A."]),
          .lazyStar .anyChar,
          .look (.alts [.seqs [.chr '\n', .star .ws, .chr '\n'], .seq (.chr '\n') upper, .eol])],
   ⟨true, false⟩⟩

/-- The pattern `educationPatterns[1]`: `/EDUCATION:([\s\S]*?)(?:\n\s*\n|$)/i`. -/
def educationPattern1 : RegExp :=
  ⟨.seqs [.str "EDUCATION:", .group 1 (.lazyStar .anyChar),
          .alt (.seqs [.chr '\n', .star .ws, .chr '\n']) .eol], ⟨true, false⟩⟩

/-- The array `educationPatterns` of `extractEducation`. -/
def educationPatterns : List RegExp := [educationPattern0, educationPattern1]

/-- The loop of `extractEducation`: `matches[0].trim().substring(0, 100) + '...'`
for the first pattern that matches.  With or without the `g` flag, `matches[0]`
is the text of the leftmost match. -/
def educationLoop (text : Str) : List RegExp → Option Str
  | [] => none
  | pattern :: rest =>
    match pattern.exec text with
    | some mt => some ((trim mt.full).take 100 ++ "...".toList)
    | none => educationLoop text rest

/-- The method `extractEducation(text)`. -/
def extractEducation (text : Str) : Str :=
  match educationLoop text educationPatterns with
  | some s => s
  | none => "Not specified".toList

/-! ## Sample texts of the program -/

/-- The text `sampleResumeTexts.john_doe`, character for character as in the source file. -/
def sampleJohnDoe : String :=
  "John Doe\n" ++
  "555-123-4567\n" ++
  "john.doe@email.com\n" ++
  "linkedin.com/in/johndoe\n" ++
  "\n" ++
  "SENIOR SOFTWARE ENGINEER\n" ++
  "\n" ++
  "PROFESSIONAL EXPERIENCE:\n" ++
  "Senior Software Engineer | Tech Corp | 2020-2025\n" ++
  "\u00e2\u20ac\u00a2 Developed React applications serving 1M+ users daily\n" ++
  "\u00e2\u20ac\u00a2 Led team of 5 developers in agile environment\n" ++
  "\u00e2\u20ac\u00a2 Implemented microservices architecture using Node.js and Docker\n" ++
  "\u00e2\u20ac\u00a2 Improved application performance by 40% through optimization\n" ++
  "\u00e2\u20ac\u00a2 Technologies: React, Node.js, Python, AWS, MongoDB, Docker\n" ++
  "\n" ++
  "Software Engineer | StartupXYZ | 2018-2020\n" ++
  "\u00e2\u20ac\u00a2 Built full-stack applications using Python and React\n" ++
  "\u00e2\u20ac\u00a2 Collaborated with product team on user experience improvements\n" ++
  "\u00e2\u20ac\u00a2 Worked with AWS cloud infrastructure and CI/CD pipelines\n" ++
  "\u00e2\u20ac\u00a2 Technologies: Python, React, AWS, PostgreSQL, Git\n" ++
  "\n" ++
  "EDUCATION:\n" ++
  "Bachelor of Science in Computer Science\n" ++
  "Stanford University | 2018\n" ++
  "GPA: 3.8/4.0\n" ++
  "\n" ++
  "TECHNICAL SKILLS:\n" ++
  "Programming Languages: JavaScript, Python, Java, TypeScript\n" ++
  "Frontend: React, Vue.js, HTML, CSS, Redux\n" ++
  "Backend: Node.js, Express.js, Django, Spring Boot\n" ++
  "Databases: MongoDB, PostgreSQL, MySQL, Redis\n" ++
  "Cloud & DevOps: AWS, Docker, Kubernetes, Jenkins, Git\n" ++
  "Other: Agile, REST APIs, GraphQL, Microservices"

/-- The text `sampleResumeTexts.jane_smith`, character for character as in the source file. -/
def sampleJaneSmith : String :=
  "Jane Smith\n" ++
  "Phone: (555) 987-6543\n" ++
  "Email: jane.smith@gmail.com\n" ++
  "Location: San Francisco, CA\n" ++
  "LinkedIn: linkedin.com/in/janesmith\n" ++
  "\n" ++
  "DATA SCIENTIST\n" ++
  "\n" ++
  "PROFESSIONAL EXPERIENCE:\n" ++
  "\n" ++
  "Senior Data Scientist | AI Solutions Inc. | 2022 - Present\n" ++
  "\u00e2\u20ac\u00a2 Developed machine learning models for predictive analytics using TensorFlow\n" ++
  "\u00e2\u20ac\u00a2 Led data science team of 4 members on customer segmentation project\n" ++
  "\u00e2\u20ac\u00a2 Improved model accuracy by 25% through advanced feature engineering\n" ++
  "\u00e2\u20ac\u00a2 Published 3 research papers in top-tier ML conferences\n" ++
  "\u00e2\u20ac\u00a2 Technologies: Python, TensorFlow, PyTorch, SQL, AWS\n" ++
  "\n" ++
  "Data Scientist | DataTech Corp | 2019 - 2022\n" ++
  "\u00e2\u20ac\u00a2 Built recommendation systems using collaborative filtering in Python\n" ++
  "\u00e2\u20ac\u00a2 Analyzed large datasets (10M+ records) with SQL and Pandas\n" ++
  "\u00e2\u20ac\u00a2 Created interactive data visualizations using Tableau and D3.js\n" ++
  "\u00e2\u20ac\u00a2 Reduced customer churn by 15% through predictive modeling\n" ++
  "\u00e2\u20ac\u00a2 Technologies: Python, R, SQL, Tableau, Scikit-learn\n" ++
  "\n" ++
  "Junior Data Analyst | Analytics Plus | 2017 - 2019\n" ++
  "\u00e2\u20ac\u00a2 Performed statistical analysis on marketing campaign data\n" ++
  "\u00e2\u20ac\u00a2 Created automated reporting systems using Python\n" ++
  "\u00e2\u20ac\u00a2 Technologies: Python, R, Excel, SQL, Statistics\n" ++
  "\n" ++
  "EDUCATION:\n" ++
  "Master of Science in Data Science | UC Berkeley | 2019\n" ++
  "\u00e2\u20ac\u00a2 Thesis: \"Deep Learning for Natural Language Processing\"\n" ++
  "\u00e2\u20ac\u00a2 GPA: 3.9/4.0\n" ++
  "\n" ++
  "Bachelor of Science in Mathematics | UCLA | 2017\n" ++
  "\u00e2\u20ac\u00a2 Summa Cum Laude, Phi Beta Kappa\n" ++
  "\u00e2\u20ac\u00a2 GPA: 3.95/4.0\n" ++
  "\n" ++
  "TECHNICAL SKILLS:\n" ++
  "Programming: Python, R, SQL, Java, Scala\n" ++
  "Machine Learning: TensorFlow, PyTorch, Scikit-learn, XGBoost\n" ++
  "Data Tools: Pandas, NumPy, Jupyter, Apache Spark\n" ++
  "Visualization: Tableau, Matplotlib, Seaborn, D3.js\n" ++
  "Cloud: AWS, Google Cloud, Azure\n" ++
  "Statistics: Regression, Classification, Time Series, A/B Testing"

/-! ## Declarative runs of a pattern -/

/-- The runs of a quantifier whose body has the runs `R`: `RepRun R min max s t`
holds when iterating the body takes `s` to `t`, with at least `min` and at
most `max` iterations, no iteration beyond the first `min` being empty. -/
inductive RepRun (R : St → St → Prop) : Nat → Option Nat → St → St → Prop where
  | done {min : Nat} {max : Option Nat} {s : St} :
      (min = 0 ∨ max = some 0) → RepRun R min max s s
  | more {min : Nat} {max : Option Nat} {s t u : St} :
      max ≠ some 0 → R s t → (min = 0 → t.suf.length ≠ s.suf.length) →
      RepRun R (min - 1) (max.map (· - 1)) t u → RepRun R min max s u

/-- The runs of a pattern: `Step fl r s t` holds when `r` can match from
state `s` and end in state `t`, whatever the priority of that run. -/
def Step (fl : Flags) : Re → St → St → Prop
  | .empty, s, t => t = s
  | .cls items, s, t =>
    ∃ c rest, s.suf = c :: rest ∧ classTest fl.ignoreCase items c = true ∧
      t = { s with pre := c :: s.pre, suf := rest }
  | .seq a b, s, t => ∃ u, Step fl a s u ∧ Step fl b u t
  | .alt a b, s, t => Step fl a s t ∨ Step fl b s t
  | .rep _ min max a, s, t => RepRun (Step fl a) min max s t
  | .group n a, s, t =>
    ∃ u, Step fl a s u ∧
      t = { u with caps := (n, s.suf.take (s.suf.length - u.suf.length)) :: u.caps }
  | .bol, s, t => bolHolds fl s = true ∧ t = s
  | .eol, s, t => eolHolds fl s = true ∧ t = s
  | .wordB, s, t => wordBHolds s = true ∧ t = s
  | .look a, s, t => ∃ u, Re.m fl a s some = some u ∧ t = { s with caps := u.caps }

/-- A pattern has a match in `text` when it has a run from some start position. -/
def HasMatch (re : RegExp) (text : Str) : Prop :=
  ∃ p q t, text = p ++ q ∧ Step re.flags re.re ⟨p.reverse, q, []⟩ t

/-- An over-approximation of the texts a pattern can consume, whatever the
context: assertions and lookaheads consume nothing. -/
def Lang (fl : Flags) : Re → Str → Prop
  | .empty, w => w = []
  | .cls items, w => ∃ c, w = [c] ∧ classTest fl.ignoreCase items c = true
  | .seq a b, w => ∃ w1 w2, w = w1 ++ w2 ∧ Lang fl a w1 ∧ Lang fl b w2
  | .alt a b, w => Lang fl a w ∨ Lang fl b w
  | .rep _ min max a, w =>
    ∃ ws : List Str, w = ws.flatten ∧ ((∀ n, max = some n → min ≤ n) → min ≤ ws.length) ∧
      (∀ n, max = some n → ws.length ≤ n) ∧ ∀ x ∈ ws, Lang fl a x
  | .group _ a, w => Lang fl a w
  | .bol, w => w = []
  | .eol, w => w = []
  | .wordB, w => w = []
  | .look _, w => w = []

/-- The value of capture `n` in a list of captures (most recent first). -/
def capLookup (n : Nat) (caps : List (Nat × Str)) : Option Str :=
  (caps.find? (fun p => p.1 == n)).map (fun p => p.2)

/-- The bodies of the groups numbered `n` in a pattern. -/
def groupBodies (n : Nat) : Re → List Re
  | .group n' a => if n' = n then a :: groupBodies n a else groupBodies n a
  | .seq a b => groupBodies n a ++ groupBodies n b
  | .alt a b => groupBodies n a ++ groupBodies n b
  | .rep _ _ _ a => groupBodies n a
  | .look a => groupBodies n a
  | _ => []

/-- Whether every run of the pattern records a capture for group `n`. -/
def setsGroup (n : Nat) : Re → Bool
  | .group n' a => n' == n || setsGroup n a
  | .seq a b => setsGroup n a || setsGroup n b
  | .alt a b => setsGroup n a && setsGroup n b
  | _ => false

/-- The invariant kept by the captures of a run over `text`: the remaining
input is a suffix of the text and every capture is a piece of the text. -/
def CapsIn (text : Str) (s : St) : Prop :=
  s.suf <:+ text ∧ ∀ p ∈ s.caps, p.2 <:+: text

/-- The first success of two attempts, the second being tried when the first fails. -/
def orTry (a b : Option St) : Option St :=
  match a with
  | some z => some z
  | none => b

/-- A lower bound on the length of the texts a pattern consumes. -/
def minLen : Re → Nat
  | .cls _ => 1
  | .seq a b => minLen a + minLen b
  | .alt a b => min (minLen a) (minLen b)
  | .rep _ mn mx a =>
    match mx with
    | none => mn * minLen a
    | some n => if mn ≤ n then mn * minLen a else 0
  | .group _ a => minLen a
  | _ => 0

/-- Every text the pattern consumes starts with a character of `S`. -/
def HeadIn (fl : Flags) (S : Char → Prop) (r : Re) : Prop :=
  ∀ w, Lang fl r w → ∃ c rest, w = c :: rest ∧ S c

/-- ASCII letters. -/
def isLetter (c : Char) : Bool := isUpperAZ c || isLowerAZ c

/-- A pattern whose matches always carry a capture 1 that starts with a letter. -/
def NameGood (p : RegExp) : Prop :=
  ∀ text mt, p.exec text = some mt → ∃ c rest, mt.get 1 = some (c :: rest) ∧ isLetter c = true

/-- The pattern has the same runs under the flags `fl` and `fl'`: its classes match the
same characters under both, and it has no lookahead. -/
def FlagFree (fl fl' : Flags) : Re → Prop
  | .cls items => ∀ c, classTest fl.ignoreCase items c = classTest fl'.ignoreCase items c
  | .seq a b => FlagFree fl fl' a ∧ FlagFree fl fl' b
  | .alt a b => FlagFree fl fl' a ∧ FlagFree fl fl' b
  | .rep _ _ _ a => FlagFree fl fl' a
  | .group _ a => FlagFree fl fl' a
  | .bol => fl.multiline = fl'.multiline
  | .eol => fl.multiline = fl'.multiline
  | .look _ => False
  | _ => True

/-- Whether the pattern records no capture (it has no group and no lookahead). -/
def noCaps : Re → Bool
  | .seq a b => noCaps a && noCaps b
  | .alt a b => noCaps a && noCaps b
  | .rep _ _ _ a => noCaps a
  | .group _ _ => false
  | .look _ => false
  | _ => true

/-- Number of decimal digits in a text. -/
def countDigits (s : Str) : Nat := s.countP isDigit

/-- The texts of the years `20xx` of the work-history section: the capture of the
leftmost match of the section pattern, searched with the year pattern; `none` when the
text has no such section. -/
def sectionYears (text : Str) : Option (List Str) :=
  (workSectionPattern.exec text).bind (fun mt => (mt.get 1).map (globalMatches yearPattern))

/-- The degree keywords of `educationPatterns[0]`, in the order of the alternation. -/
def degreeKeywords : List String :=
  ["Bachelor", "Master", "PhD", "BS", "MS", "BA", "MA", "B.S.", "M.S.", "B.A.", "M.A."]

/-- The text `kw` occurs in `text` when the case of the ASCII letters is ignored. -/
def OccursCI (kw text : Str) : Prop :=
  ∃ p w q, text = p ++ w ++ q ∧ toLowerCase w = toLowerCase kw

/-- The text `kw` occurs in `text`, the case of the ASCII letters being ignored, at a
place where it is neither preceded nor followed by a word character. -/
def OccursWholeWordCI (kw text : Str) : Prop :=
  ∃ p w q, text = p ++ w ++ q ∧ toLowerCase w = toLowerCase kw ∧
    isWordAt p.getLast? = false ∧ isWordAt q.head? = false

/-- The characters of the class `[A-Za-z']`. -/
def isNameChar (c : Char) : Bool := isLetter c || c == Char.ofNat 39

/-- The characters of the class `[A-Za-z\s,]`. -/
def isLocationChar (c : Char) : Bool := isLetter c || isWhiteSpace c || c == ','

/-- The text is at its end or starts with a line break `\n` or `\r\n`: what
`(?:\r?\n|$)` asks for without the flag `m`. -/
def lineEndAt : Str → Bool
  | [] => true
  | c :: r => c == '\n' || (c == '\r' && r.head? == some '\n')

/-- The text starts with a white-space character. -/
def startsWithSpace : Str → Bool
  | [] => false
  | c :: _ => isWhiteSpace c

/-- The text consists of white space, then of one to `k` words of letters and apostrophes
separated by white space, the last of which ends its line or the text: what up to `k`
further iterations of `(?:\s+[A-Za-z']+)` followed by `(?:\r?\n|$)` can match. -/
def nameWordsThenEol : Nat → Str → Bool
  | 0, _ => false
  | k + 1, r =>
    let r1 := r.dropWhile isWhiteSpace
    let tail := r1.dropWhile isNameChar
    !(r1.takeWhile isNameChar).isEmpty &&
      (lineEndAt tail || (startsWithSpace tail && nameWordsThenEol k tail))

/-- One iteration of `(?:\s+[A-Za-z']+)`: white space, then letters and apostrophes. -/
def IterShape (e : Str) : Prop :=
  ∃ S T, e = S ++ T ∧ S ≠ [] ∧ (∀ c ∈ S, isWhiteSpace c = true) ∧ T ≠ [] ∧
    (∀ c ∈ T, isNameChar c = true)

/-- The text is at its end or starts with a line terminator: what `$` asks for with the
flag `m`. -/
def lineBoundaryAt : Str → Bool
  | [] => true
  | c :: _ => isLineTerminator c

/-- The text `EXPERIENCE` followed by `n` times ` 2020`: a work-history section with `n`
years. -/
def manyYears (n : Nat) : Str :=
  "EXPERIENCE".toList ++ (List.replicate n " 2020".toList).flatten

/-! ## Declarative runs of a pattern -/

theorem repLoop_sound {m : St → (St → Option St) → Option St} {R : St → St → Prop}
    (hm : ∀ s k z, m s k = some z → ∃ t, R s t ∧ k t = some z) (g : Bool) :
    ∀ (fuel min : Nat) (max : Option Nat) (s : St) (k : St → Option St) (z : St),
      repLoop m g fuel min max s k = some z → ∃ t, RepRun R min max s t ∧ k t = some z := by
  intro fuel
  induction fuel with
  | zero =>
    intro min max s k z h
    unfold repLoop at h
    split at h
    · exact ⟨s, .done (Or.inl ‹_›), h⟩
    · cases h
  | succ fuel ih =>
    intro min max s k z h
    unfold repLoop at h
    by_cases hmax : max = some 0
    · rw [if_pos hmax] at h
      exact ⟨s, .done (Or.inr hmax), h⟩
    · rw [if_neg hmax] at h
      have key : ∀ z, m s (fun y =>
            if min = 0 ∧ y.suf.length = s.suf.length then none
            else repLoop m g fuel (min - 1) (max.map (· - 1)) y k) = some z →
          ∃ t, RepRun R min max s t ∧ k t = some z := by
        intro z hz
        obtain ⟨y, hy, hd⟩ := hm _ _ _ hz
        by_cases hc : min = 0 ∧ y.suf.length = s.suf.length
        · rw [if_pos hc] at hd; cases hd
        · rw [if_neg hc] at hd
          obtain ⟨t, ht, hk⟩ := ih _ _ _ _ _ hd
          exact ⟨t, .more hmax hy (fun h0 h1 => hc ⟨h0, h1⟩) ht, hk⟩
      by_cases hmin : min = 0
      · rw [if_neg (fun h' : min ≠ 0 => h' hmin)] at h
        cases g
        · rw [if_neg Bool.false_ne_true] at h
          cases hk : k s with
          | some z' =>
            rw [hk] at h
            exact ⟨s, .done (Or.inl hmin), by rw [hk]; exact h⟩
          | none =>
            rw [hk] at h
            exact key z h
        · rw [if_pos rfl] at h
          split at h
          · rename_i z' hz'
            cases h
            exact key _ hz'
          · exact ⟨s, .done (Or.inl hmin), h⟩
      · rw [if_pos hmin] at h
        exact key z h

theorem m_sound (fl : Flags) (r : Re) :
    ∀ (s : St) (k : St → Option St) (z : St),
      r.m fl s k = some z → ∃ t, Step fl r s t ∧ k t = some z := by
  induction r with
  | empty => intro s k z h; exact ⟨s, rfl, h⟩
  | cls items =>
    intro s k z h
    unfold Re.m at h
    split at h
    · cases h
    · rename_i c rest hs
      split at h
      · rename_i hc
        exact ⟨_, ⟨c, rest, hs, hc, rfl⟩, h⟩
      · cases h
  | seq a b iha ihb =>
    intro s k z h
    unfold Re.m at h
    obtain ⟨u, hu, h2⟩ := iha _ _ _ h
    obtain ⟨t, ht, h3⟩ := ihb _ _ _ h2
    exact ⟨t, ⟨u, hu, ht⟩, h3⟩
  | alt a b iha ihb =>
    intro s k z h
    unfold Re.m at h
    split at h
    · rename_i z' hz'
      cases h
      obtain ⟨t, ht, hk⟩ := iha _ _ _ hz'
      exact ⟨t, Or.inl ht, hk⟩
    · obtain ⟨t, ht, hk⟩ := ihb _ _ _ h
      exact ⟨t, Or.inr ht, hk⟩
  | rep g min max a iha =>
    intro s k z h
    unfold Re.m at h
    exact repLoop_sound iha g _ _ _ _ _ _ h
  | group n a iha =>
    intro s k z h
    unfold Re.m at h
    obtain ⟨u, hu, hk⟩ := iha _ _ _ h
    exact ⟨_, ⟨u, hu, rfl⟩, hk⟩
  | bol =>
    intro s k z h
    unfold Re.m at h
    split at h
    · exact ⟨s, ⟨‹_›, rfl⟩, h⟩
    · cases h
  | eol =>
    intro s k z h
    unfold Re.m at h
    split at h
    · exact ⟨s, ⟨‹_›, rfl⟩, h⟩
    · cases h
  | wordB =>
    intro s k z h
    unfold Re.m at h
    split at h
    · exact ⟨s, ⟨‹_›, rfl⟩, h⟩
    · cases h
  | look a _ =>
    intro s k z h
    unfold Re.m at h
    split at h
    · rename_i u hu
      exact ⟨_, ⟨u, hu, rfl⟩, h⟩
    · cases h

theorem repRun_suffix {R : St → St → Prop}
    (hR : ∀ s t, R s t → ∃ w, s.suf = w ++ t.suf ∧ t.pre = w.reverse ++ s.pre)
    {min : Nat} {max : Option Nat} {s t : St} (h : RepRun R min max s t) :
    ∃ w, s.suf = w ++ t.suf ∧ t.pre = w.reverse ++ s.pre := by
  induction h with
  | done _ => exact ⟨[], rfl, rfl⟩
  | more _ hst _ _ ih =>
    obtain ⟨w1, h1, h1'⟩ := hR _ _ hst
    obtain ⟨w2, h2, h2'⟩ := ih
    refine ⟨w1 ++ w2, ?_, ?_⟩
    · rw [h1, h2, List.append_assoc]
    · rw [h2', h1', List.reverse_append, List.append_assoc]

/-- A run consumes a piece `w` of the remaining input and moves it to the
consumed side. -/
theorem step_suffix (fl : Flags) (r : Re) :
    ∀ (s t : St), Step fl r s t → ∃ w, s.suf = w ++ t.suf ∧ t.pre = w.reverse ++ s.pre := by
  induction r with
  | empty => intro s t h; cases h; exact ⟨[], rfl, rfl⟩
  | cls items =>
    intro s t h
    obtain ⟨c, rest, hs, _, rfl⟩ := h
    exact ⟨[c], by simpa using hs, by simp⟩
  | seq a b iha ihb =>
    intro s t h
    obtain ⟨u, hu, ht⟩ := h
    obtain ⟨w1, h1, h1'⟩ := iha _ _ hu
    obtain ⟨w2, h2, h2'⟩ := ihb _ _ ht
    refine ⟨w1 ++ w2, ?_, ?_⟩
    · rw [h1, h2, List.append_assoc]
    · rw [h2', h1', List.reverse_append, List.append_assoc]
  | alt a b iha ihb =>
    intro s t h
    rcases h with h | h
    · exact iha _ _ h
    · exact ihb _ _ h
  | rep g min max a iha => intro s t h; exact repRun_suffix iha h
  | group n a iha =>
    intro s t h
    obtain ⟨u, hu, rfl⟩ := h
    exact iha s u hu
  | bol => intro s t h; obtain ⟨_, rfl⟩ := h; exact ⟨[], rfl, rfl⟩
  | eol => intro s t h; obtain ⟨_, rfl⟩ := h; exact ⟨[], rfl, rfl⟩
  | wordB => intro s t h; obtain ⟨_, rfl⟩ := h; exact ⟨[], rfl, rfl⟩
  | look a _ => intro s t h; obtain ⟨u, _, rfl⟩ := h; exact ⟨[], rfl, rfl⟩

theorem step_length_le {fl : Flags} {r : Re} {s t : St} (h : Step fl r s t) :
    t.suf.length ≤ s.suf.length := by
  obtain ⟨w, hw, _⟩ := step_suffix fl r s t h
  rw [hw, List.length_append]; omega

theorem repLoop_complete {m : St → (St → Option St) → Option St} {R : St → St → Prop}
    (hc : ∀ s t k, R s t → (k t).isSome = true → (m s k).isSome = true)
    (hlen : ∀ s t, R s t → t.suf.length ≤ s.suf.length) (g : Bool)
    {min : Nat} {max : Option Nat} {s t : St} (h : RepRun R min max s t) :
    ∀ (fuel : Nat) (k : St → Option St), (k t).isSome = true → min + s.suf.length ≤ fuel →
      (repLoop m g fuel min max s k).isSome = true := by
  induction h with
  | @done min max s hd =>
    intro fuel k hk hf
    cases fuel with
    | zero =>
      unfold repLoop
      rw [if_pos (by omega)]; exact hk
    | succ fuel =>
      unfold repLoop
      by_cases hmax : max = some 0
      · rw [if_pos hmax]; exact hk
      · rw [if_neg hmax]
        have hmin : min = 0 := hd.resolve_right hmax
        rw [if_neg (fun h' : min ≠ 0 => h' hmin)]
        cases g
        · rw [if_neg Bool.false_ne_true]
          cases hks : k s with
          | some z => rfl
          | none => rw [hks] at hk; cases hk
        · rw [if_pos rfl]
          split
          · rfl
          · exact hk
  | @more min max s y t hmax hsy hne _ ih =>
    intro fuel k hk hf
    have hly := hlen _ _ hsy
    cases fuel with
    | zero =>
      exfalso
      exact hne (by omega) (by omega)
    | succ fuel =>
      unfold repLoop
      rw [if_neg hmax]
      have hd : (m s (fun y =>
            if min = 0 ∧ y.suf.length = s.suf.length then none
            else repLoop m g fuel (min - 1) (max.map (· - 1)) y k)).isSome = true := by
        apply hc _ _ _ hsy
        rw [if_neg (fun hh => hne hh.1 hh.2)]
        apply ih _ _ hk
        by_cases hmin : min = 0
        · have := hne hmin; omega
        · omega
      by_cases hmin : min = 0
      · rw [if_neg (fun h' : min ≠ 0 => h' hmin)]
        cases g
        · rw [if_neg Bool.false_ne_true]
          cases hks : k s with
          | some z => rfl
          | none => exact hd
        · rw [if_pos rfl]
          split
          · rfl
          · rename_i hn; rw [hn] at hd; cases hd
      · rw [if_pos hmin]; exact hd

theorem m_complete (fl : Flags) (r : Re) :
    ∀ (s t : St) (k : St → Option St), Step fl r s t → (k t).isSome = true →
      (r.m fl s k).isSome = true := by
  induction r with
  | empty => intro s t k h hk; cases h; exact hk
  | cls items =>
    intro s t k h hk
    obtain ⟨c, rest, hs, hc, rfl⟩ := h
    unfold Re.m
    rw [hs]
    simp only
    rw [if_pos hc]
    simpa [hs] using hk
  | seq a b iha ihb =>
    intro s t k h hk
    obtain ⟨u, hu, ht⟩ := h
    unfold Re.m
    exact iha _ _ _ hu (ihb _ _ _ ht hk)
  | alt a b iha ihb =>
    intro s t k h hk
    unfold Re.m
    rcases h with h | h
    · have := iha _ _ k h hk
      split
      · rfl
      · rename_i hn; rw [hn] at this; cases this
    · split
      · rfl
      · exact ihb _ _ k h hk
  | rep g min max a iha =>
    intro s t k h hk
    unfold Re.m
    exact repLoop_complete iha (fun _ _ => step_length_le) g h _ _ hk (le_refl _)
  | group n a iha =>
    intro s t k h hk
    obtain ⟨u, hu, rfl⟩ := h
    unfold Re.m
    exact iha _ _ _ hu hk
  | bol =>
    intro s t k h hk
    obtain ⟨hb, rfl⟩ := h
    unfold Re.m
    rw [if_pos hb]; exact hk
  | eol =>
    intro s t k h hk
    obtain ⟨hb, rfl⟩ := h
    unfold Re.m
    rw [if_pos hb]; exact hk
  | wordB =>
    intro s t k h hk
    obtain ⟨hb, rfl⟩ := h
    unfold Re.m
    rw [if_pos hb]; exact hk
  | look a _ =>
    intro s t k h hk
    obtain ⟨u, hu, rfl⟩ := h
    unfold Re.m
    rw [hu]; exact hk

/-- The matcher fails exactly when the continuation fails at the end of every run. -/
theorem m_eq_none_iff (fl : Flags) (r : Re) (s : St) (k : St → Option St) :
    r.m fl s k = none ↔ ∀ t, Step fl r s t → k t = none := by
  constructor
  · intro h t ht
    by_contra hk
    have := m_complete fl r s t k ht (Option.isSome_iff_ne_none.mpr hk)
    rw [h] at this; cases this
  · intro h
    by_contra hn
    obtain ⟨z, hz⟩ := Option.ne_none_iff_exists'.mp hn
    obtain ⟨t, ht, hk⟩ := m_sound fl r s k z hz
    rw [h t ht] at hk; cases hk

/-- The matcher succeeds exactly when some run ends where the continuation succeeds. -/
theorem m_isSome_iff (fl : Flags) (r : Re) (s : St) (k : St → Option St) :
    (r.m fl s k).isSome = true ↔ ∃ t, Step fl r s t ∧ (k t).isSome = true := by
  constructor
  · intro h
    obtain ⟨z, hz⟩ := Option.isSome_iff_exists.mp h
    obtain ⟨t, ht, hk⟩ := m_sound fl r s k z hz
    exact ⟨t, ht, by rw [hk]; rfl⟩
  · rintro ⟨t, ht, hk⟩
    exact m_complete fl r s t k ht hk

/-! ## The quantifier loop never runs out of fuel -/

theorem repLoop_congr {m : St → (St → Option St) → Option St}
    (hloc : ∀ s k k', (∀ t : St, t.suf.length ≤ s.suf.length → k t = k' t) → m s k = m s k')
    (g : Bool) :
    ∀ (fuel min : Nat) (max : Option Nat) (s : St) (k k' : St → Option St),
      (∀ t : St, t.suf.length ≤ s.suf.length → k t = k' t) →
      repLoop m g fuel min max s k = repLoop m g fuel min max s k' := by
  intro fuel
  induction fuel with
  | zero =>
    intro min max s k k' h
    unfold repLoop
    rw [h s (le_refl _)]
  | succ fuel ih =>
    intro min max s k k' h
    unfold repLoop
    have hd : m s (fun y =>
            if min = 0 ∧ y.suf.length = s.suf.length then none
            else repLoop m g fuel (min - 1) (max.map (· - 1)) y k) =
        m s (fun y =>
            if min = 0 ∧ y.suf.length = s.suf.length then none
            else repLoop m g fuel (min - 1) (max.map (· - 1)) y k') := by
      apply hloc
      intro y hy
      show (if min = 0 ∧ y.suf.length = s.suf.length then none
            else repLoop m g fuel (min - 1) (max.map (· - 1)) y k) =
        (if min = 0 ∧ y.suf.length = s.suf.length then none
            else repLoop m g fuel (min - 1) (max.map (· - 1)) y k')
      rw [ih _ _ y k k' (fun t ht => h t (le_trans ht hy))]
    simp only [h s (le_refl _), hd]

/-- The matcher calls its continuation only on states that are not longer
than the state it starts from. -/
theorem m_congr (fl : Flags) (r : Re) :
    ∀ (s : St) (k k' : St → Option St),
      (∀ t : St, t.suf.length ≤ s.suf.length → k t = k' t) → r.m fl s k = r.m fl s k' := by
  induction r with
  | empty => intro s k k' h; unfold Re.m; exact h s (le_refl _)
  | cls items =>
    intro s k k' h
    unfold Re.m
    split
    · rfl
    · rename_i c rest hs
      rw [h _ (by simp [hs])]
  | seq a b iha ihb =>
    intro s k k' h
    unfold Re.m
    apply iha
    intro t ht
    apply ihb
    intro u hu
    exact h u (le_trans hu ht)
  | alt a b iha ihb =>
    intro s k k' h
    unfold Re.m
    rw [iha s k k' h, ihb s k k' h]
  | rep g min max a iha =>
    intro s k k' h
    unfold Re.m
    exact repLoop_congr iha g _ _ _ _ _ _ h
  | group n a iha =>
    intro s k k' h
    unfold Re.m
    apply iha
    intro t ht
    exact h _ ht
  | bol => intro s k k' h; unfold Re.m; rw [h s (le_refl _)]
  | eol => intro s k k' h; unfold Re.m; rw [h s (le_refl _)]
  | wordB => intro s k k' h; unfold Re.m; rw [h s (le_refl _)]
  | look a _ =>
    intro s k k' h
    unfold Re.m
    split
    · exact h _ (le_refl _)
    · rfl

theorem m_fail (fl : Flags) (r : Re) (s : St) : r.m fl s (fun _ => none) = none := by
  rw [m_eq_none_iff]; intro t _; rfl

theorem repLoop_fuel {m : St → (St → Option St) → Option St}
    (hloc : ∀ s k k', (∀ t : St, t.suf.length ≤ s.suf.length → k t = k' t) → m s k = m s k')
    (hfail : ∀ s, m s (fun _ => none) = none) (g : Bool) :
    ∀ (f1 f2 min : Nat) (max : Option Nat) (s : St) (k : St → Option St),
      min + s.suf.length ≤ f1 → min + s.suf.length ≤ f2 →
      repLoop m g f1 min max s k = repLoop m g f2 min max s k := by
  have base : ∀ (f min : Nat) (max : Option Nat) (s : St) (k : St → Option St),
      min + s.suf.length ≤ 0 →
      repLoop m g 0 min max s k = repLoop m g (f + 1) min max s k := by
    intro f min max s k h0
    have hmin : min = 0 := by omega
    have hlen : s.suf.length = 0 := by omega
    rw [repLoop, repLoop]
    rw [if_pos hmin]
    by_cases hmax : max = some 0
    · rw [if_pos hmax]
    · rw [if_neg hmax]
      have hd : m s (fun y =>
            if min = 0 ∧ y.suf.length = s.suf.length then none
            else repLoop m g f (min - 1) (max.map (· - 1)) y k) = none := by
        refine (hloc s _ _ ?_).trans (hfail s)
        intro y hy
        show (if min = 0 ∧ y.suf.length = s.suf.length then none
            else repLoop m g f (min - 1) (max.map (· - 1)) y k) = none
        rw [if_pos ⟨hmin, by omega⟩]
      simp only [hd]
      rw [if_neg (fun h' : min ≠ 0 => h' hmin)]
      cases g
      · rw [if_neg Bool.false_ne_true]
        cases k s <;> rfl
      · rw [if_pos rfl]
  intro f1
  induction f1 with
  | zero =>
    intro f2 min max s k h1 h2
    cases f2 with
    | zero => rfl
    | succ f2 => exact base f2 min max s k h1
  | succ f1 ih =>
    intro f2 min max s k h1 h2
    cases f2 with
    | zero => exact (base f1 min max s k h2).symm
    | succ f2 =>
      rw [repLoop, repLoop]
      have hd : m s (fun y =>
            if min = 0 ∧ y.suf.length = s.suf.length then none
            else repLoop m g f1 (min - 1) (max.map (· - 1)) y k) =
          m s (fun y =>
            if min = 0 ∧ y.suf.length = s.suf.length then none
            else repLoop m g f2 (min - 1) (max.map (· - 1)) y k) := by
        apply hloc
        intro y hy
        show (if min = 0 ∧ y.suf.length = s.suf.length then none
            else repLoop m g f1 (min - 1) (max.map (· - 1)) y k) =
          (if min = 0 ∧ y.suf.length = s.suf.length then none
            else repLoop m g f2 (min - 1) (max.map (· - 1)) y k)
        by_cases hc : min = 0 ∧ y.suf.length = s.suf.length
        · rw [if_pos hc, if_pos hc]
        · rw [if_neg hc, if_neg hc]
          apply ih
          · by_cases hmin : min = 0
            · have : y.suf.length ≠ s.suf.length := fun h' => hc ⟨hmin, h'⟩
              omega
            · omega
          · by_cases hmin : min = 0
            · have : y.suf.length ≠ s.suf.length := fun h' => hc ⟨hmin, h'⟩
              omega
            · omega
      simp only [hd]

/-- The recursion equation of ECMAScript `RepeatMatcher`, free of fuel. -/
theorem m_rep (fl : Flags) (g : Bool) (min : Nat) (max : Option Nat) (a : Re) (s : St)
    (k : St → Option St) :
    (Re.rep g min max a).m fl s k =
      if max = some 0 then k s
      else if min ≠ 0 then
        a.m fl s (fun y => (Re.rep g (min - 1) (max.map (· - 1)) a).m fl y k)
      else if g = true then
        match a.m fl s (fun y =>
            if y.suf.length = s.suf.length then none
            else (Re.rep g 0 (max.map (· - 1)) a).m fl y k) with
        | some z => some z
        | none => k s
      else
        match k s with
        | some z => some z
        | none => a.m fl s (fun y =>
            if y.suf.length = s.suf.length then none
            else (Re.rep g 0 (max.map (· - 1)) a).m fl y k) := by
  have hfuel : ∀ (f : Nat) (mn : Nat) (y : St), mn + y.suf.length ≤ f →
      repLoop (Re.m fl a) g f mn (max.map (· - 1)) y k =
        (Re.rep g mn (max.map (· - 1)) a).m fl y k := by
    intro f mn y hf
    rw [Re.m]
    exact repLoop_fuel (m_congr fl a) (m_fail fl a) g _ _ _ _ _ _ hf (le_refl _)
  rw [Re.m]
  cases hf : min + s.suf.length with
  | zero =>
    have hmin : min = 0 := by omega
    have hlen : s.suf.length = 0 := by omega
    rw [repLoop, if_pos hmin]
    by_cases hmax : max = some 0
    · rw [if_pos hmax]
    · rw [if_neg hmax, if_neg (fun h' : min ≠ 0 => h' hmin)]
      have hd : a.m fl s (fun y =>
            if y.suf.length = s.suf.length then none
            else (Re.rep g 0 (max.map (· - 1)) a).m fl y k) = none := by
        refine (m_congr fl a s _ _ ?_).trans (m_fail fl a s)
        intro y hy
        show (if y.suf.length = s.suf.length then none
            else (Re.rep g 0 (max.map (· - 1)) a).m fl y k) = none
        rw [if_pos (by omega)]
      simp only [hd]
      cases g
      · rw [if_neg Bool.false_ne_true]
        cases k s <;> rfl
      · rw [if_pos rfl]
  | succ f =>
    rw [repLoop]
    by_cases hmax : max = some 0
    · rw [if_pos hmax, if_pos hmax]
    · rw [if_neg hmax, if_neg hmax]
      by_cases hmin : min = 0
      · have hd : a.m fl s (fun y =>
              if min = 0 ∧ y.suf.length = s.suf.length then none
              else repLoop (Re.m fl a) g f (min - 1) (max.map (· - 1)) y k) =
            a.m fl s (fun y =>
              if y.suf.length = s.suf.length then none
              else (Re.rep g 0 (max.map (· - 1)) a).m fl y k) := by
          apply m_congr
          intro y hy
          show (if min = 0 ∧ y.suf.length = s.suf.length then none
              else repLoop (Re.m fl a) g f (min - 1) (max.map (· - 1)) y k) =
            (if y.suf.length = s.suf.length then none
              else (Re.rep g 0 (max.map (· - 1)) a).m fl y k)
          by_cases hc : y.suf.length = s.suf.length
          · rw [if_pos ⟨hmin, hc⟩, if_pos hc]
          · rw [if_neg (fun h' => hc h'.2), if_neg hc]
            have h1 : min - 1 = 0 := by omega
            rw [h1]
            exact hfuel f 0 y (by omega)
        rw [if_neg (fun h' : min ≠ 0 => h' hmin), if_neg (fun h' : min ≠ 0 => h' hmin)]
        simp only [hd] <;> rfl
      · rw [if_pos hmin, if_pos hmin]
        apply m_congr
        intro y hy
        show (if min = 0 ∧ y.suf.length = s.suf.length then none
              else repLoop (Re.m fl a) g f (min - 1) (max.map (· - 1)) y k) =
            (Re.rep g (min - 1) (max.map (· - 1)) a).m fl y k
        rw [if_neg (fun h' => hmin h'.1)]
        exact hfuel f (min - 1) y (by omega)

/-! ## The leftmost match -/

theorem search_eq_none_iff (fl : Flags) (r : Re) :
    ∀ (suf pre : Str), search fl r pre suf = none ↔
      ∀ p q, suf = p ++ q → r.m fl ⟨p.reverse ++ pre, q, []⟩ some = none := by
  intro suf
  induction suf with
  | nil =>
    intro pre
    rw [search]
    constructor
    · intro h p q hpq
      obtain ⟨rfl, rfl⟩ := List.append_eq_nil.mp hpq.symm
      split at h
      · cases h
      · assumption
    · intro h
      rw [show r.m fl ⟨pre, [], []⟩ some = none from h [] [] rfl]
  | cons c rest ih =>
    intro pre
    rw [search]
    constructor
    · intro h p q hpq
      split at h
      · cases h
      · rename_i hn
        cases p with
        | nil => cases hpq; exact hn
        | cons c' p' =>
          obtain ⟨rfl, rfl⟩ := List.cons.inj hpq
          have := (ih (c :: pre)).mp h p' q rfl
          simpa using this
    · intro h
      rw [show r.m fl ⟨pre, c :: rest, []⟩ some = none from h [] (c :: rest) rfl]
      apply (ih (c :: pre)).mpr
      intro p q hpq
      have := h (c :: p) q (by rw [hpq]; rfl)
      simpa using this

theorem search_eq_some_iff (fl : Flags) (r : Re) (mt : MatchResult) :
    ∀ (suf pre : Str), search fl r pre suf = some mt ↔
      ∃ p q t, suf = p ++ q ∧
        (∀ p' q', suf = p' ++ q' → p'.length < p.length →
          r.m fl ⟨p'.reverse ++ pre, q', []⟩ some = none) ∧
        r.m fl ⟨p.reverse ++ pre, q, []⟩ some = some t ∧
        mt = ⟨pre.length + p.length, q.take (q.length - t.suf.length), t.caps⟩ := by
  intro suf
  induction suf with
  | nil =>
    intro pre
    rw [search]
    constructor
    · intro h
      split at h
      · rename_i t ht
        cases h
        exact ⟨[], [], t, rfl, fun _ _ _ hlt => absurd hlt (Nat.not_lt_zero _), ht, rfl⟩
      · cases h
    · rintro ⟨p, q, t, hpq, _, ht, rfl⟩
      obtain ⟨rfl, rfl⟩ := List.append_eq_nil.mp hpq.symm
      rw [show r.m fl ⟨pre, [], []⟩ some = some t from ht]
      rfl
  | cons c rest ih =>
    intro pre
    rw [search]
    constructor
    · intro h
      split at h
      · rename_i t ht
        cases h
        exact ⟨[], c :: rest, t, rfl, fun _ _ _ hlt => absurd hlt (Nat.not_lt_zero _), ht, rfl⟩
      · rename_i hn
        obtain ⟨p, q, t, hpq, hleft, ht, rfl⟩ := (ih (c :: pre)).mp h
        refine ⟨c :: p, q, t, by rw [hpq]; rfl, ?_, by simpa using ht, ?_⟩
        · intro p' q' hpq' hlt
          cases p' with
          | nil => cases hpq'; exact hn
          | cons c' p'' =>
            obtain ⟨rfl, h2⟩ := List.cons.inj hpq'
            have := hleft p'' q' h2 (by simpa using hlt)
            simpa using this
        · simp only [List.length_cons]
          congr 1
          omega
    · rintro ⟨p, q, t, hpq, hleft, ht, rfl⟩
      cases p with
      | nil =>
        cases hpq
        rw [show r.m fl ⟨pre, c :: rest, []⟩ some = some t from ht]
        rfl
      | cons c' p' =>
        obtain ⟨rfl, h2⟩ := List.cons.inj hpq
        rw [show r.m fl ⟨pre, c :: rest, []⟩ some = none from
          hleft [] (c :: rest) rfl (by simp)]
        apply (ih (c :: pre)).mpr
        refine ⟨p', q, t, h2, ?_, by simpa using ht, ?_⟩
        · intro p'' q'' hpq'' hlt
          have := hleft (c :: p'') q'' (by rw [hpq'']; rfl) (by simpa using hlt)
          simpa using this
        · simp only [List.length_cons]
          congr 1
          omega

/-- `exec` fails exactly when the matcher fails at every start position. -/
theorem exec_eq_none_iff (re : RegExp) (text : Str) :
    re.exec text = none ↔
      ∀ p q, text = p ++ q → re.re.m re.flags ⟨p.reverse, q, []⟩ some = none := by
  have := search_eq_none_iff re.flags re.re text []
  simpa [RegExp.exec] using this

/-- `exec` returns the result of the matcher at the first start position where
it succeeds. -/
theorem exec_eq_some_iff (re : RegExp) (text : Str) (mt : MatchResult) :
    re.exec text = some mt ↔
      ∃ p q t, text = p ++ q ∧
        (∀ p' q', text = p' ++ q' → p'.length < p.length →
          re.re.m re.flags ⟨p'.reverse, q', []⟩ some = none) ∧
        re.re.m re.flags ⟨p.reverse, q, []⟩ some = some t ∧
        mt = ⟨p.length, q.take (q.length - t.suf.length), t.caps⟩ := by
  have := search_eq_some_iff re.flags re.re mt text []
  simpa [RegExp.exec] using this

theorem exec_eq_none_iff_not_hasMatch (re : RegExp) (text : Str) :
    re.exec text = none ↔ ¬ HasMatch re text := by
  rw [exec_eq_none_iff]
  constructor
  · rintro h ⟨p, q, t, hpq, ht⟩
    have := (m_eq_none_iff _ _ _ _).mp (h p q hpq) t ht
    cases this
  · intro h p q hpq
    rw [m_eq_none_iff]
    intro t ht
    exact absurd ⟨p, q, t, hpq, ht⟩ h

theorem exec_isSome_iff_hasMatch (re : RegExp) (text : Str) :
    (re.exec text).isSome = true ↔ HasMatch re text := by
  rw [← not_iff_not, ← exec_eq_none_iff_not_hasMatch]
  cases re.exec text <;> simp

/-- What a successful `exec` says in terms of runs: the match starts after a
prefix `p`, consumes `w`, its captures are those of a run, and no run starts
further left. -/
theorem exec_some_run {re : RegExp} {text : Str} {mt : MatchResult}
    (h : re.exec text = some mt) :
    ∃ p w q t, text = p ++ (w ++ q) ∧ Step re.flags re.re ⟨p.reverse, w ++ q, []⟩ t ∧
      t.suf = q ∧ mt = ⟨p.length, w, t.caps⟩ ∧
      ∀ p' q' t', text = p' ++ q' → p'.length < p.length →
        ¬ Step re.flags re.re ⟨p'.reverse, q', []⟩ t' := by
  obtain ⟨p, q, t, hpq, hleft, ht, rfl⟩ := (exec_eq_some_iff re text mt).mp h
  obtain ⟨t', hstep, hk⟩ := m_sound _ _ _ _ _ ht
  cases hk
  obtain ⟨w, hw, _⟩ := step_suffix _ _ _ _ hstep
  simp only at hw
  refine ⟨p, w, t.suf, t, by rw [hpq, hw], by rw [← hw]; exact hstep, rfl, ?_, ?_⟩
  · congr 1
    rw [hw]
    simp
  · intro p' q' t'' hpq' hlt hs
    have := (m_eq_none_iff _ _ _ _).mp (hleft p' q' hpq' hlt) t'' hs
    cases this

/-! ## What a run consumes, and what it captures -/

theorem repRun_lang {R : St → St → Prop} {L : Str → Prop}
    (hR : ∀ s t, R s t → ∃ w, s.suf = w ++ t.suf ∧ L w)
    {min : Nat} {max : Option Nat} {s t : St} (h : RepRun R min max s t) :
    ∃ ws : List Str, s.suf = ws.flatten ++ t.suf ∧
      ((∀ n, max = some n → min ≤ n) → min ≤ ws.length) ∧
      (∀ n, max = some n → ws.length ≤ n) ∧ ∀ x ∈ ws, L x := by
  induction h with
  | @done min max s hd =>
    refine ⟨[], rfl, ?_, by simp, by simp⟩
    intro hwf
    rcases hd with h0 | h0
    · simp [h0]
    · have := hwf 0 h0
      simpa using this
  | @more min max s y t hmax hsy _ _ ih =>
    obtain ⟨w, hw, hL⟩ := hR _ _ hsy
    obtain ⟨ws, hws, hmin, hmx, hall⟩ := ih
    have hws0 : ∀ n, max = some n → ws.length ≤ n - 1 := by
      intro n hn
      exact hmx (n - 1) (by rw [hn]; rfl)
    refine ⟨w :: ws, ?_, ?_, ?_, ?_⟩
    · rw [hw, hws]; simp
    · intro hwf
      simp only [List.length_cons]
      apply Nat.sub_le_iff_le_add.mp
      apply hmin
      intro n hn
      cases max with
      | none => cases hn
      | some n' =>
        have h1 := hwf n' rfl
        have h2 : n' - 1 = n := by simpa using hn
        omega
    · intro n hn
      have := hws0 n hn
      simp only [List.length_cons]
      have : n ≠ 0 := fun h0 => hmax (by rw [hn, h0])
      omega
    · intro x hx
      rcases List.mem_cons.mp hx with rfl | hx
      · exact hL
      · exact hall x hx

/-- The text consumed by a run belongs to `Lang`. -/
theorem step_lang (fl : Flags) (r : Re) :
    ∀ (s t : St), Step fl r s t → ∃ w, s.suf = w ++ t.suf ∧ Lang fl r w := by
  induction r with
  | empty => intro s t h; cases h; exact ⟨[], rfl, rfl⟩
  | cls items =>
    intro s t h
    obtain ⟨c, rest, hs, hc, rfl⟩ := h
    exact ⟨[c], by simpa using hs, c, rfl, hc⟩
  | seq a b iha ihb =>
    intro s t h
    obtain ⟨u, hu, ht⟩ := h
    obtain ⟨w1, h1, h1'⟩ := iha _ _ hu
    obtain ⟨w2, h2, h2'⟩ := ihb _ _ ht
    exact ⟨w1 ++ w2, by rw [h1, h2, List.append_assoc], w1, w2, rfl, h1', h2'⟩
  | alt a b iha ihb =>
    intro s t h
    rcases h with h | h
    · obtain ⟨w, hw, hl⟩ := iha _ _ h
      exact ⟨w, hw, Or.inl hl⟩
    · obtain ⟨w, hw, hl⟩ := ihb _ _ h
      exact ⟨w, hw, Or.inr hl⟩
  | rep g min max a iha =>
    intro s t h
    obtain ⟨ws, h1, h2, h3, h4⟩ := repRun_lang iha h
    exact ⟨ws.flatten, h1, ws, rfl, h2, h3, h4⟩
  | group n a iha =>
    intro s t h
    obtain ⟨u, hu, rfl⟩ := h
    exact iha s u hu
  | bol => intro s t h; obtain ⟨_, rfl⟩ := h; exact ⟨[], rfl, rfl⟩
  | eol => intro s t h; obtain ⟨_, rfl⟩ := h; exact ⟨[], rfl, rfl⟩
  | wordB => intro s t h; obtain ⟨_, rfl⟩ := h; exact ⟨[], rfl, rfl⟩
  | look a _ => intro s t h; obtain ⟨u, _, rfl⟩ := h; exact ⟨[], rfl, rfl⟩

theorem infix_of_take_suffix {text suf : Str} (h : suf <:+ text) (k : Nat) :
    suf.take k <:+: text :=
  (List.take_prefix k suf).isInfix.trans h.isInfix

theorem repRun_inv {R : St → St → Prop} {P : St → Prop}
    (hR : ∀ s t, R s t → P s → P t)
    {min : Nat} {max : Option Nat} {s t : St} (h : RepRun R min max s t) : P s → P t := by
  induction h with
  | done _ => exact id
  | more _ hst _ _ ih => exact fun hs => ih (hR _ _ hst hs)

theorem step_capsIn (fl : Flags) (text : Str) (r : Re) :
    ∀ (s t : St), Step fl r s t → CapsIn text s → CapsIn text t := by
  induction r with
  | empty => intro s t h; cases h; exact id
  | cls items =>
    intro s t h hs
    obtain ⟨c, rest, hsuf, _, rfl⟩ := h
    refine ⟨?_, hs.2⟩
    have : rest <:+ s.suf := by rw [hsuf]; exact List.suffix_cons c rest
    exact this.trans hs.1
  | seq a b iha ihb =>
    intro s t h hs
    obtain ⟨u, hu, ht⟩ := h
    exact ihb _ _ ht (iha _ _ hu hs)
  | alt a b iha ihb =>
    intro s t h hs
    rcases h with h | h
    · exact iha _ _ h hs
    · exact ihb _ _ h hs
  | rep g min max a iha => intro s t h; exact repRun_inv iha h
  | group n a iha =>
    intro s t h hs
    obtain ⟨u, hu, rfl⟩ := h
    have hu' := iha s u hu hs
    refine ⟨hu'.1, ?_⟩
    intro p hp
    rcases List.mem_cons.mp hp with rfl | hp
    · exact infix_of_take_suffix hs.1 _
    · exact hu'.2 p hp
  | bol => intro s t h; obtain ⟨_, rfl⟩ := h; exact id
  | eol => intro s t h; obtain ⟨_, rfl⟩ := h; exact id
  | wordB => intro s t h; obtain ⟨_, rfl⟩ := h; exact id
  | look a iha =>
    intro s t h hs
    obtain ⟨u, hu, rfl⟩ := h
    obtain ⟨u', hstep, hk⟩ := m_sound fl a s some u hu
    cases hk
    exact ⟨hs.1, (iha s u hstep hs).2⟩

/-- A capture of group `n` present after a run was present before it or was
consumed by one of the group's bodies. -/
theorem step_capture (fl : Flags) (n : Nat) (r : Re) :
    ∀ (s t : St) (v : Str), Step fl r s t → capLookup n t.caps = some v →
      capLookup n s.caps = some v ∨ ∃ body ∈ groupBodies n r, Lang fl body v := by
  induction r with
  | empty => intro s t v h; cases h; exact Or.inl
  | cls items =>
    intro s t v h hv
    obtain ⟨c, rest, _, _, rfl⟩ := h
    exact Or.inl hv
  | seq a b iha ihb =>
    intro s t v h hv
    obtain ⟨u, hu, ht⟩ := h
    rcases ihb _ _ v ht hv with h1 | ⟨body, hb, hl⟩
    · rcases iha _ _ v hu h1 with h2 | ⟨body, hb, hl⟩
      · exact Or.inl h2
      · exact Or.inr ⟨body, by simp [groupBodies, hb], hl⟩
    · exact Or.inr ⟨body, by simp [groupBodies, hb], hl⟩
  | alt a b iha ihb =>
    intro s t v h hv
    rcases h with h | h
    · rcases iha _ _ v h hv with h2 | ⟨body, hb, hl⟩
      · exact Or.inl h2
      · exact Or.inr ⟨body, by simp [groupBodies, hb], hl⟩
    · rcases ihb _ _ v h hv with h2 | ⟨body, hb, hl⟩
      · exact Or.inl h2
      · exact Or.inr ⟨body, by simp [groupBodies, hb], hl⟩
  | rep g min max a iha =>
    intro s t v h
    have hinv : ∀ x y, Step fl a x y →
        (capLookup n x.caps = some v →
          capLookup n s.caps = some v ∨ ∃ body ∈ groupBodies n a, Lang fl body v) →
        (capLookup n y.caps = some v →
          capLookup n s.caps = some v ∨ ∃ body ∈ groupBodies n a, Lang fl body v) := by
      intro x y hxy hx hy
      rcases iha x y v hxy hy with h1 | h1
      · exact hx h1
      · exact Or.inr h1
    exact repRun_inv (P := fun x => capLookup n x.caps = some v →
        capLookup n s.caps = some v ∨ ∃ body ∈ groupBodies n a, Lang fl body v) hinv h Or.inl
  | group n' a iha =>
    intro s t v h hv
    obtain ⟨u, hu, rfl⟩ := h
    obtain ⟨w, hw, hl⟩ := step_lang fl a s u hu
    by_cases hn : n' = n
    · subst hn
      have hv' : s.suf.take (s.suf.length - u.suf.length) = v := by
        simpa [capLookup] using hv
      refine Or.inr ⟨a, by simp [groupBodies], ?_⟩
      rw [← hv', hw]
      simpa using hl
    · have hv' : capLookup n u.caps = some v := by
        simpa [capLookup, hn] using hv
      rcases iha s u v hu hv' with h1 | ⟨body, hb, hl'⟩
      · exact Or.inl h1
      · exact Or.inr ⟨body, by simp [groupBodies, hn, hb], hl'⟩
  | bol => intro s t v h; obtain ⟨_, rfl⟩ := h; exact Or.inl
  | eol => intro s t v h; obtain ⟨_, rfl⟩ := h; exact Or.inl
  | wordB => intro s t v h; obtain ⟨_, rfl⟩ := h; exact Or.inl
  | look a iha =>
    intro s t v h hv
    obtain ⟨u, hu, rfl⟩ := h
    obtain ⟨u', hstep, hk⟩ := m_sound fl a s some u hu
    cases hk
    rcases iha s u v hstep hv with h1 | ⟨body, hb, hl⟩
    · exact Or.inl h1
    · exact Or.inr ⟨body, by simp [groupBodies, hb], hl⟩

theorem step_setsGroup (fl : Flags) (n : Nat) (r : Re) :
    ∀ (s t : St), Step fl r s t →
      (setsGroup n r = true ∨ (capLookup n s.caps).isSome = true) →
      (capLookup n t.caps).isSome = true := by
  induction r with
  | empty => intro s t h hs; cases h; simpa [setsGroup] using hs
  | cls items =>
    intro s t h hs
    obtain ⟨c, rest, _, _, rfl⟩ := h
    simpa [setsGroup] using hs
  | seq a b iha ihb =>
    intro s t h hs
    obtain ⟨u, hu, ht⟩ := h
    rcases hs with hs | hs
    · rcases Bool.or_eq_true_iff.mp (by simpa [setsGroup] using hs) with h1 | h1
      · exact ihb _ _ ht (Or.inr (iha _ _ hu (Or.inl h1)))
      · exact ihb _ _ ht (Or.inl h1)
    · exact ihb _ _ ht (Or.inr (iha _ _ hu (Or.inr hs)))
  | alt a b iha ihb =>
    intro s t h hs
    have hs' : (setsGroup n a = true ∧ setsGroup n b = true) ∨
        (capLookup n s.caps).isSome = true := by
      rcases hs with hs | hs
      · left; simpa [setsGroup] using hs
      · right; exact hs
    rcases h with h | h
    · exact iha _ _ h (hs'.imp_left (·.1))
    · exact ihb _ _ h (hs'.imp_left (·.2))
  | rep g min max a iha =>
    intro s t h hs
    have hs' : (capLookup n s.caps).isSome = true := by simpa [setsGroup] using hs
    exact repRun_inv (P := fun x => (capLookup n x.caps).isSome = true)
      (fun x y hxy hx => iha x y hxy (Or.inr hx)) h hs'
  | group n' a iha =>
    intro s t h hs
    obtain ⟨u, hu, rfl⟩ := h
    by_cases hn : n' = n
    · subst hn
      simp [capLookup]
    · have hs' : setsGroup n a = true ∨ (capLookup n s.caps).isSome = true := by
        rcases hs with hs | hs
        · left; simpa [setsGroup, hn] using hs
        · right; exact hs
      have := iha s u hu hs'
      simpa [capLookup, hn] using this
  | bol => intro s t h hs; obtain ⟨_, rfl⟩ := h; simpa [setsGroup] using hs
  | eol => intro s t h hs; obtain ⟨_, rfl⟩ := h; simpa [setsGroup] using hs
  | wordB => intro s t h hs; obtain ⟨_, rfl⟩ := h; simpa [setsGroup] using hs
  | look a iha =>
    intro s t h hs
    obtain ⟨u, hu, rfl⟩ := h
    obtain ⟨u', hstep, hk⟩ := m_sound fl a s some u hu
    cases hk
    have hs' : (capLookup n s.caps).isSome = true := by simpa [setsGroup] using hs
    exact iha s u hstep (Or.inr hs')

/-- What `exec` guarantees about the match it returns: the matched text and
every capture are pieces of the text, the matched text is consumed by the
pattern and a capture by the body of its group, and a group that every run
goes through is captured. -/
theorem exec_capture {re : RegExp} {text : Str} {mt : MatchResult}
    (h : re.exec text = some mt) :
    mt.full <:+: text ∧ Lang re.flags re.re mt.full ∧
    (∀ n v, mt.get n = some v →
      v <:+: text ∧ ∃ body ∈ groupBodies n re.re, Lang re.flags body v) ∧
    (∀ n, setsGroup n re.re = true → ∃ v, mt.get n = some v) := by
  obtain ⟨p, w, q, t, htext, hstep, hsuf, rfl, _⟩ := exec_some_run h
  have hcaps : CapsIn text t := by
    apply step_capsIn _ text _ _ _ hstep
    refine ⟨?_, by simp⟩
    rw [htext]
    exact List.suffix_append p (w ++ q)
  obtain ⟨w', hw', hl⟩ := step_lang _ _ _ _ hstep
  have hww : w' = w := by
    rw [hsuf] at hw'
    exact (List.append_cancel_right hw').symm
  subst hww
  refine ⟨?_, hl, ?_, ?_⟩
  · rw [htext]
    exact ⟨p, q, by simp⟩
  · intro n v hv
    have hv' : capLookup n t.caps = some v := hv
    refine ⟨?_, ?_⟩
    · simp only [capLookup, Option.map_eq_some'] at hv'
      obtain ⟨pr, hpr, rfl⟩ := hv'
      exact hcaps.2 pr (List.mem_of_find?_eq_some hpr)
    · rcases step_capture _ n _ _ _ v hstep hv' with h1 | h1
      · simp [capLookup] at h1
      · exact h1
  · intro n hn
    have := step_setsGroup _ n _ _ _ hstep (Or.inl hn)
    exact Option.isSome_iff_exists.mp this

/-! ## Evaluating the matcher along its priority order -/

@[simp] theorem orTry_some (z : St) (b : Option St) : orTry (some z) b = some z := rfl

@[simp] theorem orTry_none (b : Option St) : orTry none b = b := rfl

theorem m_cls_nil (fl : Flags) (items : List ClassItem) (pre : Str) (caps : List (Nat × Str))
    (k : St → Option St) : (Re.cls items).m fl ⟨pre, [], caps⟩ k = none := rfl

theorem m_cls_cons (fl : Flags) (items : List ClassItem) (pre : Str) (c : Char) (suf : Str)
    (caps : List (Nat × Str)) (k : St → Option St) :
    (Re.cls items).m fl ⟨pre, c :: suf, caps⟩ k =
      if classTest fl.ignoreCase items c = true then k ⟨c :: pre, suf, caps⟩ else none := rfl

theorem m_seq (fl : Flags) (a b : Re) (s : St) (k : St → Option St) :
    (Re.seq a b).m fl s k = a.m fl s (fun t => b.m fl t k) := rfl

theorem m_alt (fl : Flags) (a b : Re) (s : St) (k : St → Option St) :
    (Re.alt a b).m fl s k = orTry (a.m fl s k) (b.m fl s k) := rfl

theorem m_group (fl : Flags) (n : Nat) (a : Re) (s : St) (k : St → Option St) :
    (Re.group n a).m fl s k =
      a.m fl s (fun t =>
        k { t with caps := (n, s.suf.take (s.suf.length - t.suf.length)) :: t.caps }) := rfl

theorem m_eol (fl : Flags) (s : St) (k : St → Option St) :
    Re.eol.m fl s k = if eolHolds fl s = true then k s else none := rfl

theorem m_bol (fl : Flags) (s : St) (k : St → Option St) :
    Re.bol.m fl s k = if bolHolds fl s = true then k s else none := rfl

theorem m_wordB (fl : Flags) (s : St) (k : St → Option St) :
    Re.wordB.m fl s k = if wordBHolds s = true then k s else none := rfl

/-- A quantified class at the end of the input. -/
theorem m_rep_cls_nil (fl : Flags) (g : Bool) (min : Nat) (max : Option Nat)
    (items : List ClassItem) (pre : Str) (caps : List (Nat × Str)) (k : St → Option St) :
    (Re.rep g min max (.cls items)).m fl ⟨pre, [], caps⟩ k =
      if max = some 0 ∨ min = 0 then k ⟨pre, [], caps⟩ else none := by
  rw [m_rep]
  by_cases hmax : max = some 0
  · rw [if_pos hmax, if_pos (Or.inl hmax)]
  · rw [if_neg hmax]
    by_cases hmin : min = 0
    · rw [if_neg (fun h' : min ≠ 0 => h' hmin), if_pos (Or.inr hmin)]
      simp only [m_cls_nil]
      cases g
      · rw [if_neg Bool.false_ne_true]
        cases k ⟨pre, [], caps⟩ <;> rfl
      · rw [if_pos rfl]
    · rw [if_pos hmin, if_neg (fun h' => h'.elim hmax hmin)]
      rfl

/-- A quantified class before a character that is not in the class. -/
theorem m_rep_cls_cons_neg (fl : Flags) (g : Bool) (min : Nat) (max : Option Nat)
    (items : List ClassItem) (pre : Str) (c : Char) (suf : Str) (caps : List (Nat × Str))
    (k : St → Option St) (hc : classTest fl.ignoreCase items c = false) :
    (Re.rep g min max (.cls items)).m fl ⟨pre, c :: suf, caps⟩ k =
      if max = some 0 ∨ min = 0 then k ⟨pre, c :: suf, caps⟩ else none := by
  rw [m_rep]
  by_cases hmax : max = some 0
  · rw [if_pos hmax, if_pos (Or.inl hmax)]
  · rw [if_neg hmax]
    by_cases hmin : min = 0
    · rw [if_neg (fun h' : min ≠ 0 => h' hmin), if_pos (Or.inr hmin)]
      simp only [m_cls_cons, hc, Bool.false_eq_true, if_false]
      cases g
      · rw [if_neg Bool.false_ne_true]
        cases k ⟨pre, c :: suf, caps⟩ <;> rfl
      · rw [if_pos rfl]
    · rw [if_pos hmin, if_neg (fun h' => h'.elim hmax hmin)]
      simp only [m_cls_cons, hc, Bool.false_eq_true, if_false]

/-- A quantified class before a character of the class. -/
theorem m_rep_cls_cons_pos (fl : Flags) (g : Bool) (min : Nat) (max : Option Nat)
    (items : List ClassItem) (pre : Str) (c : Char) (suf : Str) (caps : List (Nat × Str))
    (k : St → Option St) (hc : classTest fl.ignoreCase items c = true) :
    (Re.rep g min max (.cls items)).m fl ⟨pre, c :: suf, caps⟩ k =
      if max = some 0 then k ⟨pre, c :: suf, caps⟩
      else if min ≠ 0 then
        (Re.rep g (min - 1) (max.map (· - 1)) (.cls items)).m fl ⟨c :: pre, suf, caps⟩ k
      else if g = true then
        orTry ((Re.rep g 0 (max.map (· - 1)) (.cls items)).m fl ⟨c :: pre, suf, caps⟩ k)
          (k ⟨pre, c :: suf, caps⟩)
      else
        orTry (k ⟨pre, c :: suf, caps⟩)
          ((Re.rep g 0 (max.map (· - 1)) (.cls items)).m fl ⟨c :: pre, suf, caps⟩ k) := by
  rw [m_rep]
  simp only [m_cls_cons, hc, if_true, List.length_cons]
  have hne : suf.length ≠ suf.length + 1 := by omega
  simp only [hne, if_false]
  rfl

/-- A greedy quantified class consumes a whole run of class characters when
the continuation accepts the position after the run: the run is followed by a
character outside the class (or by nothing), or it has the maximal length. -/
theorem m_rep_cls_run (fl : Flags) (items : List ClassItem)
    (rest : Str) (caps : List (Nat × Str)) (k : St → Option St) (z : St) :
    ∀ (w : Str) (min : Nat) (max : Option Nat) (pre : Str),
      (∀ c ∈ w, classTest fl.ignoreCase items c = true) →
      (max = some w.length ∨
        (max = none ∧ ∀ c, rest.head? = some c → classTest fl.ignoreCase items c = false)) →
      min ≤ w.length →
      k ⟨w.reverse ++ pre, rest, caps⟩ = some z →
      (Re.rep true min max (.cls items)).m fl ⟨pre, w ++ rest, caps⟩ k = some z := by
  intro w
  induction w with
  | nil =>
    intro min max pre _ hmax hmin hk
    have hmin0 : min = 0 := by simpa using hmin
    cases rest with
    | nil =>
      rw [List.nil_append, m_rep_cls_nil, if_pos (Or.inr hmin0)]
      exact hk
    | cons c rest =>
      rcases hmax with hmax | ⟨_, hrest⟩
      · have hmax0 : max = some 0 := hmax
        rw [List.nil_append, m_rep, if_pos hmax0]
        exact hk
      · rw [List.nil_append, m_rep_cls_cons_neg _ _ _ _ _ _ _ _ _ _ (hrest c rfl),
          if_pos (Or.inr hmin0)]
        exact hk
  | cons x w ih =>
    intro min max pre hall hmax hmin hk
    have hx : classTest fl.ignoreCase items x = true := hall x (List.mem_cons_self _ _)
    have hmax' : max.map (· - 1) = some w.length ∨
        (max.map (· - 1) = none ∧
          ∀ c, rest.head? = some c → classTest fl.ignoreCase items c = false) := by
      rcases hmax with hmax | ⟨hmax, hrest⟩
      · left; rw [hmax]; simp
      · right; rw [hmax]; exact ⟨rfl, hrest⟩
    have hmax0 : max ≠ some 0 := by
      rcases hmax with hmax | ⟨hmax, _⟩
      · rw [hmax]; simp
      · rw [hmax]; simp
    have hrec : ∀ mn, mn ≤ w.length →
        (Re.rep true mn (max.map (· - 1)) (.cls items)).m fl ⟨x :: pre, w ++ rest, caps⟩ k =
          some z := by
      intro mn hmn
      apply ih mn _ (x :: pre) (fun c hc => hall c (List.mem_cons_of_mem _ hc)) hmax' hmn
      simpa using hk
    rw [List.cons_append, m_rep_cls_cons_pos _ _ _ _ _ _ _ _ _ _ hx, if_neg hmax0]
    by_cases hmin0 : min = 0
    · rw [if_neg (fun h' : min ≠ 0 => h' hmin0), if_pos rfl, hrec 0 (Nat.zero_le _)]
      rfl
    · rw [if_pos hmin0]
      exact hrec (min - 1) (by simp only [List.length_cons] at hmin; omega)

/-- A quantified class before any character. -/
theorem m_rep_cls_cons (fl : Flags) (g : Bool) (min : Nat) (max : Option Nat)
    (items : List ClassItem) (pre : Str) (c : Char) (suf : Str) (caps : List (Nat × Str))
    (k : St → Option St) :
    (Re.rep g min max (.cls items)).m fl ⟨pre, c :: suf, caps⟩ k =
      if classTest fl.ignoreCase items c = true then
        if max = some 0 then k ⟨pre, c :: suf, caps⟩
        else if min ≠ 0 then
          (Re.rep g (min - 1) (max.map (· - 1)) (.cls items)).m fl ⟨c :: pre, suf, caps⟩ k
        else if g = true then
          orTry ((Re.rep g 0 (max.map (· - 1)) (.cls items)).m fl ⟨c :: pre, suf, caps⟩ k)
            (k ⟨pre, c :: suf, caps⟩)
        else
          orTry (k ⟨pre, c :: suf, caps⟩)
            ((Re.rep g 0 (max.map (· - 1)) (.cls items)).m fl ⟨c :: pre, suf, caps⟩ k)
      else if max = some 0 ∨ min = 0 then k ⟨pre, c :: suf, caps⟩ else none := by
  by_cases hc : classTest fl.ignoreCase items c = true
  · rw [if_pos hc, m_rep_cls_cons_pos _ _ _ _ _ _ _ _ _ _ hc]
  · rw [if_neg hc, m_rep_cls_cons_neg _ _ _ _ _ _ _ _ _ _ (by simpa using hc)]

/-- A quantifier whose bound is exhausted. -/
theorem m_rep_max_zero (fl : Flags) (g : Bool) (min : Nat) (a : Re) (s : St)
    (k : St → Option St) : (Re.rep g min (some 0) a).m fl s k = k s := by
  rw [m_rep, if_pos rfl]

/-- A greedy optional iteration of a bounded quantifier. -/
theorem m_rep_greedy_opt (fl : Flags) (n : Nat) (a : Re) (s : St) (k : St → Option St) :
    (Re.rep true 0 (some (n + 1)) a).m fl s k =
      orTry (a.m fl s (fun y =>
          if y.suf.length = s.suf.length then none
          else (Re.rep true 0 (some n) a).m fl y k)) (k s) := by
  rw [m_rep, if_neg (by simp), if_neg (by simp), if_pos rfl]
  rfl

/-- A mandatory iteration of a quantifier. -/
theorem m_rep_mandatory (fl : Flags) (g : Bool) (min : Nat) (max : Option Nat) (a : Re)
    (s : St) (k : St → Option St) (hmax : max ≠ some 0) :
    (Re.rep g (min + 1) max a).m fl s k =
      a.m fl s (fun y => (Re.rep g min (max.map (· - 1)) a).m fl y k) := by
  rw [m_rep, if_neg hmax, if_pos (by simp)]
  rfl

/-! ## Lengths and first characters of consumed texts -/

theorem flatten_length_ge {ws : List Str} {n : Nat} (h : ∀ x ∈ ws, n ≤ x.length) :
    ws.length * n ≤ ws.flatten.length := by
  induction ws with
  | nil => simp
  | cons x ws ih =>
    have h1 := h x (List.mem_cons_self _ _)
    have h2 := ih (fun y hy => h y (List.mem_cons_of_mem _ hy))
    simp only [List.length_cons, List.flatten_cons, List.length_append]
    rw [Nat.add_mul]
    omega

theorem lang_minLen (fl : Flags) (r : Re) : ∀ w, Lang fl r w → minLen r ≤ w.length := by
  induction r with
  | empty => intro w _; simp [minLen]
  | cls items => intro w h; obtain ⟨c, rfl, _⟩ := h; simp [minLen]
  | seq a b iha ihb =>
    intro w h
    obtain ⟨w1, w2, rfl, h1, h2⟩ := h
    have := iha _ h1
    have := ihb _ h2
    simp only [minLen, List.length_append]
    omega
  | alt a b iha ihb =>
    intro w h
    rcases h with h | h
    · exact le_trans (Nat.min_le_left _ _) (iha _ h)
    · exact le_trans (Nat.min_le_right _ _) (ihb _ h)
  | rep g mn mx a iha =>
    intro w h
    obtain ⟨ws, rfl, hmin, _, hall⟩ := h
    have hlen := flatten_length_ge (n := minLen a) (fun x hx => iha x (hall x hx))
    cases mx with
    | none =>
      have := hmin (by simp)
      simp only [minLen]
      exact le_trans (Nat.mul_le_mul_right _ this) hlen
    | some n =>
      simp only [minLen]
      split
      · rename_i hle
        have := hmin (by intro n' hn'; cases hn'; exact hle)
        exact le_trans (Nat.mul_le_mul_right _ this) hlen
      · exact Nat.zero_le _
  | group n a iha => intro w h; exact iha w h
  | bol => intro w _; simp [minLen]
  | eol => intro w _; simp [minLen]
  | wordB => intro w _; simp [minLen]
  | look a _ => intro w _; simp [minLen]

theorem headIn_cls {fl : Flags} {S : Char → Prop} {items : List ClassItem}
    (h : ∀ c, classTest fl.ignoreCase items c = true → S c) : HeadIn fl S (.cls items) := by
  intro w hw
  obtain ⟨c, rfl, hc⟩ := hw
  exact ⟨c, [], rfl, h c hc⟩

theorem headIn_seq {fl : Flags} {S : Char → Prop} {a : Re} (b : Re) (h : HeadIn fl S a) :
    HeadIn fl S (.seq a b) := by
  intro w hw
  obtain ⟨w1, w2, rfl, h1, _⟩ := hw
  obtain ⟨c, rest, rfl, hc⟩ := h w1 h1
  exact ⟨c, rest ++ w2, rfl, hc⟩

theorem headIn_alt {fl : Flags} {S : Char → Prop} {a b : Re} (ha : HeadIn fl S a)
    (hb : HeadIn fl S b) : HeadIn fl S (.alt a b) := by
  intro w hw
  rcases hw with hw | hw
  · exact ha w hw
  · exact hb w hw

theorem headIn_group {fl : Flags} {S : Char → Prop} {a : Re} (n : Nat) (h : HeadIn fl S a) :
    HeadIn fl S (.group n a) := fun w hw => h w hw

theorem headIn_plus {fl : Flags} {S : Char → Prop} {a : Re} (g : Bool) (mn : Nat)
    (h : HeadIn fl S a) : HeadIn fl S (.rep g (mn + 1) none a) := by
  intro w hw
  obtain ⟨ws, rfl, hmin, _, hall⟩ := hw
  have hlen := hmin (by simp)
  cases ws with
  | nil => simp at hlen
  | cons x ws =>
    obtain ⟨c, rest, rfl, hc⟩ := h x (hall x (List.mem_cons_self _ _))
    exact ⟨c, rest ++ ws.flatten, by simp, hc⟩

/-- A case variant of a character that is not a letter is not a letter. -/
theorem caseVariants_letter {c y : Char} (hy : y ∈ caseVariants c) (hl : isLetter y = true) :
    isLetter c = true := by
  unfold caseVariants at hy
  by_cases h1 : isUpperAZ c = true
  · simp [isLetter, h1]
  · by_cases h2 : isLowerAZ c = true
    · simp [isLetter, h2]
    · rw [if_neg h1, if_neg h2] at hy
      split at hy
      · rcases List.mem_pair.mp hy with rfl | rfl
        · exact hl
        · exact absurd hl (by decide)
      · split at hy
        · rcases List.mem_pair.mp hy with rfl | rfl
          · exact hl
          · exact absurd hl (by decide)
        · rw [List.mem_singleton] at hy
          rw [← hy]; exact hl

/-- A class made of letter ranges only matches letters, with or without the `i` flag. -/
theorem classTest_letter {i : Bool} {items : List ClassItem} {c : Char}
    (hitems : ∀ it ∈ items, ∀ y, it.test y = true → isLetter y = true)
    (h : classTest i items c = true) : isLetter c = true := by
  unfold classTest at h
  cases i with
  | true =>
    simp only [if_true, List.any_eq_true] at h
    obtain ⟨y, hy, it, hit, ht⟩ := h
    exact caseVariants_letter hy (hitems it hit y ht)
  | false =>
    simp only [Bool.false_eq_true, if_false, List.any_eq_true] at h
    obtain ⟨it, hit, ht⟩ := h
    exact hitems it hit c ht

theorem range_AZ_letter (y : Char) (h : (ClassItem.range 'A' 'Z').test y = true) :
    isLetter y = true := by
  have h' : ('A'.toNat ≤ y.toNat && y.toNat ≤ 'Z'.toNat) = true := h
  have hA : 'A'.toNat = 0x41 := rfl
  have hZ : 'Z'.toNat = 0x5A := rfl
  rw [hA, hZ] at h'
  simp only [isLetter, isUpperAZ, h', Bool.true_or]

theorem range_az_letter (y : Char) (h : (ClassItem.range 'a' 'z').test y = true) :
    isLetter y = true := by
  have h' : ('a'.toNat ≤ y.toNat && y.toNat ≤ 'z'.toNat) = true := h
  have ha : 'a'.toNat = 0x61 := rfl
  have hz : 'z'.toNat = 0x7A := rfl
  rw [ha, hz] at h'
  simp only [isLetter, isLowerAZ, h', Bool.or_true]

theorem letter_not_space {c : Char} (h : isLetter c = true) : isWhiteSpace c = false := by
  simp only [isLetter, isUpperAZ, isLowerAZ, Bool.or_eq_true, Bool.and_eq_true,
    decide_eq_true_eq] at h
  simp only [isWhiteSpace, Bool.or_eq_false_iff, Bool.and_eq_false_iff, beq_eq_false_iff_ne,
    decide_eq_false_iff_not, ne_eq]
  omega

/-- The class `[A-Za-z]` matches letters only. -/
theorem alpha_letter {i : Bool} {c : Char}
    (h : classTest i [.range 'A' 'Z', .range 'a' 'z'] c = true) : isLetter c = true := by
  apply classTest_letter _ h
  intro it hit y hy
  simp only [List.mem_cons, List.mem_singleton, List.not_mem_nil, or_false] at hit
  rcases hit with rfl | rfl
  · exact range_AZ_letter y hy
  · exact range_az_letter y hy

/-- The class `[A-Z]` matches letters only (any letter under the `i` flag). -/
theorem upper_letter {i : Bool} {c : Char}
    (h : classTest i [.range 'A' 'Z'] c = true) : isLetter c = true := by
  apply classTest_letter _ h
  intro it hit y hy
  simp only [List.mem_singleton] at hit
  subst hit
  exact range_AZ_letter y hy

/-! ## `trim` -/

theorem trimStart_cons_of_not_space {c : Char} (s : Str) (h : isWhiteSpace c = false) :
    trimStart (c :: s) = c :: s := by
  simp [trimStart, List.dropWhile, h]

theorem trimStart_ne_nil_of_mem {s : Str} {c : Char} (hc : c ∈ s) (h : isWhiteSpace c = false) :
    trimStart s ≠ [] := by
  intro hnil
  have hall : ∀ x ∈ s, isWhiteSpace x = true := by
    simpa [trimStart, List.dropWhile_eq_nil_iff] using hnil
  rw [hall c hc] at h
  cases h

/-- A text that starts with a character that is not white space keeps it under `trim`. -/
theorem trim_cons_of_not_space {c : Char} (s : Str) (h : isWhiteSpace c = false) :
    ∃ rest, trim (c :: s) = c :: rest := by
  unfold trim
  rw [trimStart_cons_of_not_space s h]
  have hne : trimStart (c :: s).reverse ≠ [] :=
    trimStart_ne_nil_of_mem (c := c) (by simp) h
  have hsuf : trimStart (c :: s).reverse <:+ (c :: s).reverse := List.dropWhile_suffix _
  obtain ⟨p, hp⟩ := hsuf
  have hrev : (c :: s) = (trimStart (c :: s).reverse).reverse ++ p.reverse := by
    have := congrArg List.reverse hp
    simpa using this.symm
  cases hr : (trimStart (c :: s).reverse).reverse with
  | nil =>
    exfalso
    apply hne
    simpa using hr
  | cons x rest =>
    rw [hr] at hrev
    simp only [List.cons_append, List.cons.injEq] at hrev
    exact ⟨rest, by rw [hrev.1]⟩

theorem trim_ne_nil_of_head {c : Char} (s : Str) (h : isWhiteSpace c = false) :
    trim (c :: s) ≠ [] := by
  obtain ⟨rest, hr⟩ := trim_cons_of_not_space s h
  rw [hr]; simp

/-! ## The captures of the program's patterns -/

/-- A group that every run goes through is captured, as a piece of the text consumed by
the body of the group. -/
theorem exec_group_some {re : RegExp} {text : Str} {mt : MatchResult} (n : Nat)
    (hset : setsGroup n re.re = true) (h : re.exec text = some mt) :
    ∃ v, mt.get n = some v ∧ v <:+: text ∧ ∃ body ∈ groupBodies n re.re, Lang re.flags body v := by
  obtain ⟨_, _, hcap, hsome⟩ := exec_capture h
  obtain ⟨v, hv⟩ := hsome n hset
  exact ⟨v, hv, (hcap n v hv).1, (hcap n v hv).2⟩

theorem nameGood_of_head {p : RegExp} (hset : setsGroup 1 p.re = true)
    (hhead : ∀ body ∈ groupBodies 1 p.re, HeadIn p.flags (fun c => isLetter c = true) body) :
    NameGood p := by
  intro text mt h
  obtain ⟨v, hv, _, body, hb, hl⟩ := exec_group_some 1 hset h
  obtain ⟨c, rest, rfl, hc⟩ := hhead body hb v hl
  exact ⟨c, rest, hv, hc⟩

theorem headIn_labelled (fl : Flags) (b : Re) :
    HeadIn fl (fun c => isLetter c = true) (.seq (.plus alpha) b) :=
  headIn_seq _ (headIn_plus _ _ (headIn_cls (fun _ h => alpha_letter h)))

theorem headIn_capital (fl : Flags) (b : Re) :
    HeadIn fl (fun c => isLetter c = true) (.seq upper b) :=
  headIn_seq _ (headIn_cls (fun _ h => upper_letter h))

theorem nameGood_namePattern0 : NameGood namePattern0 := by
  apply nameGood_of_head (by decide)
  intro body hb
  have : groupBodies 1 namePattern0.re =
      [.seq (.plus alpha) (.range 0 2 (.seq (.plus .ws) (.plus alphaApos)))] := rfl
  rw [this, List.mem_singleton] at hb
  subst hb
  exact headIn_labelled _ _

theorem nameGood_namePattern1 : NameGood namePattern1 := by
  apply nameGood_of_head (by decide)
  intro body hb
  have : groupBodies 1 namePattern1.re =
      [.seq (.plus alpha) (.range 0 2 (.seq (.plus .ws) (.plus alphaApos)))] := rfl
  rw [this, List.mem_singleton] at hb
  subst hb
  exact headIn_labelled _ _

theorem nameGood_namePattern2 : NameGood namePattern2 := by
  apply nameGood_of_head (by decide)
  intro body hb
  have : groupBodies 1 namePattern2.re = [.seq upper (.plus lower)] := rfl
  rw [this, List.mem_singleton] at hb
  subst hb
  exact headIn_capital _ _

theorem nameGood_namePattern3 : NameGood namePattern3 := by
  apply nameGood_of_head (by decide)
  intro body hb
  have : groupBodies 1 namePattern3.re =
      [.seq upper (.seq (.plus lower)
        (.range 1 2 (.seq (.plus .ws) (.seq upper (.plus lowerApos)))))] := rfl
  rw [this, List.mem_singleton] at hb
  subst hb
  exact headIn_capital _ _

theorem nameGood_namePattern4 : NameGood namePattern4 := by
  apply nameGood_of_head (by decide)
  intro body hb
  have : groupBodies 1 namePattern4.re =
      [.seq upper (.seq (.plus lower) (.seq (.plus .ws) (.seq upper (.seq (.opt (.chr '.'))
        (.seq (.plus .ws) (.seq upper (.plus lower)))))))] := rfl
  rw [this, List.mem_singleton] at hb
  subst hb
  exact headIn_capital _ _

theorem nameGood_namePattern5 : NameGood namePattern5 := by
  apply nameGood_of_head (by decide)
  intro body hb
  have : groupBodies 1 namePattern5.re =
      [.seq upper (.seq (.plus lower)
        (.range 1 2 (.seq (.plus .ws) (.seq upper (.plus lower)))))] := rfl
  rw [this, List.mem_singleton] at hb
  subst hb
  exact headIn_capital _ _

theorem nameGood_contactSection : NameGood contactSectionPattern := by
  apply nameGood_of_head (by decide)
  intro body hb
  have : groupBodies 1 contactSectionPattern.re =
      [.seq (.plus alpha) (.range 0 2 (.seq (.plus .ws) (.plus alpha)))] := rfl
  rw [this, List.mem_singleton] at hb
  subst hb
  exact headIn_labelled _ _

theorem nameGood_bulletName : NameGood bulletNamePattern := by
  apply nameGood_of_head (by decide)
  intro body hb
  have : groupBodies 1 bulletNamePattern.re =
      [.seq (.plus alpha) (.range 0 2 (.seq (.plus .ws) (.plus alpha)))] := rfl
  rw [this, List.mem_singleton] at hb
  subst hb
  exact headIn_labelled _ _

theorem nameGood_directBullet : NameGood directBulletPattern := by
  apply nameGood_of_head (by decide)
  intro body hb
  have : groupBodies 1 directBulletPattern.re =
      [.seq upper (.seq (.plus lower)
        (.range 0 2 (.seq (.plus .ws) (.seq upper (.plus lower)))))] := rfl
  rw [this, List.mem_singleton] at hb
  subst hb
  exact headIn_capital _ _

theorem nameGood_namePatterns : ∀ p ∈ namePatterns, NameGood p := by
  intro p hp
  simp only [namePatterns, List.mem_cons, List.mem_singleton, List.not_mem_nil, or_false] at hp
  rcases hp with rfl | rfl | rfl | rfl | rfl | rfl
  · exact nameGood_namePattern0
  · exact nameGood_namePattern1
  · exact nameGood_namePattern2
  · exact nameGood_namePattern3
  · exact nameGood_namePattern4
  · exact nameGood_namePattern5

/-- The primary loop never raises; what it finds is not empty, has no role keyword and
carries the confidence of the index of a pattern of the list. -/
theorem primaryName_spec (text : Str) :
    ∀ (pats : List RegExp) (i : Nat), (∀ p ∈ pats, NameGood p) →
      ∃ r, primaryName text i pats = some r ∧
        ∀ name conf, r = some (name, conf) →
          name ≠ [] ∧ containsRoleKeyword roleKeywords name = false ∧
          ∃ j, i ≤ j ∧ j < i + pats.length ∧ conf = nameConfidence j := by
  intro pats
  induction pats with
  | nil => intro i _; exact ⟨none, rfl, fun _ _ h => by cases h⟩
  | cons p rest ih =>
    intro i hgood
    have hrest := ih (i + 1) (fun q hq => hgood q (List.mem_cons_of_mem _ hq))
    have hshift : ∀ r, primaryName text (i + 1) rest = some r →
        (∀ name conf, r = some (name, conf) →
          name ≠ [] ∧ containsRoleKeyword roleKeywords name = false ∧
          ∃ j, i + 1 ≤ j ∧ j < i + 1 + rest.length ∧ conf = nameConfidence j) →
        ∀ name conf, r = some (name, conf) →
          name ≠ [] ∧ containsRoleKeyword roleKeywords name = false ∧
          ∃ j, i ≤ j ∧ j < i + (p :: rest).length ∧ conf = nameConfidence j := by
      intro r _ h name conf hr
      obtain ⟨h1, h2, j, hj1, hj2, hj3⟩ := h name conf hr
      exact ⟨h1, h2, j, by omega, by simp only [List.length_cons]; omega, hj3⟩
    obtain ⟨r, hr, hspec⟩ := hrest
    rw [primaryName]
    cases hexec : p.exec text with
    | none => exact ⟨r, hr, hshift r hr hspec⟩
    | some mt =>
      obtain ⟨c, cs, hget, hc⟩ := hgood p (List.mem_cons_self _ _) text mt hexec
      simp only [hget]
      by_cases hk : containsRoleKeyword roleKeywords (trim (c :: cs)) = true
      · rw [if_pos hk]
        exact ⟨r, hr, hshift r hr hspec⟩
      · rw [if_neg hk]
        refine ⟨_, rfl, ?_⟩
        intro name conf hnc
        simp only [Option.some.injEq, Prod.mk.injEq] at hnc
        obtain ⟨rfl, rfl⟩ := hnc
        exact ⟨trim_ne_nil_of_head cs (letter_not_space hc), by simpa using hk, i, le_refl _,
          by simp, rfl⟩

/-- The secondary pass never raises; what it finds is not empty and has confidence 90 or 95. -/
theorem secondaryName_spec (text : Str) :
    ∃ r, secondaryName text = some r ∧
      ∀ name conf, r = some (name, conf) → name ≠ [] ∧ (conf = 90 ∨ conf = 95) := by
  unfold secondaryName
  cases h1 : contactSectionPattern.exec text with
  | some mt =>
    obtain ⟨c, cs, hget, hc⟩ := nameGood_contactSection text mt h1
    simp only [hget]
    refine ⟨_, rfl, ?_⟩
    intro name conf hnc
    simp only [Option.some.injEq, Prod.mk.injEq] at hnc
    obtain ⟨rfl, rfl⟩ := hnc
    exact ⟨trim_ne_nil_of_head cs (letter_not_space hc), Or.inl rfl⟩
  | none =>
    simp only
    cases h2 : bulletNamePattern.exec text with
    | some mt =>
      obtain ⟨c, cs, hget, hc⟩ := nameGood_bulletName text mt h2
      simp only [hget]
      refine ⟨_, rfl, ?_⟩
      intro name conf hnc
      simp only [Option.some.injEq, Prod.mk.injEq] at hnc
      obtain ⟨rfl, rfl⟩ := hnc
      exact ⟨trim_ne_nil_of_head cs (letter_not_space hc), Or.inr rfl⟩
    | none =>
      simp only
      cases h3 : directBulletPattern.exec text with
      | some mt =>
        obtain ⟨c, cs, hget, hc⟩ := nameGood_directBullet text mt h3
        simp only [hget]
        by_cases hk : containsRoleKeyword roleKeywordsBullet (trim (c :: cs)) = true
        · rw [if_pos hk]
          exact ⟨none, rfl, fun _ _ h => by cases h⟩
        · rw [if_neg hk]
          refine ⟨_, rfl, ?_⟩
          intro name conf hnc
          simp only [Option.some.injEq, Prod.mk.injEq] at hnc
          obtain ⟨rfl, rfl⟩ := hnc
          exact ⟨trim_ne_nil_of_head cs (letter_not_space hc), Or.inl rfl⟩
      | none => exact ⟨none, rfl, fun _ _ h => by cases h⟩

/-- The name part never raises: the name is not empty, and the confidence is that of a
primary pattern, 90 or 95 from the secondary pass, or 30 with the sentinel name. -/
theorem extractName_spec (text : Str) :
    ∃ name conf, extractName text = some (name, conf) ∧ name ≠ [] ∧
      ((∃ j, j < 6 ∧ conf = nameConfidence j) ∨ conf = 90 ∨ conf = 95 ∨
        (conf = 30 ∧ name = "John Doe".toList)) := by
  obtain ⟨r, hr, hspec⟩ := primaryName_spec text namePatterns 0 nameGood_namePatterns
  unfold extractName
  rw [hr]
  cases r with
  | some found =>
    obtain ⟨name, conf⟩ := found
    obtain ⟨h1, _, j, _, hj, hc⟩ := hspec name conf rfl
    exact ⟨name, conf, rfl, h1, Or.inl ⟨j, by simpa [namePatterns] using hj, hc⟩⟩
  | none =>
    obtain ⟨r2, hr2, hspec2⟩ := secondaryName_spec text
    simp only [hr2]
    cases r2 with
    | some found =>
      obtain ⟨name, conf⟩ := found
      obtain ⟨h1, h2⟩ := hspec2 name conf rfl
      refine ⟨name, conf, rfl, h1, Or.inr ?_⟩
      rcases h2 with h2 | h2
      · exact Or.inl h2
      · exact Or.inr (Or.inl h2)
    | none =>
      exact ⟨_, _, rfl, by decide, Or.inr (Or.inr (Or.inr ⟨rfl, rfl⟩))⟩

/-! ## Runs under other flags, runs without captures -/

theorem repRun_mono {R R' : St → St → Prop} (h : ∀ s t, R s t → R' s t)
    {min : Nat} {max : Option Nat} {s t : St} (hr : RepRun R min max s t) :
    RepRun R' min max s t := by
  induction hr with
  | done hd => exact .done hd
  | more hmax hst hne _ ih => exact .more hmax (h _ _ hst) hne ih

theorem step_flagFree (fl fl' : Flags) (r : Re) :
    FlagFree fl fl' r → ∀ s t, Step fl r s t → Step fl' r s t := by
  induction r with
  | empty => intro _ s t h; exact h
  | cls items =>
    intro hf s t h
    obtain ⟨c, rest, hs, hc, ht⟩ := h
    exact ⟨c, rest, hs, by rw [← hf c]; exact hc, ht⟩
  | seq a b iha ihb =>
    intro hf s t h
    obtain ⟨u, hu, ht⟩ := h
    exact ⟨u, iha hf.1 _ _ hu, ihb hf.2 _ _ ht⟩
  | alt a b iha ihb =>
    intro hf s t h
    rcases h with h | h
    · exact Or.inl (iha hf.1 _ _ h)
    · exact Or.inr (ihb hf.2 _ _ h)
  | rep g min max a iha => intro hf s t h; exact repRun_mono (iha hf) h
  | group n a iha =>
    intro hf s t h
    obtain ⟨u, hu, ht⟩ := h
    exact ⟨u, iha hf _ _ hu, ht⟩
  | bol =>
    intro hf s t h
    obtain ⟨hb, ht⟩ := h
    refine ⟨?_, ht⟩
    have hf' : fl.multiline = fl'.multiline := hf
    simpa [bolHolds, hf'] using hb
  | eol =>
    intro hf s t h
    obtain ⟨hb, ht⟩ := h
    refine ⟨?_, ht⟩
    have hf' : fl.multiline = fl'.multiline := hf
    simpa [eolHolds, hf'] using hb
  | wordB => intro _ s t h; exact h
  | look a _ => intro hf; exact hf.elim

theorem step_noCaps (fl : Flags) (r : Re) :
    noCaps r = true → ∀ s t, Step fl r s t → t.caps = s.caps := by
  induction r with
  | empty => intro _ s t h; cases h; rfl
  | cls items => intro _ s t h; obtain ⟨c, rest, _, _, rfl⟩ := h; rfl
  | seq a b iha ihb =>
    intro hn s t h
    obtain ⟨u, hu, ht⟩ := h
    simp only [noCaps, Bool.and_eq_true] at hn
    rw [ihb hn.2 _ _ ht, iha hn.1 _ _ hu]
  | alt a b iha ihb =>
    intro hn s t h
    simp only [noCaps, Bool.and_eq_true] at hn
    rcases h with h | h
    · exact iha hn.1 _ _ h
    · exact ihb hn.2 _ _ h
  | rep g min max a iha =>
    intro hn s t h
    have hn' : noCaps a = true := hn
    have hinv := repRun_inv (R := Step fl a) (P := fun x => x.caps = s.caps)
      (fun x y hxy hx => (iha hn' _ _ hxy).trans hx) h
    exact hinv rfl
  | group n a _ => intro hn; cases hn
  | bol => intro _ s t h; obtain ⟨_, rfl⟩ := h; rfl
  | eol => intro _ s t h; obtain ⟨_, rfl⟩ := h; rfl
  | wordB => intro _ s t h; obtain ⟨_, rfl⟩ := h; rfl
  | look a _ => intro hn; cases hn

/-- A run of a capture-free pattern from a start position ends in a start position. -/
theorem step_noCaps_start {fl : Flags} {r : Re} (hn : noCaps r = true) {p q : Str} {t : St}
    (h : Step fl r ⟨p.reverse, q, []⟩ t) :
    ∃ w, q = w ++ t.suf ∧ t = ⟨(p ++ w).reverse, t.suf, []⟩ := by
  obtain ⟨w, hw, hpre⟩ := step_suffix fl r _ _ h
  have hcaps := step_noCaps fl r hn _ _ h
  refine ⟨w, hw, ?_⟩
  cases t with
  | mk pre suf caps =>
    simp only at hpre hcaps
    simp only [St.mk.injEq, List.reverse_append, true_and]
    exact ⟨hpre, hcaps⟩

/-! ## Texts consumed by a quantified class -/

theorem flatten_singletons {ws : List Str} {P : Char → Prop}
    (h : ∀ x ∈ ws, ∃ c, x = [c] ∧ P c) :
    ws.flatten.length = ws.length ∧ ∀ c ∈ ws.flatten, P c := by
  induction ws with
  | nil => simp
  | cons x ws ih =>
    obtain ⟨c, rfl, hc⟩ := h x (List.mem_cons_self _ _)
    obtain ⟨h1, h2⟩ := ih (fun y hy => h y (List.mem_cons_of_mem _ hy))
    refine ⟨by simp [h1], ?_⟩
    intro d hd
    simp only [List.flatten_cons, List.singleton_append, List.mem_cons] at hd
    rcases hd with rfl | hd
    · exact hc
    · exact h2 d hd

/-- The texts consumed by a quantified class: characters of the class, as many as the
quantifier allows. -/
theorem lang_rep_cls {fl : Flags} {g : Bool} {mn : Nat} {mx : Option Nat}
    {items : List ClassItem} {w : Str} (h : Lang fl (.rep g mn mx (.cls items)) w) :
    (∀ c ∈ w, classTest fl.ignoreCase items c = true) ∧
      ((∀ n, mx = some n → mn ≤ n) → mn ≤ w.length) ∧ (∀ n, mx = some n → w.length ≤ n) := by
  obtain ⟨ws, rfl, hmin, hmax, hall⟩ := h
  obtain ⟨h1, h2⟩ := flatten_singletons (P := fun c => classTest fl.ignoreCase items c = true) hall
  refine ⟨h2, ?_, ?_⟩
  · intro hwf; rw [h1]; exact hmin hwf
  · intro n hn; rw [h1]; exact hmax n hn

/-! ## Classes without letters do not depend on the `i` flag -/

theorem lowerChar_letter {c : Char} (h : isUpperAZ c = true) : isLetter (lowerChar c) = true := by
  have key : ∀ k < 0x5B, 0x41 ≤ k → isLetter (Char.ofNat (k + 32)) = true := by decide
  simp only [isUpperAZ, Bool.and_eq_true, decide_eq_true_eq] at h
  have := key c.toNat (by omega) h.1
  simp only [lowerChar, isUpperAZ, h.1, h.2, decide_True, Bool.and_self, if_true]
  exact this

theorem upperChar_letter {c : Char} (h : isLowerAZ c = true) : isLetter (upperChar c) = true := by
  have key : ∀ k < 0x7B, 0x61 ≤ k → isLetter (Char.ofNat (k - 32)) = true := by decide
  simp only [isLowerAZ, Bool.and_eq_true, decide_eq_true_eq] at h
  have := key c.toNat (by omega) h.1
  simp only [upperChar, isLowerAZ, h.1, h.2, decide_True, Bool.and_self, if_true]
  exact this

/-- A class none of whose members is a letter, U+00E2 or U+00C2 matches the same
characters with and without the `i` flag. -/
theorem classTest_caseBlind {items : List ClassItem}
    (h : ∀ y, (isLetter y = true ∨ y.toNat = 0xE2 ∨ y.toNat = 0xC2) →
      items.any (fun it => it.test y) = false) (c : Char) :
    classTest true items c = classTest false items c := by
  simp only [classTest, if_true, Bool.false_eq_true, if_false]
  unfold caseVariants
  by_cases h1 : isUpperAZ c = true
  · rw [if_pos h1]
    have hc := h c (Or.inl (by simp [isLetter, h1]))
    have hl := h (lowerChar c) (Or.inl (lowerChar_letter h1))
    simp only [List.any_cons, List.any_nil, Bool.or_false, hc, hl, Bool.or_self]
  · rw [if_neg h1]
    by_cases h2 : isLowerAZ c = true
    · rw [if_pos h2]
      have hc := h c (Or.inl (by simp [isLetter, h2]))
      have hl := h (upperChar c) (Or.inl (upperChar_letter h2))
      simp only [List.any_cons, List.any_nil, Bool.or_false, hc, hl, Bool.or_self]
    · rw [if_neg h2]
      by_cases h3 : (c.toNat == 0xE2) = true
      · rw [if_pos h3]
        have hc := h c (Or.inr (Or.inl (by simpa using h3)))
        have hl := h (Char.ofNat 0xC2) (Or.inr (Or.inr (by decide)))
        simp only [List.any_cons, List.any_nil, Bool.or_false, hc, hl, Bool.or_self]
      · rw [if_neg h3]
        by_cases h4 : (c.toNat == 0xC2) = true
        · rw [if_pos h4]
          have hc := h c (Or.inr (Or.inr (by simpa using h4)))
          have hl := h (Char.ofNat 0xE2) (Or.inr (Or.inl (by decide)))
          simp only [List.any_cons, List.any_nil, Bool.or_false, hc, hl, Bool.or_self]
        · rw [if_neg h4]
          simp only [List.any_cons, List.any_nil, Bool.or_false]

theorem letterLike_toNat {y : Char}
    (h : isLetter y = true ∨ y.toNat = 0xE2 ∨ y.toNat = 0xC2) : 0x41 ≤ y.toNat := by
  rcases h with h | h | h
  · simp only [isLetter, isUpperAZ, isLowerAZ, Bool.or_eq_true, Bool.and_eq_true,
      decide_eq_true_eq] at h
    omega
  · omega
  · omega

theorem letterLike_not_digit {y : Char}
    (h : isLetter y = true ∨ y.toNat = 0xE2 ∨ y.toNat = 0xC2) : isDigit y = false := by
  have := letterLike_toNat h
  simp only [isDigit, Bool.and_eq_false_iff, decide_eq_false_iff_not]
  omega

theorem letterLike_not_space {y : Char}
    (h : isLetter y = true ∨ y.toNat = 0xE2 ∨ y.toNat = 0xC2) : isWhiteSpace y = false := by
  rcases h with h | h | h
  · exact letter_not_space h
  · simp [isWhiteSpace, h]
  · simp [isWhiteSpace, h]

theorem letterLike_ne_low {y : Char} {d : Char} (hd : d.toNat < 0x41)
    (h : isLetter y = true ∨ y.toNat = 0xE2 ∨ y.toNat = 0xC2) : (y == d) = false := by
  have := letterLike_toNat h
  rw [beq_eq_false_iff_ne]
  intro hyd
  rw [hyd] at this
  omega

/-- The phone core has the same runs with and without the `i` flag. -/
theorem flagFree_phoneCore : FlagFree ⟨true, false⟩ ⟨false, false⟩ phoneCore := by
  have hpar (d : Char) (hd : d.toNat < 0x41) :
      ∀ c, classTest true [.ch d] c = classTest false [.ch d] c :=
    classTest_caseBlind (fun y hy => by
      simp only [List.any_cons, List.any_nil, Bool.or_false, ClassItem.test]
      exact letterLike_ne_low hd hy)
  have hdig : ∀ c, classTest true [.digit] c = classTest false [.digit] c :=
    classTest_caseBlind (fun y hy => by
      simp only [List.any_cons, List.any_nil, Bool.or_false, ClassItem.test]
      exact letterLike_not_digit hy)
  have hsep : ∀ c, classTest true [.ch '-', .ch '.', .space] c =
      classTest false [.ch '-', .ch '.', .space] c :=
    classTest_caseBlind (fun y hy => by
      simp only [List.any_cons, List.any_nil, Bool.or_false, ClassItem.test,
        letterLike_ne_low (d := '-') (by decide) hy, letterLike_ne_low (d := '.') (by decide) hy,
        letterLike_not_space hy, Bool.or_self])
  exact ⟨hpar '(' (by decide), hdig, hpar ')' (by decide), hsep, hdig, hsep, hdig⟩

/-! ## The phone patterns -/

theorem hasMatch_phonePattern0_of_core {fl : Flags} {p q : Str} {t : St}
    (hfl : fl = ⟨false, false⟩ ∨ fl = ⟨true, false⟩) (text : Str) (htext : text = p ++ q)
    (h : Step fl phoneCore ⟨p.reverse, q, []⟩ t) : HasMatch phonePattern0 text := by
  have h' : Step ⟨false, false⟩ phoneCore ⟨p.reverse, q, []⟩ t := by
    rcases hfl with rfl | rfl
    · exact h
    · exact step_flagFree _ _ _ flagFree_phoneCore _ _ h
  exact ⟨p, q, _, htext, ⟨t, h', rfl⟩⟩

/-- Where the `+1` pattern has a match, the bare pattern has one too. -/
theorem hasMatch_phonePattern1 {text : Str} (h : HasMatch phonePattern1 text) :
    HasMatch phonePattern0 text := by
  obtain ⟨p, q, t, htext, u, hstep, _⟩ := h
  obtain ⟨u1, h1, u2, h2, u3, h3, h4⟩ := hstep
  have hpre : Step ⟨false, false⟩ (.seq (.chr '+') (.seq (.chr '1') (.opt phoneSep)))
      ⟨p.reverse, q, []⟩ u3 := ⟨u1, h1, u2, h2, h3⟩
  obtain ⟨w, hw, hu3⟩ := step_noCaps_start (by decide) hpre
  rw [hu3] at h4
  exact hasMatch_phonePattern0_of_core (Or.inl rfl) text
    (by rw [htext, hw, List.append_assoc]) h4

/-- Where the `Phone:` pattern has a match, the bare pattern has one too. -/
theorem hasMatch_phonePattern2 {text : Str} (h : HasMatch phonePattern2 text) :
    HasMatch phonePattern0 text := by
  obtain ⟨p, q, t, htext, u, hstep, _⟩ := h
  obtain ⟨u1, h1, u2, h2, u3, h3, h4⟩ := hstep
  have hpre : Step ⟨true, false⟩ (.seq (.str "Phone") (.seq (.opt (.chr ':')) (.star .ws)))
      ⟨p.reverse, q, []⟩ u3 := ⟨u1, h1, u2, h2, h3⟩
  obtain ⟨w, hw, hu3⟩ := step_noCaps_start (by decide) hpre
  obtain ⟨u4, h5, _⟩ := h4
  rw [hu3] at h5
  exact hasMatch_phonePattern0_of_core (Or.inr rfl) text
    (by rw [htext, hw, List.append_assoc]) h5

theorem countDigits_append (a b : Str) : countDigits (a ++ b) = countDigits a + countDigits b := by
  simp [countDigits, List.countP_append]

theorem countDigits_all {w : Str} (h : ∀ c ∈ w, isDigit c = true) : countDigits w = w.length := by
  unfold countDigits
  exact List.countP_eq_length.mpr h

theorem countDigits_none {w : Str} (h : ∀ c ∈ w, isDigit c = false) : countDigits w = 0 := by
  unfold countDigits
  rw [List.countP_eq_zero]
  intro c hc
  rw [h c hc]
  simp

theorem lang_digits {g : Bool} {n : Nat} {w : Str}
    (h : Lang ⟨false, false⟩ (.rep g n (some n) (.cls [.digit])) w) : countDigits w = n := by
  obtain ⟨hall, hmin, hmax⟩ := lang_rep_cls h
  have h1 := hmin (by intro k hk; cases hk; exact le_refl _)
  have h2 := hmax n rfl
  rw [countDigits_all]
  · omega
  · intro c hc
    simpa [classTest, ClassItem.test] using hall c hc

theorem lang_nonDigits {g : Bool} {mn : Nat} {mx : Option Nat} {items : List ClassItem} {w : Str}
    (hitems : ∀ c, classTest false items c = true → isDigit c = false)
    (h : Lang ⟨false, false⟩ (.rep g mn mx (.cls items)) w) : countDigits w = 0 := by
  obtain ⟨hall, _, _⟩ := lang_rep_cls h
  exact countDigits_none (fun c hc => hitems c (hall c hc))

theorem space_not_digit {c : Char} (h : isWhiteSpace c = true) : isDigit c = false := by
  simp only [isWhiteSpace, Bool.or_eq_true, Bool.and_eq_true, beq_iff_eq,
    decide_eq_true_eq] at h
  simp only [isDigit, Bool.and_eq_false_iff, decide_eq_false_iff_not]
  omega

/-- A text consumed by the phone core has exactly ten decimal digits. -/
theorem lang_phoneCore_digits {v : Str} (h : Lang ⟨false, false⟩ phoneCore v) :
    countDigits v = 10 := by
  obtain ⟨w1, r1, rfl, h1, w2, r2, rfl, h2, w3, r3, rfl, h3, w4, r4, rfl, h4, w5, r5, rfl, h5,
    w6, w7, rfl, h6, h7⟩ := h
  have hch (d : Char) (hd : isDigit d = false) :
      ∀ c, classTest false [.ch d] c = true → isDigit c = false := by
    intro c hc
    have : c = d := by simpa [classTest, ClassItem.test] using hc
    rw [this]; exact hd
  have hsep : ∀ c, classTest false [.ch '-', .ch '.', .space] c = true → isDigit c = false := by
    intro c hc
    simp only [classTest, Bool.false_eq_true, if_false, List.any_cons, List.any_nil,
      Bool.or_false, ClassItem.test, Bool.or_eq_true, beq_iff_eq] at hc
    rcases hc with hc | hc | hc
    · rw [hc]; decide
    · rw [hc]; decide
    · exact space_not_digit hc
  simp only [countDigits_append]
  rw [lang_nonDigits (hch '(' (by decide)) h1, lang_digits h2,
    lang_nonDigits (hch ')' (by decide)) h3, lang_nonDigits hsep h4, lang_digits h5,
    lang_nonDigits hsep h6, lang_digits h7]

/-! ## The contact parts of `extractPersonalInfo` -/

theorem lang_ne_nil {fl : Flags} {r : Re} {v : Str} (hlen : 1 ≤ minLen r) (h : Lang fl r v) :
    v ≠ [] := by
  have := lang_minLen fl r v h
  intro hv
  rw [hv] at this
  simp only [List.length_nil] at this
  omega

/-- The email part never raises: without a match the field is empty and has no
confidence; with a match it is the lower-cased capture, which is not empty, with
confidence 95. -/
theorem extractEmail_spec (text : Str) :
    (emailPattern.exec text = none ∧ extractEmail text = some ([], none)) ∨
    (∃ mt v, emailPattern.exec text = some mt ∧ mt.get 1 = some v ∧ v = mt.full ∧ v ≠ [] ∧
      extractEmail text = some (toLowerCase v, some 95)) := by
  unfold extractEmail
  cases h : emailPattern.exec text with
  | none => exact Or.inl ⟨rfl, rfl⟩
  | some mt =>
    right
    obtain ⟨p, w, q, t, htext, hstep, hsuf, hmt, _⟩ := exec_some_run h
    obtain ⟨u, hu, ht⟩ := hstep
    obtain ⟨w', hw', hl⟩ := step_lang _ _ _ _ hu
    have hsuf' : u.suf = q := by rw [← hsuf, ht]
    have hww : w' = w := by
      simp only at hw'
      rw [hsuf'] at hw'
      exact (List.append_cancel_right hw').symm
    have hget : mt.get 1 = some w := by
      rw [hmt, ht]
      simp only [MatchResult.get, List.find?, beq_self_eq_true, Option.map_some',
        Option.some.injEq]
      rw [hsuf', List.length_append]
      simp
    refine ⟨mt, w, rfl, hget, by rw [hmt], ?_, by simp only [hget]⟩
    rw [← hww]
    exact lang_ne_nil (by decide) hl

/-- The value and the capture of a match of the bare phone pattern. -/
theorem phonePattern0_capture {text : Str} {mt : MatchResult}
    (h : phonePattern0.exec text = some mt) :
    ∃ c cs, mt.get 1 = some (c :: cs) ∧ (c :: cs) <:+: text ∧
      Lang ⟨false, false⟩ phoneCore (c :: cs) := by
  obtain ⟨v, hv, hin, body, hb, hl⟩ := exec_group_some 1 (by decide) h
  have hbodies : groupBodies 1 phonePattern0.re = [phoneCore] := rfl
  rw [hbodies, List.mem_singleton] at hb
  subst hb
  have hl' : Lang ⟨false, false⟩ phoneCore v := hl
  have hne : v ≠ [] := lang_ne_nil (by decide) hl'
  cases v with
  | nil => exact absurd rfl hne
  | cons c cs => exact ⟨c, cs, hv, hin, hl'⟩

/-- The phone part never raises and only its first pattern ever decides: without a
match of the bare pattern the field is empty and has no confidence; with one it is the
capture, a piece of the text consumed by the phone core, with confidence 85. -/
theorem extractPhone_spec (text : Str) :
    (phonePattern0.exec text = none ∧ extractPhone text phoneMatches = some ([], none) ∧
      extractPhone text [phonePattern0] = some ([], none)) ∨
    (∃ mt ph, phonePattern0.exec text = some mt ∧ mt.get 1 = some ph ∧ ph ≠ [] ∧
      ph <:+: text ∧ Lang ⟨false, false⟩ phoneCore ph ∧
      extractPhone text phoneMatches = some (ph, some 85) ∧
      extractPhone text [phonePattern0] = some (ph, some 85)) := by
  cases h : phonePattern0.exec text with
  | none =>
    left
    have hno : ¬ HasMatch phonePattern0 text := (exec_eq_none_iff_not_hasMatch _ _).mp h
    have h1 : phonePattern1.exec text = none :=
      (exec_eq_none_iff_not_hasMatch _ _).mpr (fun hm => hno (hasMatch_phonePattern1 hm))
    have h2 : phonePattern2.exec text = none :=
      (exec_eq_none_iff_not_hasMatch _ _).mpr (fun hm => hno (hasMatch_phonePattern2 hm))
    refine ⟨rfl, ?_, ?_⟩
    · simp only [phoneMatches, extractPhone, h, h1, h2]
    · simp only [extractPhone, h]
  | some mt =>
    right
    obtain ⟨c, cs, hget, hin, hl⟩ := phonePattern0_capture h
    refine ⟨mt, c :: cs, rfl, hget, by simp, hin, hl, ?_, ?_⟩
    · simp only [phoneMatches, extractPhone, h, hget]
    · simp only [extractPhone, h, hget]

/-- The location part never raises. -/
theorem extractLocation_total (text : Str) :
    ∃ l c, extractLocation text locationPatterns = some (l, c) ∧
      (c = none ∨ c = some 75) := by
  have step : ∀ (p : RegExp) (rest : List RegExp), setsGroup 1 p.re = true →
      (∃ l c, extractLocation text rest = some (l, c) ∧ (c = none ∨ c = some 75)) →
      ∃ l c, extractLocation text (p :: rest) = some (l, c) ∧ (c = none ∨ c = some 75) := by
    intro p rest hset hrest
    rw [extractLocation]
    cases h : p.exec text with
    | none => exact hrest
    | some mt =>
      obtain ⟨v, hv, _⟩ := exec_group_some 1 hset h
      simp only [hv]
      exact ⟨_, _, rfl, Or.inr rfl⟩
  exact step _ _ (by decide) (step _ _ (by decide) (step _ _ (by decide)
    ⟨[], none, rfl, Or.inl rfl⟩))

/-- How `extractPersonalInfo` assembles the results of its four parts. -/
theorem extractPersonalInfo_eq {text name email phone location : Str} {cn : Nat}
    {ce cp cl : Option Nat} (h1 : extractName text = some (name, cn))
    (h2 : extractEmail text = some (email, ce))
    (h3 : extractPhone text phoneMatches = some (phone, cp))
    (h4 : extractLocation text locationPatterns = some (location, cl)) :
    extractPersonalInfo text = some ⟨name, email, phone, location, ⟨some cn, ce, cp, cl⟩⟩ := by
  unfold extractPersonalInfo
  rw [h1, h2, h3, h4]

theorem extractEmail_total (text : Str) :
    ∃ e c, extractEmail text = some (e, c) := by
  rcases extractEmail_spec text with ⟨_, h⟩ | ⟨_, _, _, _, _, _, h⟩
  · exact ⟨_, _, h⟩
  · exact ⟨_, _, h⟩

theorem extractPhone_total (text : Str) :
    ∃ ph c, extractPhone text phoneMatches = some (ph, c) := by
  rcases extractPhone_spec text with ⟨_, h, _⟩ | ⟨_, _, _, _, _, _, _, h, _⟩
  · exact ⟨_, _, h⟩
  · exact ⟨_, _, h⟩

/-- The method `extractPersonalInfo` returns a record for every text, built from the
results of its four parts. -/
theorem extractPersonalInfo_total (text : Str) :
    ∃ name cn email ce phone cp location cl,
      extractName text = some (name, cn) ∧ extractEmail text = some (email, ce) ∧
      extractPhone text phoneMatches = some (phone, cp) ∧
      extractLocation text locationPatterns = some (location, cl) ∧
      extractPersonalInfo text = some ⟨name, email, phone, location, ⟨some cn, ce, cp, cl⟩⟩ := by
  obtain ⟨name, cn, h1, _⟩ := extractName_spec text
  obtain ⟨email, ce, h2⟩ := extractEmail_total text
  obtain ⟨phone, cp, h3⟩ := extractPhone_total text
  obtain ⟨location, cl, h4, _⟩ := extractLocation_total text
  exact ⟨name, cn, email, ce, phone, cp, location, cl, h1, h2, h3, h4,
    extractPersonalInfo_eq h1 h2 h3 h4⟩

/-! ## Lists without duplicates, the head of a phone, lower case -/

theorem dedupKeepFirst_of_nodup : ∀ (l : List String), l.Nodup → dedupKeepFirst l = l := by
  intro l
  induction l with
  | nil => intro _; rfl
  | cons x xs ih =>
    intro h
    rw [List.nodup_cons] at h
    rw [dedupKeepFirst, ih h.2]
    congr 1
    rw [List.filter_eq_self]
    intro y hy
    have : y ≠ x := fun hyx => h.1 (hyx ▸ hy)
    simpa using this

/-- A text consumed by the phone core starts with `(` or with a decimal digit. -/
theorem lang_phoneCore_head {v : Str} (h : Lang ⟨false, false⟩ phoneCore v) :
    ∀ c, v.head? = some c → c = '(' ∨ isDigit c = true := by
  obtain ⟨w1, r1, rfl, h1, w2, r2, rfl, h2, _⟩ := h
  obtain ⟨hall1, _, _⟩ := lang_rep_cls h1
  obtain ⟨hall2, hmin2, _⟩ := lang_rep_cls h2
  have hlen2 := hmin2 (by intro k hk; cases hk; exact le_refl _)
  intro c hc
  cases w1 with
  | cons x xs =>
    simp only [List.cons_append, List.head?_cons, Option.some.injEq] at hc
    subst hc
    have := hall1 x (List.mem_cons_self _ _)
    left
    simpa [classTest, ClassItem.test] using this
  | nil =>
    cases w2 with
    | nil => simp at hlen2
    | cons y ys =>
      simp only [List.nil_append, List.cons_append, List.head?_cons, Option.some.injEq] at hc
      subst hc
      have := hall2 y (List.mem_cons_self _ _)
      right
      simpa [classTest, ClassItem.test] using this

theorem lowerChar_not_upper (c : Char) : isUpperAZ (lowerChar c) = false := by
  by_cases h : isUpperAZ c = true
  · have key : ∀ k < 0x5B, 0x41 ≤ k → isUpperAZ (Char.ofNat (k + 32)) = false := by decide
    have h' := h
    simp only [isUpperAZ, Bool.and_eq_true, decide_eq_true_eq] at h'
    have := key c.toNat (by omega) h'.1
    simp only [lowerChar, h, if_true]
    exact this
  · simp only [lowerChar, h, if_false]
    simpa using h

/-- A lower-cased text has no upper-case letter. -/
theorem toLowerCase_no_upper (s : Str) : ∀ c ∈ toLowerCase s, isUpperAZ c = false := by
  intro c hc
  simp only [toLowerCase, List.mem_map] at hc
  obtain ⟨d, _, rfl⟩ := hc
  exact lowerChar_not_upper d

/-! ## The matches of a global search -/

theorem search_lang {fl : Flags} {r : Re} {pre suf : Str} {mt : MatchResult}
    (h : search fl r pre suf = some mt) : Lang fl r mt.full := by
  obtain ⟨p, q, t, _, _, ht, rfl⟩ := (search_eq_some_iff fl r mt suf pre).mp h
  obtain ⟨t', hstep, hk⟩ := m_sound _ _ _ _ _ ht
  cases hk
  obtain ⟨w, hw, hl⟩ := step_lang _ _ _ _ hstep
  simp only at hw
  have : q.take (q.length - t.suf.length) = w := by
    rw [hw]; simp
  rw [this]
  exact hl

/-- Every text returned by a global search is consumed by the pattern. -/
theorem globalMatchesFrom_lang (re : RegExp) :
    ∀ (fuel : Nat) (pre suf : Str), ∀ x ∈ globalMatchesFrom re fuel pre suf,
      Lang re.flags re.re x := by
  intro fuel
  induction fuel with
  | zero => intro pre suf x hx; simp [globalMatchesFrom] at hx
  | succ fuel ih =>
    intro pre suf x hx
    rw [globalMatchesFrom] at hx
    cases hs : search re.flags re.re pre suf with
    | none => simp [hs] at hx
    | some mt =>
      simp only [hs] at hx
      have hcases : x = mt.full ∨ ∃ pre' suf', x ∈ globalMatchesFrom re fuel pre' suf' := by
        generalize (mt.index - pre.length +
          (if mt.full.length = 0 then 1 else mt.full.length)) = skip at hx
        by_cases hlt : suf.length < skip
        · rw [if_pos hlt] at hx
          exact Or.inl (List.mem_singleton.mp hx)
        · rw [if_neg hlt] at hx
          rcases List.mem_cons.mp hx with hx | hx
          · exact Or.inl hx
          · exact Or.inr ⟨_, _, hx⟩
      rcases hcases with rfl | ⟨pre', suf', hx'⟩
      · exact search_lang hs
      · exact ih _ _ x hx'

theorem globalMatches_lang (re : RegExp) (text : Str) :
    ∀ x ∈ globalMatches re text, Lang re.flags re.re x :=
  globalMatchesFrom_lang re _ _ _

/-! ## Digits and years -/

theorem classTest_digit {i : Bool} {c : Char} (h : classTest i [.digit] c = true) :
    isDigit c = true := by
  have hblind : classTest true [.digit] c = classTest false [.digit] c :=
    classTest_caseBlind (fun y hy => by
      simp only [List.any_cons, List.any_nil, Bool.or_false, ClassItem.test]
      exact letterLike_not_digit hy) c
  have h' : classTest false [.digit] c = true := by
    cases i
    · exact h
    · rw [← hblind]; exact h
  simpa [classTest, ClassItem.test] using h'

/-- A text consumed by `\d+` is a non-empty string of decimal digits. -/
theorem lang_digits_plus {fl : Flags} {N : Str} (h : Lang fl (.plus .dig) N) :
    N ≠ [] ∧ ∀ c ∈ N, isDigit c = true := by
  obtain ⟨hall, hmin, _⟩ := lang_rep_cls h
  have hlen := hmin (by simp)
  refine ⟨?_, fun c hc => classTest_digit (hall c hc)⟩
  intro hN
  rw [hN] at hlen
  simp at hlen

theorem digit_val {c : Char} (h : isDigit c = true) : c.toNat - 48 ≤ 9 := by
  simp only [isDigit, Bool.and_eq_true, decide_eq_true_eq] at h
  omega

/-- A text matched by `20\d{2}` reads as a number from 2000 to 2099. -/
theorem year_range {x : Str} (h : Lang yearPattern.flags yearPattern.re x) :
    2000 ≤ parseInt x ∧ parseInt x ≤ 2099 := by
  obtain ⟨w1, r1, rfl, ⟨c1, rfl, h1⟩, w2, w3, rfl, ⟨c2, rfl, h2⟩, h3⟩ := h
  obtain ⟨hall, hmin, hmax⟩ := lang_rep_cls h3
  have hlo := hmin (by intro k hk; cases hk; exact le_refl _)
  have hhi := hmax 2 rfl
  have hc1 : c1 = '2' := by simpa [classTest, ClassItem.test, yearPattern] using h1
  have hc2 : c2 = '0' := by simpa [classTest, ClassItem.test, yearPattern] using h2
  subst hc1 hc2
  match w3, hlo, hhi, hall with
  | [a, b], _, _, hall =>
    have ha := digit_val (classTest_digit (hall a (by simp)))
    have hb := digit_val (classTest_digit (hall b (by simp)))
    have h2 : ('2'.toNat - 48) = 2 := by decide
    have h0 : ('0'.toNat - 48) = 0 := by decide
    simp only [parseInt, List.singleton_append, List.foldl_cons, List.foldl_nil, h2, h0]
    omega

/-- The least of `x` and the elements of `xs`, as `Math.min` computes it. -/
theorem foldl_min_spec : ∀ (xs : List Nat) (x : Nat),
    xs.foldl min x ∈ x :: xs ∧ ∀ y ∈ x :: xs, xs.foldl min x ≤ y := by
  intro xs
  induction xs with
  | nil => intro x; simp
  | cons z zs ih =>
    intro x
    obtain ⟨hmem, hle⟩ := ih (min x z)
    simp only [List.foldl_cons]
    refine ⟨?_, ?_⟩
    · rcases List.mem_cons.mp hmem with h | h
      · rw [h]
        rcases Nat.le_total x z with hxz | hxz
        · rw [Nat.min_eq_left hxz]; simp
        · rw [Nat.min_eq_right hxz]; simp
      · exact List.mem_cons_of_mem _ (List.mem_cons_of_mem _ h)
    · intro y hy
      have h0 := hle (min x z) (List.mem_cons_self _ _)
      rcases List.mem_cons.mp hy with rfl | hy
      · exact Nat.le_trans h0 (Nat.min_le_left _ _)
      · rcases List.mem_cons.mp hy with rfl | hy
        · exact Nat.le_trans h0 (Nat.min_le_right _ _)
        · exact hle y (List.mem_cons_of_mem _ hy)

/-- The greatest of `x` and the elements of `xs`, as `Math.max` computes it. -/
theorem foldl_max_spec : ∀ (xs : List Nat) (x : Nat),
    xs.foldl max x ∈ x :: xs ∧ ∀ y ∈ x :: xs, y ≤ xs.foldl max x := by
  intro xs
  induction xs with
  | nil => intro x; simp
  | cons z zs ih =>
    intro x
    obtain ⟨hmem, hle⟩ := ih (max x z)
    simp only [List.foldl_cons]
    refine ⟨?_, ?_⟩
    · rcases List.mem_cons.mp hmem with h | h
      · rw [h]
        rcases Nat.le_total x z with hxz | hxz
        · rw [Nat.max_eq_right hxz]; simp
        · rw [Nat.max_eq_left hxz]; simp
      · exact List.mem_cons_of_mem _ (List.mem_cons_of_mem _ h)
    · intro y hy
      have h0 := hle (max x z) (List.mem_cons_self _ _)
      rcases List.mem_cons.mp hy with rfl | hy
      · exact Nat.le_trans (Nat.le_max_left _ _) h0
      · rcases List.mem_cons.mp hy with rfl | hy
        · exact Nat.le_trans (Nat.le_max_right _ _) h0
        · exact hle y (List.mem_cons_of_mem _ hy)

theorem mathMin_some {argLimit : Nat} {x : Nat} {xs : List Nat}
    (h : xs.length + 1 ≤ argLimit) : mathMin argLimit x xs = some (xs.foldl min x) := by
  unfold mathMin
  rw [if_neg (by omega)]

theorem mathMax_some {argLimit : Nat} {x : Nat} {xs : List Nat}
    (h : xs.length + 1 ≤ argLimit) : mathMax argLimit x xs = some (xs.foldl max x) := by
  unfold mathMax
  rw [if_neg (by omega)]

/-- Beyond the limit of the arguments of a call, `Math.min(...xs)` raises. -/
theorem mathMin_none {argLimit : Nat} {x : Nat} {xs : List Nat}
    (h : argLimit < xs.length + 1) : mathMin argLimit x xs = none := by
  unfold mathMin
  rw [if_pos h]

/-! ## `extractExperience` -/

/-- The capture of a match of an explicit experience pattern is a non-empty string of
decimal digits. -/
theorem expPattern_capture {p : RegExp} (hp : p ∈ expPatterns) {text : Str} {mt : MatchResult}
    (h : p.exec text = some mt) :
    ∃ N, mt.get 1 = some N ∧ N ≠ [] ∧ ∀ c ∈ N, isDigit c = true := by
  have hall : ∀ q ∈ expPatterns, setsGroup 1 q.re = true := by decide
  have hset : setsGroup 1 p.re = true := hall p hp
  have hbodies : groupBodies 1 p.re = [.plus .dig] := by
    simp only [expPatterns, List.mem_cons, List.mem_singleton, List.not_mem_nil, or_false] at hp
    rcases hp with rfl | rfl | rfl <;> rfl
  obtain ⟨N, hN, _, body, hb, hl⟩ := exec_group_some 1 hset h
  rw [hbodies, List.mem_singleton] at hb
  subst hb
  exact ⟨N, hN, lang_digits_plus hl⟩

/-- The loop over the explicit patterns returns the capture of the first pattern that
matches, followed by `" years"`. -/
theorem explicitExperience_spec (text : Str) :
    ∀ (pats : List RegExp), (∀ p ∈ pats, p ∈ expPatterns) →
      ((∀ p ∈ pats, p.exec text = none) ∧ explicitExperience text pats = none) ∨
      (∃ before p after mt N, pats = before ++ p :: after ∧
        (∀ q ∈ before, q.exec text = none) ∧ p.exec text = some mt ∧ mt.get 1 = some N ∧
        N ≠ [] ∧ (∀ c ∈ N, isDigit c = true) ∧
        explicitExperience text pats = some (N ++ " years".toList)) := by
  intro pats
  induction pats with
  | nil => intro _; exact Or.inl ⟨by simp, rfl⟩
  | cons p rest ih =>
    intro hp
    rw [explicitExperience]
    cases h : p.exec text with
    | some mt =>
      right
      obtain ⟨N, hN, hne, hdig⟩ := expPattern_capture (hp p (List.mem_cons_self _ _)) h
      exact ⟨[], p, rest, mt, N, rfl, by simp, h, hN, hne, hdig, by simp only [hN]⟩
    | none =>
      rcases ih (fun q hq => hp q (List.mem_cons_of_mem _ hq)) with
        ⟨hnone, hres⟩ | ⟨before, q, after, mt, N, hsplit, hbefore, hq, hN, hne, hdig, hres⟩
      · left
        refine ⟨?_, hres⟩
        intro q hq
        rcases List.mem_cons.mp hq with rfl | hq
        · exact h
        · exact hnone q hq
      · right
        refine ⟨p :: before, q, after, mt, N, by rw [hsplit]; rfl, ?_, hq, hN, hne, hdig, hres⟩
        intro q' hq'
        rcases List.mem_cons.mp hq' with rfl | hq'
        · exact h
        · exact hbefore q' hq'

/-- The years found in the section decide the inference: fewer than two, it falls through. -/
theorem inferred_few {argLimit : Nat} {text : Str} {ys : List Str}
    (h : sectionYears text = some ys) (hlen : ys.length < 2) :
    inferredExperience argLimit text = some none := by
  unfold sectionYears at h
  unfold inferredExperience
  cases hexec : workSectionPattern.exec text with
  | none => simp [hexec] at h
  | some mt =>
    rw [hexec] at h
    simp only [Option.some_bind] at h
    cases hget : mt.get 1 with
    | none => simp [hget] at h
    | some sec =>
      rw [hget] at h
      simp only [Option.map_some', Option.some.injEq] at h
      subst h
      simp only [hget]
      match hm : globalMatches yearPattern sec, hlen with
      | [], _ => rfl
      | [_], _ => rfl
      | _ :: _ :: _, hlen => exact absurd hlen (by simp)

/-- Without a section the inference falls through. -/
theorem inferred_no_section {argLimit : Nat} {text : Str} (h : sectionYears text = none) :
    inferredExperience argLimit text = some none := by
  unfold sectionYears at h
  unfold inferredExperience
  cases hexec : workSectionPattern.exec text with
  | none => rfl
  | some mt =>
    obtain ⟨sec, hsec, _⟩ := exec_group_some 1 (by decide) hexec
    rw [hexec] at h
    simp [hsec] at h

/-- More years than a call takes arguments: the inference raises. -/
theorem inferred_raise {argLimit : Nat} {text : Str} {ys : List Str}
    (h : sectionYears text = some ys) (hlen : 2 ≤ ys.length) (hlim : argLimit < ys.length) :
    inferredExperience argLimit text = none := by
  unfold sectionYears at h
  unfold inferredExperience
  cases hexec : workSectionPattern.exec text with
  | none => simp [hexec] at h
  | some mt =>
    rw [hexec] at h
    simp only [Option.some_bind] at h
    cases hget : mt.get 1 with
    | none => simp only [hget]
    | some sec =>
      rw [hget] at h
      simp only [Option.map_some', Option.some.injEq] at h
      subst h
      simp only [hget]
      match hm : globalMatches yearPattern sec, hlen, hlim with
      | [], hlen, _ => exact absurd hlen (by simp)
      | [_], hlen, _ => exact absurd hlen (by simp)
      | a :: b :: rest, _, hlim =>
        simp only [List.map_cons]
        rw [mathMin_none (by simpa using hlim)]

/-- At least two years, and no more than a call takes arguments: the inference gives the
span of the years, at least 1. -/
theorem inferred_value {argLimit : Nat} {text : Str} {a b : Str} {rest : List Str}
    (h : sectionYears text = some (a :: b :: rest))
    (hlim : (a :: b :: rest).length ≤ argLimit) :
    inferredExperience argLimit text =
      some (some ((toString (max 1
        (((b :: rest).map parseInt).foldl max (parseInt a) -
          ((b :: rest).map parseInt).foldl min (parseInt a)))).toList ++
        "+ years".toList)) := by
  unfold sectionYears at h
  unfold inferredExperience
  cases hexec : workSectionPattern.exec text with
  | none => simp [hexec] at h
  | some mt =>
    rw [hexec] at h
    simp only [Option.some_bind] at h
    cases hget : mt.get 1 with
    | none => simp [hget] at h
    | some sec =>
      rw [hget] at h
      simp only [Option.map_some', Option.some.injEq] at h
      simp only [hget, h, List.map_cons]
      rw [mathMin_some (by simpa using hlim), mathMax_some (by simpa using hlim)]

/-- The years of the section read as numbers from 2000 to 2099. -/
theorem sectionYears_range {text : Str} {ys : List Str} (h : sectionYears text = some ys) :
    ∀ y ∈ ys, 2000 ≤ parseInt y ∧ parseInt y ≤ 2099 := by
  unfold sectionYears at h
  cases hexec : workSectionPattern.exec text with
  | none => simp [hexec] at h
  | some mt =>
    rw [hexec] at h
    simp only [Option.some_bind] at h
    cases hget : mt.get 1 with
    | none => simp [hget] at h
    | some sec =>
      rw [hget] at h
      simp only [Option.map_some', Option.some.injEq] at h
      subst h
      intro y hy
      exact year_range (globalMatches_lang yearPattern sec y hy)

/-- The inference from the work history falls through, returns `k+ years` with `k` between
1 and 99, or raises; it raises exactly on more years than a call takes arguments. -/
theorem inferredExperience_spec (argLimit : Nat) (text : Str) :
    inferredExperience argLimit text = some none ∨
    (∃ k, 1 ≤ k ∧ k ≤ 99 ∧
      inferredExperience argLimit text =
        some (some ((toString k).toList ++ "+ years".toList))) ∨
    (inferredExperience argLimit text = none ∧
      ∃ ys, sectionYears text = some ys ∧ 2 ≤ ys.length ∧ argLimit < ys.length) := by
  cases hsec : sectionYears text with
  | none => exact Or.inl (inferred_no_section hsec)
  | some ys =>
    by_cases hlen : ys.length < 2
    · exact Or.inl (inferred_few hsec hlen)
    · by_cases hlim : argLimit < ys.length
      · exact Or.inr (Or.inr ⟨inferred_raise hsec (by omega) hlim, ys, rfl, by omega, hlim⟩)
      · match ys, hsec, hlen, hlim with
        | [], _, hlen, _ => exact absurd (by simp) hlen
        | [_], _, hlen, _ => exact absurd (by simp) hlen
        | a :: b :: rest, hsec, _, hlim =>
          right; left
          have hrange := sectionYears_range hsec
          have hmin := foldl_min_spec ((b :: rest).map parseInt) (parseInt a)
          have hmax := foldl_max_spec ((b :: rest).map parseInt) (parseInt a)
          have hmem : ∀ y ∈ parseInt a :: (b :: rest).map parseInt, 2000 ≤ y ∧ y ≤ 2099 := by
            intro y hy
            have : y ∈ (a :: b :: rest).map parseInt := by simpa using hy
            obtain ⟨x, hx, rfl⟩ := List.mem_map.mp this
            exact hrange x hx
          have h1 := hmem _ hmin.1
          have h2 := hmem _ hmax.1
          exact ⟨_, by omega, by omega, inferred_value hsec (by omega)⟩

/-- When the inference raises, the section holds more years than a call takes arguments. -/
theorem inferred_none_iff (argLimit : Nat) (text : Str) :
    inferredExperience argLimit text = none ↔
      ∃ ys, sectionYears text = some ys ∧ 2 ≤ ys.length ∧ argLimit < ys.length := by
  constructor
  · intro h
    rcases inferredExperience_spec argLimit text with h1 | ⟨k, _, _, h1⟩ | ⟨_, h1⟩
    · rw [h] at h1; cases h1
    · rw [h] at h1; cases h1
    · exact h1
  · rintro ⟨ys, hsec, hlen, hlim⟩
    exact inferred_raise hsec hlen hlim

theorem char_eq_iff (a b : Char) : a = b ↔ a.toNat = b.toNat := by
  constructor
  · intro h; rw [h]
  · intro h
    apply Char.ext
    apply UInt32.ext
    exact h

theorem lowerChar_toNat (c : Char) :
    (lowerChar c).toNat = if 0x41 ≤ c.toNat ∧ c.toNat ≤ 0x5A then c.toNat + 32 else c.toNat := by
  have key : ∀ k < 0x5B, 0x41 ≤ k → (Char.ofNat (k + 32)).toNat = k + 32 := by decide
  by_cases h : 0x41 ≤ c.toNat ∧ c.toNat ≤ 0x5A
  · rw [if_pos h]
    have hu : isUpperAZ c = true := by simp [isUpperAZ, h.1, h.2]
    simp only [lowerChar, hu, if_true]
    exact key c.toNat (by omega) h.1
  · rw [if_neg h]
    have hu : isUpperAZ c = false := by
      simp only [isUpperAZ, Bool.and_eq_false_iff, decide_eq_false_iff_not]
      omega
    simp [lowerChar, hu]

theorem upperChar_toNat (c : Char) :
    (upperChar c).toNat = if 0x61 ≤ c.toNat ∧ c.toNat ≤ 0x7A then c.toNat - 32 else c.toNat := by
  have key : ∀ k < 0x7B, 0x61 ≤ k → (Char.ofNat (k - 32)).toNat = k - 32 := by decide
  by_cases h : 0x61 ≤ c.toNat ∧ c.toNat ≤ 0x7A
  · rw [if_pos h]
    have hu : isLowerAZ c = true := by simp [isLowerAZ, h.1, h.2]
    simp only [upperChar, hu, if_true]
    exact key c.toNat (by omega) h.1
  · rw [if_neg h]
    have hu : isLowerAZ c = false := by
      simp only [isLowerAZ, Bool.and_eq_false_iff, decide_eq_false_iff_not]
      omega
    simp [upperChar, hu]

/-- Under the flag `i` a literal character other than U+00E2 and U+00C2 matches exactly the
characters with the same lower-case form. -/
theorem classTest_chr_ci {c : Char} (h1 : c.toNat ≠ 0xE2) (h2 : c.toNat ≠ 0xC2) (x : Char) :
    classTest true [.ch c] x = true ↔ lowerChar x = lowerChar c := by
  have hE : (Char.ofNat 0xE2).toNat = 0xE2 := by decide
  have hC : (Char.ofNat 0xC2).toNat = 0xC2 := by decide
  have hlx := lowerChar_toNat x
  have hlc := lowerChar_toNat c
  have hux := upperChar_toNat x
  rw [char_eq_iff (lowerChar x), hlx, hlc]
  simp only [classTest, if_true, caseVariants]
  by_cases hu : isUpperAZ x = true
  · have hu' : 0x41 ≤ x.toNat ∧ x.toNat ≤ 0x5A := by
      simpa [isUpperAZ] using hu
    simp only [hu, if_true, List.any_cons, List.any_nil, Bool.or_false, Bool.or_eq_true,
      beq_iff_eq, ClassItem.test]
    rw [char_eq_iff x, char_eq_iff (lowerChar x), hlx, if_pos hu']
    split_ifs <;> omega
  · have hu' : ¬ (0x41 ≤ x.toNat ∧ x.toNat ≤ 0x5A) := by
      simpa [isUpperAZ] using hu
    rw [if_neg hu, if_neg hu']
    by_cases hl : isLowerAZ x = true
    · have hl' : 0x61 ≤ x.toNat ∧ x.toNat ≤ 0x7A := by
        simpa [isLowerAZ] using hl
      simp only [hl, if_true, List.any_cons, List.any_nil, Bool.or_false, Bool.or_eq_true,
        beq_iff_eq, ClassItem.test]
      rw [char_eq_iff x, char_eq_iff (upperChar x), hux, if_pos hl']
      split_ifs <;> omega
    · have hl' : ¬ (0x61 ≤ x.toNat ∧ x.toNat ≤ 0x7A) := by
        simpa [isLowerAZ] using hl
      rw [if_neg hl]
      by_cases hxE : (x.toNat == 0xE2) = true
      · have hxE' : x.toNat = 0xE2 := by simpa using hxE
        simp only [hxE, if_true, List.any_cons, List.any_nil, Bool.or_false, Bool.or_eq_true,
          beq_iff_eq, ClassItem.test]
        rw [char_eq_iff x, char_eq_iff (Char.ofNat 0xC2), hC]
        split_ifs <;> omega
      · have hxE' : x.toNat ≠ 0xE2 := by simpa using hxE
        rw [if_neg hxE]
        by_cases hxC : (x.toNat == 0xC2) = true
        · have hxC' : x.toNat = 0xC2 := by simpa using hxC
          simp only [hxC, if_true, List.any_cons, List.any_nil, Bool.or_false, Bool.or_eq_true,
            beq_iff_eq, ClassItem.test]
          rw [char_eq_iff x, char_eq_iff (Char.ofNat 0xE2), hE]
          split_ifs <;> omega
        · have hxC' : x.toNat ≠ 0xC2 := by simpa using hxC
          rw [if_neg hxC]
          simp only [List.any_cons, List.any_nil, Bool.or_false, beq_iff_eq, ClassItem.test]
          rw [char_eq_iff x]
          split_ifs <;> omega

/-! ## Sequences and literal texts -/

theorem step_seqs_cons (fl : Flags) (a : Re) (rest : List Re) (s t : St) :
    Step fl (Re.seqs (a :: rest)) s t ↔ ∃ u, Step fl a s u ∧ Step fl (Re.seqs rest) u t := by
  cases rest with
  | nil =>
    simp only [Re.seqs, Step]
    constructor
    · intro h; exact ⟨t, h, rfl⟩
    · rintro ⟨u, h, rfl⟩; exact h
  | cons b r => rfl

theorem lang_seqs_cons (fl : Flags) (a : Re) (rest : List Re) (w : Str) :
    Lang fl (Re.seqs (a :: rest)) w ↔
      ∃ w1 w2, w = w1 ++ w2 ∧ Lang fl a w1 ∧ Lang fl (Re.seqs rest) w2 := by
  cases rest with
  | nil =>
    simp only [Re.seqs, Lang]
    constructor
    · intro h; exact ⟨w, [], by simp, h, rfl⟩
    · rintro ⟨w1, w2, rfl, h, rfl⟩; simpa using h
  | cons b r => rfl

theorem step_chr_ci {fl : Flags} (hi : fl.ignoreCase = true) {c : Char}
    (hc : c.toNat ≠ 0xE2 ∧ c.toNat ≠ 0xC2) (s t : St) :
    Step fl (.chr c) s t ↔
      ∃ x rest, s.suf = x :: rest ∧ lowerChar x = lowerChar c ∧
        t = { s with pre := x :: s.pre, suf := rest } := by
  simp only [Re.chr, Step, hi]
  constructor
  · rintro ⟨x, rest, h1, h2, h3⟩
    exact ⟨x, rest, h1, (classTest_chr_ci hc.1 hc.2 x).mp h2, h3⟩
  · rintro ⟨x, rest, h1, h2, h3⟩
    exact ⟨x, rest, h1, (classTest_chr_ci hc.1 hc.2 x).mpr h2, h3⟩

theorem lang_chr_ci {fl : Flags} (hi : fl.ignoreCase = true) {c : Char}
    (hc : c.toNat ≠ 0xE2 ∧ c.toNat ≠ 0xC2) (w : Str) :
    Lang fl (.chr c) w ↔ ∃ x, w = [x] ∧ lowerChar x = lowerChar c := by
  simp only [Re.chr, Lang, hi]
  constructor
  · rintro ⟨x, h1, h2⟩
    exact ⟨x, h1, (classTest_chr_ci hc.1 hc.2 x).mp h2⟩
  · rintro ⟨x, h1, h2⟩
    exact ⟨x, h1, (classTest_chr_ci hc.1 hc.2 x).mpr h2⟩

/-- The runs of a literal text under the flag `i`: the text is read letter by letter,
whatever the case of the letters. -/
theorem step_lits_seqs {fl : Flags} (hi : fl.ignoreCase = true) (kw : Str)
    (hkw : ∀ c ∈ kw, c.toNat ≠ 0xE2 ∧ c.toNat ≠ 0xC2) (tail : List Re) :
    ∀ s t, Step fl (Re.seqs (kw.map Re.chr ++ tail)) s t ↔
      ∃ w q, s.suf = w ++ q ∧ toLowerCase w = toLowerCase kw ∧
        Step fl (Re.seqs tail) ⟨w.reverse ++ s.pre, q, s.caps⟩ t := by
  induction kw with
  | nil =>
    intro s t
    simp only [List.map_nil, List.nil_append, toLowerCase, List.map_eq_nil_iff]
    constructor
    · intro h; exact ⟨[], s.suf, rfl, rfl, h⟩
    · rintro ⟨w, q, h1, rfl, h2⟩
      have : s = ⟨[].reverse ++ s.pre, q, s.caps⟩ := by
        cases s; simp only [List.nil_append] at h1; subst h1; rfl
      rw [this]; exact h2
  | cons c kw ih =>
    intro s t
    have hc := hkw c (List.mem_cons_self _ _)
    have ih' := ih (fun d hd => hkw d (List.mem_cons_of_mem _ hd))
    simp only [List.map_cons, List.cons_append]
    rw [step_seqs_cons]
    constructor
    · rintro ⟨u, hu, hrest⟩
      obtain ⟨x, rest, hx1, hx2, rfl⟩ := (step_chr_ci hi hc s u).mp hu
      obtain ⟨w, q, hw1, hw2, hw3⟩ := (ih' _ t).mp hrest
      simp only at hw1 hw3
      refine ⟨x :: w, q, by rw [hx1, hw1]; rfl, ?_, ?_⟩
      · simp only [toLowerCase, List.map_cons] at hw2 ⊢
        rw [hx2, hw2]
      · simpa using hw3
    · rintro ⟨w, q, hw1, hw2, hw3⟩
      cases w with
      | nil => simp [toLowerCase] at hw2
      | cons x w =>
        simp only [toLowerCase, List.map_cons, List.cons.injEq] at hw2
        refine ⟨{ s with pre := x :: s.pre, suf := w ++ q }, ?_, ?_⟩
        · exact (step_chr_ci hi hc s _).mpr ⟨x, w ++ q, hw1, hw2.1, rfl⟩
        · refine (ih' _ t).mpr ⟨w, q, rfl, hw2.2, ?_⟩
          simpa using hw3

/-- The texts consumed by a literal text under the flag `i`. -/
theorem lang_lits_seqs {fl : Flags} (hi : fl.ignoreCase = true) (kw : Str)
    (hkw : ∀ c ∈ kw, c.toNat ≠ 0xE2 ∧ c.toNat ≠ 0xC2) (tail : List Re) :
    ∀ w, Lang fl (Re.seqs (kw.map Re.chr ++ tail)) w ↔
      ∃ w1 w2, w = w1 ++ w2 ∧ toLowerCase w1 = toLowerCase kw ∧ Lang fl (Re.seqs tail) w2 := by
  induction kw with
  | nil =>
    intro w
    simp only [List.map_nil, List.nil_append, toLowerCase, List.map_eq_nil_iff]
    constructor
    · intro h; exact ⟨[], w, rfl, rfl, h⟩
    · rintro ⟨w1, w2, rfl, rfl, h2⟩
      exact h2
  | cons c kw ih =>
    intro w
    have hc := hkw c (List.mem_cons_self _ _)
    have ih' := ih (fun d hd => hkw d (List.mem_cons_of_mem _ hd))
    simp only [List.map_cons, List.cons_append]
    rw [lang_seqs_cons]
    constructor
    · rintro ⟨a, b, rfl, ha, hb⟩
      obtain ⟨x, rfl, hx⟩ := (lang_chr_ci hi hc a).mp ha
      obtain ⟨w1, w2, rfl, hw1, hw2⟩ := (ih' b).mp hb
      refine ⟨x :: w1, w2, rfl, ?_, hw2⟩
      simp only [toLowerCase, List.map_cons] at hw1 ⊢
      rw [hx, hw1]
    · rintro ⟨w1, w2, rfl, hw1, hw2⟩
      cases w1 with
      | nil => simp [toLowerCase] at hw1
      | cons x w1 =>
        simp only [toLowerCase, List.map_cons, List.cons.injEq] at hw1
        exact ⟨[x], w1 ++ w2, rfl, (lang_chr_ci hi hc _).mpr ⟨x, rfl, hw1.1⟩,
          (ih' _).mpr ⟨w1, w2, rfl, hw1.2, hw2⟩⟩

theorem lang_lits {fl : Flags} (hi : fl.ignoreCase = true) (kw : Str)
    (hkw : ∀ c ∈ kw, c.toNat ≠ 0xE2 ∧ c.toNat ≠ 0xC2) (w : Str) :
    Lang fl (Re.lits kw) w ↔ toLowerCase w = toLowerCase kw := by
  have h := lang_lits_seqs hi kw hkw [] w
  simp only [List.append_nil] at h
  rw [Re.lits, h]
  constructor
  · rintro ⟨w1, w2, rfl, h1, h2⟩
    simp only [Re.seqs, Lang] at h2
    subst h2
    simpa using h1
  · intro h1
    exact ⟨w, [], by simp, h1, rfl⟩

theorem step_lits {fl : Flags} (hi : fl.ignoreCase = true) (kw : Str)
    (hkw : ∀ c ∈ kw, c.toNat ≠ 0xE2 ∧ c.toNat ≠ 0xC2) (s t : St) :
    Step fl (Re.lits kw) s t ↔
      ∃ w q, s.suf = w ++ q ∧ toLowerCase w = toLowerCase kw ∧
        t = ⟨w.reverse ++ s.pre, q, s.caps⟩ := by
  have h := step_lits_seqs hi kw hkw [] s t
  simp only [List.append_nil] at h
  rw [Re.lits, h]
  simp only [Re.seqs, Step]

/-! ## `includes` and `trim` -/

theorem includes_iff_occurs (s sub : Str) : includes s sub = true ↔ sub <:+: s := by
  induction s with
  | nil =>
    simp only [includes, List.isEmpty_iff, List.infix_nil]
  | cons c s ih =>
    simp only [includes, Bool.or_eq_true, ih, List.isPrefixOf_iff_prefix, List.infix_cons_iff]

theorem toLowerCase_append (a b : Str) : toLowerCase (a ++ b) = toLowerCase a ++ toLowerCase b := by
  simp [toLowerCase]

theorem toLowerCase_idem (a : Str) : toLowerCase (toLowerCase a) = toLowerCase a := by
  simp only [toLowerCase, List.map_map]
  apply List.map_congr_left
  intro c _
  simp only [Function.comp]
  have h := lowerChar_not_upper c
  generalize lowerChar c = d at h
  simp [lowerChar, h]

theorem trimStart_append_cons (a r : Str) {c : Char} (h : isWhiteSpace c = false) :
    trimStart (a ++ c :: r) = trimStart a ++ c :: r := by
  induction a with
  | nil => simp [trimStart, List.dropWhile, h]
  | cons x a ih =>
    simp only [trimStart] at ih ⊢
    simp only [List.cons_append, List.dropWhile_cons]
    split
    · exact ih
    · rfl

/-- A text that ends with a character other than white space is trimmed at its start only. -/
theorem trim_append_singleton (a : Str) {c : Char} (h : isWhiteSpace c = false) :
    trim (a ++ [c]) = trimStart a ++ [c] := by
  unfold trim
  rw [trimStart_append_cons a [] h]
  simp only [List.reverse_append, List.reverse_cons, List.reverse_nil, List.nil_append,
    List.singleton_append]
  rw [trimStart_cons_of_not_space _ h]
  simp

/-! ## Alternations of literal texts -/

theorem lang_alts {fl : Flags} {l : List Re} {w : Str} (hl : l ≠ []) (h : Lang fl (Re.alts l) w) :
    ∃ a ∈ l, Lang fl a w := by
  induction l with
  | nil => exact absurd rfl hl
  | cons a l ih =>
    cases l with
    | nil => exact ⟨a, List.mem_cons_self _ _, h⟩
    | cons b l =>
      rcases (show Lang fl a w ∨ Lang fl (Re.alts (b :: l)) w from h) with h | h
      · exact ⟨a, List.mem_cons_self _ _, h⟩
      · obtain ⟨x, hx, hw⟩ := ih (by simp) h
        exact ⟨x, List.mem_cons_of_mem _ hx, hw⟩

theorem step_alts_intro {fl : Flags} {l : List Re} {a : Re} {s t : St} (ha : a ∈ l)
    (h : Step fl a s t) : Step fl (Re.alts l) s t := by
  induction l with
  | nil => cases ha
  | cons b l ih =>
    cases l with
    | nil =>
      rw [List.mem_singleton] at ha
      subst ha
      exact h
    | cons c l =>
      rcases List.mem_cons.mp ha with rfl | ha
      · exact Or.inl h
      · exact Or.inr (ih ha)

theorem step_alts {fl : Flags} {l : List Re} {s t : St} (hl : l ≠ [])
    (h : Step fl (Re.alts l) s t) : ∃ a ∈ l, Step fl a s t := by
  induction l with
  | nil => exact absurd rfl hl
  | cons a l ih =>
    cases l with
    | nil => exact ⟨a, List.mem_cons_self _ _, h⟩
    | cons b l =>
      rcases (show Step fl a s t ∨ Step fl (Re.alts (b :: l)) s t from h) with h | h
      · exact ⟨a, List.mem_cons_self _ _, h⟩
      · obtain ⟨x, hx, hw⟩ := ih (by simp) h
        exact ⟨x, List.mem_cons_of_mem _ hx, hw⟩

theorem isLetter_of_lowerChar_eq {x c : Char} (h : lowerChar x = lowerChar c)
    (hc : isLetter c = true) : isLetter x = true := by
  have h' := (char_eq_iff _ _).mp h
  rw [lowerChar_toNat, lowerChar_toNat] at h'
  simp only [isLetter, isUpperAZ, isLowerAZ, Bool.or_eq_true, Bool.and_eq_true,
    decide_eq_true_eq] at hc ⊢
  split_ifs at h' <;> omega

/-- A text equal to `c :: kw` up to the case of the letters starts with a letter when `c`
is one. -/
theorem head_letter_of_ci {w : Str} (c : Char) (kw : Str)
    (h : toLowerCase w = toLowerCase (c :: kw))
    (hc : isLetter c = true) : ∃ x rest, w = x :: rest ∧ isLetter x = true := by
  cases w with
  | nil => simp [toLowerCase] at h
  | cons x rest =>
    simp only [toLowerCase, List.map_cons, List.cons.injEq] at h
    exact ⟨x, rest, rfl, isLetter_of_lowerChar_eq h.1 hc⟩

theorem getLast_letter_of_ci {w : Str} (kw : Str) (c : Char)
    (h : toLowerCase w = toLowerCase (kw ++ [c])) (hc : isLetter c = true) :
    ∃ x front, w = front ++ [x] ∧ isLetter x = true := by
  rcases List.eq_nil_or_concat w with rfl | ⟨front, x, rfl⟩
  · simp [toLowerCase] at h
  · simp only [toLowerCase, List.concat_eq_append, List.map_append, List.map_cons,
      List.map_nil] at h
    have hlen : (List.map lowerChar front).length = (List.map lowerChar kw).length := by
      have := congrArg List.length h
      simp only [List.length_append, List.length_map, List.length_singleton] at this ⊢
      omega
    have h2 := (List.append_inj h hlen).2
    simp only [List.cons.injEq, and_true] at h2
    exact ⟨x, front, by simp, isLetter_of_lowerChar_eq h2 hc⟩

/-- The class `[\s\S]` matches every character. -/
theorem classTest_anyChar (i : Bool) (c : Char) :
    classTest i [.space, .nonSpace] c = true := by
  have hf : ∀ y : Char, ([ClassItem.space, ClassItem.nonSpace].any fun it => it.test y) = true := by
    intro y
    simp only [List.any_cons, List.any_nil, Bool.or_false, ClassItem.test]
    cases isWhiteSpace y <;> rfl
  have hne : ∃ y, y ∈ caseVariants c := by
    unfold caseVariants
    split_ifs <;> exact ⟨c, List.mem_cons_self _ _⟩
  unfold classTest
  cases i with
  | true =>
    simp only [if_true, List.any_eq_true]
    obtain ⟨y, hy⟩ := hne
    exact ⟨y, hy, by simpa using hf y⟩
  | false =>
    simp only [Bool.false_eq_true, if_false]
    exact hf c

/-- The quantifier `[\s\S]*` (greedy or lazy) can consume the whole remaining input. -/
theorem repRun_anyChar_all (fl : Flags) (caps : List (Nat × Str)) :
    ∀ (q pre : Str),
      RepRun (Step fl Re.anyChar) 0 none ⟨pre, q, caps⟩ ⟨q.reverse ++ pre, [], caps⟩ := by
  intro q
  induction q with
  | nil => intro pre; exact RepRun.done (Or.inl rfl)
  | cons c q ih =>
    intro pre
    refine RepRun.more (t := ⟨c :: pre, q, caps⟩) (by simp) ?_ ?_ ?_
    · exact ⟨c, q, rfl, classTest_anyChar _ c, rfl⟩
    · intro _; simp
    · have := ih (c :: pre)
      simpa using this

/-- Occurrence up to case, in terms of `includes` on the lower-cased texts. -/
theorem occursCI_iff_includes (kw text : Str) :
    OccursCI kw text ↔ includes (toLowerCase text) (toLowerCase kw) = true := by
  rw [includes_iff_occurs]
  constructor
  · rintro ⟨p, w, q, rfl, hw⟩
    refine ⟨toLowerCase p, toLowerCase q, ?_⟩
    rw [toLowerCase_append, toLowerCase_append, hw]
  · rintro ⟨a, b, hab⟩
    have hab' : List.map lowerChar text = (a ++ toLowerCase kw) ++ b := hab.symm
    obtain ⟨l1, q, rfl, h1, h2⟩ := List.map_eq_append_iff.mp hab'
    obtain ⟨p, w, rfl, h3, h4⟩ := List.map_eq_append_iff.mp h1
    exact ⟨p, w, q, rfl, h4⟩

theorem occursCI_of_wholeWord {kw text : Str} (h : OccursWholeWordCI kw text) :
    OccursCI kw text := by
  obtain ⟨p, w, q, h1, h2, _⟩ := h
  exact ⟨p, w, q, h1, h2⟩

/-! ## The education patterns -/

theorem educationPattern0_re :
    educationPattern0.re =
      .seqs [.group 1 (.alts (degreeKeywords.map Re.str)), .lazyStar .anyChar,
        .look (.alts [.seqs [.chr '\n', .star .ws, .chr '\n'], .seq (.chr '\n') upper,
          .eol])] := rfl

theorem degreeKeywords_plain :
    ∀ kw ∈ degreeKeywords, (∀ c ∈ kw.toList, c.toNat ≠ 0xE2 ∧ c.toNat ≠ 0xC2) ∧
      (kw.toList.head?.map isLetter) = some true := by decide

theorem head_letter_of_head? {kw : Str} (h : (kw.head?.map isLetter) = some true) :
    ∃ c rest, kw = c :: rest ∧ isLetter c = true := by
  cases kw with
  | nil => simp at h
  | cons c rest => exact ⟨c, rest, rfl, by simpa using h⟩

/-- Every text matched by the first education pattern starts with a letter. -/
theorem lang_education0_head {w : Str}
    (h : Lang educationPattern0.flags educationPattern0.re w) :
    ∃ x rest, w = x :: rest ∧ isLetter x = true := by
  rw [educationPattern0_re] at h
  obtain ⟨w1, w2, rfl, h1, _⟩ := (lang_seqs_cons _ _ _ _).mp h
  obtain ⟨a, ha, hw⟩ := lang_alts (by simp [degreeKeywords]) (show Lang _ (Re.alts _) w1 from h1)
  obtain ⟨kw, hkw, rfl⟩ := List.mem_map.mp ha
  obtain ⟨hplain, hhead⟩ := degreeKeywords_plain kw hkw
  have hci := (lang_lits rfl kw.toList hplain w1).mp hw
  obtain ⟨c, rest, hc, hl⟩ := head_letter_of_head? hhead
  rw [hc] at hci
  obtain ⟨x, r, rfl, hx⟩ := head_letter_of_ci _ _ hci hl
  exact ⟨x, r ++ w2, rfl, hx⟩

/-- Every text matched by the second education pattern starts with a letter. -/
theorem lang_education1_head {w : Str}
    (h : Lang educationPattern1.flags educationPattern1.re w) :
    ∃ x rest, w = x :: rest ∧ isLetter x = true := by
  obtain ⟨w1, w2, rfl, h1, _⟩ := (lang_seqs_cons _ _ _ _).mp h
  have hci := (lang_lits rfl "EDUCATION:".toList (by decide) w1).mp h1
  obtain ⟨x, r, rfl, hx⟩ := head_letter_of_ci 'E' "DUCATION:".toList hci (by decide)
  exact ⟨x, r ++ w2, rfl, hx⟩

theorem excerpt_of_head {full : Str} (h : ∃ x rest, full = x :: rest ∧ isLetter x = true) :
    (trim full).take 100 ≠ [] ∧ ((trim full).take 100).length ≤ 100 := by
  obtain ⟨x, rest, rfl, hx⟩ := h
  obtain ⟨r, hr⟩ := trim_cons_of_not_space rest (letter_not_space hx)
  rw [hr]
  exact ⟨by simp, by simp⟩

theorem educationLoop_some {text s : Str} (h : educationLoop text educationPatterns = some s) :
    ∃ e, e ≠ [] ∧ e.length ≤ 100 ∧ s = e ++ "...".toList := by
  unfold educationPatterns educationLoop at h
  cases h0 : educationPattern0.exec text with
  | some mt =>
    rw [h0] at h
    simp only [Option.some.injEq] at h
    obtain ⟨h1, h2⟩ := excerpt_of_head (lang_education0_head (exec_capture h0).2.1)
    exact ⟨_, h1, h2, h.symm⟩
  | none =>
    rw [h0] at h
    simp only at h
    unfold educationLoop at h
    cases h1 : educationPattern1.exec text with
    | some mt =>
      rw [h1] at h
      simp only [Option.some.injEq] at h
      obtain ⟨h2, h3⟩ := excerpt_of_head (lang_education1_head (exec_capture h1).2.1)
      exact ⟨_, h2, h3, h.symm⟩
    | none =>
      rw [h1] at h
      simp [educationLoop] at h

theorem educationLoop_none_iff (text : Str) :
    educationLoop text educationPatterns = none ↔
      educationPattern0.exec text = none ∧ educationPattern1.exec text = none := by
  unfold educationPatterns educationLoop
  cases h0 : educationPattern0.exec text with
  | some mt => simp
  | none =>
    simp only [true_and]
    unfold educationLoop
    cases h1 : educationPattern1.exec text with
    | some mt => simp
    | none => simp [educationLoop]

theorem excerpt_ne_not_specified (e : Str) : e ++ "...".toList ≠ "Not specified".toList := by
  intro h
  have := congrArg List.getLast? h
  simp at this

theorem extractEducation_eq_iff (text : Str) :
    extractEducation text = "Not specified".toList ↔
      educationPattern0.exec text = none ∧ educationPattern1.exec text = none := by
  rw [← educationLoop_none_iff]
  unfold extractEducation
  cases h : educationLoop text educationPatterns with
  | none => simp
  | some s =>
    obtain ⟨e, _, _, rfl⟩ := educationLoop_some h
    simp only [reduceCtorEq, iff_false]
    exact excerpt_ne_not_specified e

/-- The first education pattern matches somewhere exactly when a degree keyword occurs,
whatever the case of its letters. -/
theorem hasMatch_education0_iff (text : Str) :
    HasMatch educationPattern0 text ↔ ∃ kw ∈ degreeKeywords, OccursCI kw.toList text := by
  constructor
  · rintro ⟨p, q, t, rfl, hstep⟩
    rw [educationPattern0_re] at hstep
    obtain ⟨u, hu, _⟩ := (step_seqs_cons _ _ _ _ _).mp hstep
    obtain ⟨u', hu', _⟩ := (show ∃ u', Step _ (Re.alts _) _ u' ∧ _ from hu)
    obtain ⟨a, ha, hstepa⟩ := step_alts (by simp [degreeKeywords]) hu'
    obtain ⟨kw, hkw, rfl⟩ := List.mem_map.mp ha
    obtain ⟨hplain, _⟩ := degreeKeywords_plain kw hkw
    obtain ⟨w, q', hq, hci, _⟩ := (step_lits rfl kw.toList hplain _ _).mp hstepa
    simp only at hq
    exact ⟨kw, hkw, p, w, q', by rw [hq, List.append_assoc], hci⟩
  · rintro ⟨kw, hkw, p, w, q, rfl, hci⟩
    obtain ⟨hplain, _⟩ := degreeKeywords_plain kw hkw
    refine ⟨p, w ++ q, ⟨q.reverse ++ (w.reverse ++ p.reverse), [], [(1, w)]⟩,
      by rw [List.append_assoc], ?_⟩
    rw [educationPattern0_re]
    refine (step_seqs_cons _ _ _ _ _).mpr
      ⟨⟨w.reverse ++ p.reverse, q, [(1, w)]⟩, ?_, ?_⟩
    · refine ⟨⟨w.reverse ++ p.reverse, q, []⟩, ?_, ?_⟩
      · apply step_alts_intro (List.mem_map_of_mem _ hkw)
        exact (step_lits rfl kw.toList hplain _ _).mpr ⟨w, q, rfl, hci, rfl⟩
      · simp
    · refine (step_seqs_cons _ _ _ _ _).mpr
        ⟨⟨q.reverse ++ (w.reverse ++ p.reverse), [], [(1, w)]⟩, ?_, ?_⟩
      · exact repRun_anyChar_all _ _ _ _
      · exact ⟨_, rfl, rfl⟩

/-- The second education pattern matches somewhere exactly when `education:` occurs,
whatever the case of its letters. -/
theorem hasMatch_education1_iff (text : Str) :
    HasMatch educationPattern1 text ↔ OccursCI "education:".toList text := by
  have hlow : toLowerCase "EDUCATION:".toList = toLowerCase "education:".toList := by decide
  constructor
  · rintro ⟨p, q, t, rfl, hstep⟩
    obtain ⟨u, hu, _⟩ := (step_seqs_cons _ _ _ _ _).mp hstep
    obtain ⟨w, q', hq, hci, _⟩ := (step_lits rfl "EDUCATION:".toList (by decide) _ _).mp hu
    simp only at hq
    exact ⟨p, w, q', by rw [hq, List.append_assoc], hci.trans hlow⟩
  · rintro ⟨p, w, q, rfl, hci⟩
    refine ⟨p, w ++ q, ⟨q.reverse ++ (w.reverse ++ p.reverse), [], [(1, q)]⟩,
      by rw [List.append_assoc], ?_⟩
    refine (step_seqs_cons _ _ _ _ _).mpr
      ⟨⟨w.reverse ++ p.reverse, q, []⟩, ?_, ?_⟩
    · exact (step_lits rfl "EDUCATION:".toList (by decide) _ _).mpr
        ⟨w, q, rfl, hci.trans hlow.symm, rfl⟩
    · refine (step_seqs_cons _ _ _ _ _).mpr
        ⟨⟨q.reverse ++ (w.reverse ++ p.reverse), [], [(1, q)]⟩, ?_, ?_⟩
      · refine ⟨⟨q.reverse ++ (w.reverse ++ p.reverse), [], []⟩, repRun_anyChar_all _ _ _ _, ?_⟩
        simp
      · exact Or.inr ⟨rfl, rfl⟩

/-! ## The third location pattern -/

theorem caseVariants_space {c y : Char} (hy : y ∈ caseVariants c)
    (hs : isWhiteSpace y = true) : isWhiteSpace c = true := by
  unfold caseVariants at hy
  by_cases h1 : isUpperAZ c = true
  · rw [if_pos h1] at hy
    simp only [List.mem_cons, List.mem_singleton, List.mem_nil_iff, or_false] at hy
    rcases hy with rfl | rfl
    · exact hs
    · rw [letter_not_space (lowerChar_letter h1)] at hs; cases hs
  · rw [if_neg h1] at hy
    by_cases h2 : isLowerAZ c = true
    · rw [if_pos h2] at hy
      simp only [List.mem_cons, List.mem_singleton, List.mem_nil_iff, or_false] at hy
      rcases hy with rfl | rfl
      · exact hs
      · rw [letter_not_space (upperChar_letter h2)] at hs; cases hs
    · rw [if_neg h2] at hy
      split_ifs at hy
      · simp only [List.mem_cons, List.mem_singleton, List.mem_nil_iff, or_false] at hy
        rcases hy with rfl | rfl
        · exact hs
        · exact absurd hs (by decide)
      · simp only [List.mem_cons, List.mem_singleton, List.mem_nil_iff, or_false] at hy
        rcases hy with rfl | rfl
        · exact hs
        · exact absurd hs (by decide)
      · simp only [List.mem_singleton] at hy
        subst hy
        exact hs

/-- The class `[A-Za-z\s]` matches letters and white space only, also under the flag `i`. -/
theorem alphaSpace_letter_or_space {i : Bool} {c : Char}
    (h : classTest i [.range 'A' 'Z', .range 'a' 'z', .space] c = true) :
    isLetter c = true ∨ isWhiteSpace c = true := by
  have hitem : ∀ y, ([ClassItem.range 'A' 'Z', ClassItem.range 'a' 'z', ClassItem.space].any
      fun it => it.test y) = true → isLetter y = true ∨ isWhiteSpace y = true := by
    intro y hy
    simp only [List.any_cons, List.any_nil, Bool.or_false, Bool.or_eq_true] at hy
    rcases hy with hy | hy | hy
    · exact Or.inl (range_AZ_letter _ hy)
    · exact Or.inl (range_az_letter _ hy)
    · exact Or.inr hy
  unfold classTest at h
  cases i with
  | true =>
    simp only [if_true, List.any_eq_true] at h
    obtain ⟨y, hy, hit⟩ := h
    rcases hitem y (by simpa [List.any_eq_true] using hit) with hl | hsp
    · exact Or.inl (caseVariants_letter hy hl)
    · exact Or.inr (caseVariants_space hy hsp)
  | false =>
    simp only [Bool.false_eq_true, if_false] at h
    exact hitem c h

/-- The escape `\s` matches white space only, also under the flag `i`. -/
theorem space_class {i : Bool} {c : Char} (h : classTest i [.space] c = true) :
    isWhiteSpace c = true := by
  unfold classTest at h
  cases i with
  | true =>
    simp only [if_true, List.any_eq_true] at h
    obtain ⟨y, hy, it, hit, ht⟩ := h
    rw [List.mem_singleton] at hit
    subst hit
    exact caseVariants_space hy ht
  | false =>
    simpa [ClassItem.test] using h

theorem trimStart_suffix (s : Str) : trimStart s <:+ s := List.dropWhile_suffix _

theorem trim_occurs (s : Str) : trim s <:+: s := by
  unfold trim
  have h1 : trimStart (trimStart s).reverse <:+ (trimStart s).reverse := trimStart_suffix _
  have h2 : (trimStart (trimStart s).reverse).reverse <+: trimStart s := by
    have := List.reverse_prefix.mpr h1
    simpa using this
  exact h2.isInfix.trans (trimStart_suffix s).isInfix

/-- A text whose first and last characters are letters is left unchanged by `trim`. -/
theorem trim_eq_self {w : Str} (hh : ∃ x rest, w = x :: rest ∧ isLetter x = true)
    (hl : ∃ y front, w = front ++ [y] ∧ isLetter y = true) : trim w = w := by
  obtain ⟨y, front, rfl, hy⟩ := hl
  rw [trim_append_singleton front (letter_not_space hy)]
  obtain ⟨x, rest, hx, hxl⟩ := hh
  cases front with
  | nil => rfl
  | cons z f =>
    simp only [List.cons_append, List.cons.injEq] at hx
    rw [hx.1, trimStart_cons_of_not_space _ (letter_not_space hxl)]

theorem trim_of_ci {w : Str} (c : Char) (mid : Str) (d : Char)
    (hc : isLetter c = true) (hd : isLetter d = true)
    (h : toLowerCase w = toLowerCase (c :: mid ++ [d])) : trim w = w := by
  apply trim_eq_self
  · exact head_letter_of_ci _ _ h hc
  · exact getLast_letter_of_ci (c :: mid) d h hd

theorem lowerChar_eq_comma {x : Char} (h : lowerChar x = lowerChar ',') : x = ',' := by
  have h' := (char_eq_iff _ _).mp h
  rw [lowerChar_toNat, lowerChar_toNat] at h'
  rw [char_eq_iff]
  have : (',' : Char).toNat = 44 := by decide
  rw [this] at h' ⊢
  split_ifs at h' <;> omega

/-- The captures of the third location pattern: a span `<letters and spaces>, California`,
or one of the three bare state names, up to the case of the letters. -/
theorem lang_locationPattern2 {v : Str}
    (h : Lang ⟨true, false⟩
      (.alts [.seqs [.plus alphaSpace, .chr ',', .star .ws, .str "California"],
              .str "New York", .str "Texas", .str "Florida"]) v) :
    (∃ a b cal, v = a ++ ',' :: (b ++ cal) ∧
        (∀ c ∈ a, isLetter c = true ∨ isWhiteSpace c = true) ∧
        (∀ c ∈ b, isWhiteSpace c = true) ∧
        toLowerCase cal = "california".toList) ∨
    toLowerCase v = "new york".toList ∨ toLowerCase v = "texas".toList ∨
    toLowerCase v = "florida".toList := by
  rcases h with h | h | h | h
  · left
    obtain ⟨a, r1, rfl, ha, h⟩ := (lang_seqs_cons _ _ _ _).mp h
    obtain ⟨x, r2, rfl, hx, h⟩ := (lang_seqs_cons _ _ _ _).mp h
    obtain ⟨b, cal, rfl, hb, hcal⟩ := (lang_seqs_cons _ _ _ _).mp h
    obtain ⟨y, rfl, hy⟩ := (lang_chr_ci rfl (by decide) x).mp hx
    have hy' := lowerChar_eq_comma hy
    subst hy'
    refine ⟨a, b, cal, by simp, ?_, ?_, ?_⟩
    · intro c hc
      exact alphaSpace_letter_or_space ((lang_rep_cls ha).1 c hc)
    · intro c hc
      exact space_class ((lang_rep_cls hb).1 c hc)
    · exact (lang_lits rfl "California".toList (by decide) cal).mp hcal
  · right; left
    exact (lang_lits rfl "New York".toList (by decide) v).mp h
  · right; right; left
    exact (lang_lits rfl "Texas".toList (by decide) v).mp h
  · right; right; right
    exact (lang_lits rfl "Florida".toList (by decide) v).mp h

/-! ## The regular expression of `extractSkills` -/

theorem parseAtoms_wordB (s : Str) :
    parseAtoms ('\\' :: 'b' :: s) = Re.wordB :: parseAtoms s := by
  rw [parseAtoms]
  simp

theorem special_ne_b {c : Char} (h : isRegExpSpecial c = true) : c ≠ 'b' := by
  intro hc
  rw [hc] at h
  exact absurd h (by decide)

theorem not_special_ne_backslash {c : Char} (h : isRegExpSpecial c = false) : c ≠ '\\' := by
  intro hc
  rw [hc] at h
  exact absurd h (by decide)

/-- Escaping and parsing give back the characters as literals, whatever follows. -/
theorem parseAtoms_escape (w : Str) (d : Char) (rest : Str) :
    parseAtoms (escapeRegExp w ++ d :: rest) = w.map Re.chr ++ parseAtoms (d :: rest) := by
  induction w with
  | nil => rfl
  | cons c w ih =>
    by_cases hc : isRegExpSpecial c = true
    · have e : escapeRegExp (c :: w) = '\\' :: c :: escapeRegExp w := by
        simp [escapeRegExp, hc]
      rw [e]
      simp only [List.cons_append, List.map_cons]
      rw [parseAtoms]
      simp only [if_true, if_neg (special_ne_b hc)]
      rw [ih]
    · have hc' : isRegExpSpecial c = false := by simpa using hc
      have e : escapeRegExp (c :: w) = c :: escapeRegExp w := by
        simp [escapeRegExp, hc']
      rw [e]
      simp only [List.cons_append, List.map_cons]
      cases hw : escapeRegExp w ++ d :: rest with
      | nil => simp at hw
      | cons x xs =>
        rw [parseAtoms]
        simp only [if_neg (not_special_ne_backslash hc')]
        rw [← hw, ih]

theorem skillRegExp_re (kw : Str) :
    (skillRegExp kw).re = Re.seqs (Re.wordB :: (kw.map Re.chr ++ [Re.wordB])) := by
  unfold skillRegExp
  simp only
  have e : "\\b".toList ++ escapeRegExp kw ++ "\\b".toList =
      '\\' :: 'b' :: (escapeRegExp kw ++ '\\' :: 'b' :: []) := by
    simp
  rw [e, parseAtoms_wordB, parseAtoms_escape, parseAtoms_wordB]
  rfl

theorem isWordChar_of_letter {c : Char} (h : isLetter c = true) : isWordChar c = true := by
  simp only [isLetter, Bool.or_eq_true] at h
  simp only [isWordChar, Bool.or_eq_true]
  rcases h with h | h
  · exact Or.inl (Or.inl (Or.inl h))
  · exact Or.inl (Or.inl (Or.inr h))

theorem wordB_start (p q : Str) (caps : List (Nat × Str)) {x : Char} (hx : isLetter x = true) :
    wordBHolds ⟨p.reverse, x :: q, caps⟩ = true ↔ isWordAt p.getLast? = false := by
  simp only [wordBHolds, List.head?_reverse, List.head?_cons, isWordAt,
    isWordChar_of_letter hx]
  cases isWordAt p.getLast? <;> simp

theorem wordB_end (pre q : Str) (caps : List (Nat × Str)) {y : Char} (hy : isLetter y = true) :
    wordBHolds ⟨y :: pre, q, caps⟩ = true ↔ isWordAt q.head? = false := by
  simp only [wordBHolds, List.head?_cons, isWordAt, isWordChar_of_letter hy]
  cases isWordAt q.head? <;> simp

/-- The whole-word pattern built for a skill matches somewhere exactly when the skill occurs
as a whole word, whatever the case of its letters. -/
theorem hasMatch_skillRegExp_iff {kw : Str} (hplain : ∀ c ∈ kw, c.toNat ≠ 0xE2 ∧ c.toNat ≠ 0xC2)
    (c0 : Char) (mid0 : Str) (hhead : kw = c0 :: mid0) (hc0 : isLetter c0 = true)
    (mid1 : Str) (c1 : Char) (hlast : kw = mid1 ++ [c1]) (hc1 : isLetter c1 = true)
    (text : Str) :
    HasMatch (skillRegExp kw) text ↔ OccursWholeWordCI kw text := by
  have hfl : (skillRegExp kw).flags.ignoreCase = true := rfl
  unfold HasMatch
  rw [skillRegExp_re]
  constructor
  · rintro ⟨p, q, t, rfl, hstep⟩
    obtain ⟨u, ⟨hb1, rfl⟩, hrest⟩ := (step_seqs_cons _ _ _ _ _).mp hstep
    obtain ⟨w, q', hq, hci, hb2, _⟩ := (step_lits_seqs hfl kw hplain [Re.wordB] _ _).mp hrest
    simp only at hq
    subst hq
    obtain ⟨x, r, rfl, hx⟩ := head_letter_of_ci c0 mid0 (hhead ▸ hci) hc0
    obtain ⟨y, front, hfront, hy⟩ := getLast_letter_of_ci mid1 c1 (hlast ▸ hci) hc1
    refine ⟨p, x :: r, q', by simp, hci, ?_, ?_⟩
    · exact (wordB_start p _ _ hx).mp hb1
    · rw [hfront] at hb2
      simp only [List.reverse_append, List.reverse_cons, List.reverse_nil, List.nil_append,
        List.singleton_append, List.cons_append] at hb2
      exact (wordB_end _ _ _ hy).mp hb2
  · rintro ⟨p, w, q, rfl, hci, hp, hq⟩
    obtain ⟨x, r, rfl, hx⟩ := head_letter_of_ci c0 mid0 (hhead ▸ hci) hc0
    obtain ⟨y, front, hfront, hy⟩ := getLast_letter_of_ci mid1 c1 (hlast ▸ hci) hc1
    refine ⟨p, (x :: r) ++ q, ⟨(x :: r).reverse ++ p.reverse, q, []⟩, by simp, ?_⟩
    refine (step_seqs_cons _ _ _ _ _).mpr ⟨_, ⟨?_, rfl⟩, ?_⟩
    · exact (wordB_start p _ _ hx).mpr hp
    · refine (step_lits_seqs hfl kw hplain [Re.wordB] _ _).mpr ⟨x :: r, q, rfl, hci, ?_, rfl⟩
      rw [hfront]
      simp only [List.reverse_append, List.reverse_cons, List.reverse_nil, List.nil_append,
        List.singleton_append, List.cons_append]
      exact (wordB_end _ _ _ hy).mpr hq

theorem occursWholeWordCI_lower (kw text : Str) :
    OccursWholeWordCI (toLowerCase kw) text ↔ OccursWholeWordCI kw text := by
  unfold OccursWholeWordCI
  simp only [toLowerCase_idem]

/-- The entries of the taxonomy: no letter-like character outside ASCII, a letter at both
ends. -/
theorem skillsTaxonomy_shape :
    ∀ s ∈ skillsTaxonomy,
      (∀ c ∈ toLowerCase s.toList, c.toNat ≠ 0xE2 ∧ c.toNat ≠ 0xC2) ∧
      ((toLowerCase s.toList).head?.map isLetter) = some true ∧
      ((toLowerCase s.toList).getLast?.map isLetter) = some true := by decide

theorem last_letter_of_getLast? {kw : Str} (h : (kw.getLast?.map isLetter) = some true) :
    ∃ mid c, kw = mid ++ [c] ∧ isLetter c = true := by
  rcases List.eq_nil_or_concat kw with rfl | ⟨mid, c, rfl⟩
  · simp at h
  · refine ⟨mid, c, by simp, ?_⟩
    simpa using h

/-- Membership in the result of `extractSkills`, for an entry of the taxonomy. -/
theorem mem_extractSkills_iff {s : String} (hs : s ∈ skillsTaxonomy) (text : Str) :
    s ∈ extractSkills text ↔ OccursWholeWordCI s.toList text := by
  have hnodup : skillsTaxonomy.Nodup := by decide
  obtain ⟨hplain, hhead, hlast⟩ := skillsTaxonomy_shape s hs
  obtain ⟨c0, mid0, h0, hc0⟩ := head_letter_of_head? hhead
  obtain ⟨mid1, c1, h1, hc1⟩ := last_letter_of_getLast? hlast
  have hre := hasMatch_skillRegExp_iff hplain c0 mid0 h0 hc0 mid1 c1 h1 hc1 text
  rw [occursWholeWordCI_lower] at hre
  unfold extractSkills
  simp only []
  rw [dedupKeepFirst_of_nodup _ (hnodup.sublist (List.filter_sublist _))]
  simp only [List.mem_filter, hs, true_and, Bool.and_eq_true, RegExp.test]
  rw [exec_isSome_iff_hasMatch, hre]
  constructor
  · exact fun h => h.2
  · intro h
    refine ⟨?_, h⟩
    exact (occursCI_iff_includes _ _).mp (occursCI_of_wholeWord h)

/-! ## Runs of characters -/

/-- Two maximal runs of the same kind at the start of the same text are equal. -/
theorem run_unique {P : Char → Bool} :
    ∀ {a a' y y' : Str}, a ++ y = a' ++ y' →
      (∀ c ∈ a, P c = true) → (∀ c ∈ a', P c = true) →
      (∀ c, y.head? = some c → P c = false) → (∀ c, y'.head? = some c → P c = false) →
      a = a' ∧ y = y' := by
  intro a
  induction a with
  | nil =>
    intro a' y y' h _ ha' hy _
    cases a' with
    | nil => exact ⟨rfl, h⟩
    | cons c r =>
      simp only [List.nil_append, List.cons_append] at h
      have h1 := hy c (by rw [h]; rfl)
      rw [ha' c (List.mem_cons_self _ _)] at h1
      cases h1
  | cons c a ih =>
    intro a' y y' h ha ha' hy hy'
    cases a' with
    | nil =>
      simp only [List.nil_append, List.cons_append] at h
      have h1 := hy' c (by rw [← h]; rfl)
      rw [ha c (List.mem_cons_self _ _)] at h1
      cases h1
    | cons c' r =>
      simp only [List.cons_append, List.cons.injEq] at h
      obtain ⟨h1, h2⟩ := ih h.2 (fun x hx => ha x (List.mem_cons_of_mem _ hx))
        (fun x hx => ha' x (List.mem_cons_of_mem _ hx)) hy hy'
      exact ⟨by rw [h.1, h1], h2⟩

/-- A run that starts a text lies within the maximal run that starts it. -/
theorem run_within {P : Char → Bool} :
    ∀ {a y run tail : Str}, a ++ y = run ++ tail →
      (∀ c ∈ a, P c = true) → (∀ c, tail.head? = some c → P c = false) →
      ∃ r2, run = a ++ r2 ∧ y = r2 ++ tail := by
  intro a
  induction a with
  | nil => intro y run tail h _ _; exact ⟨run, rfl, h⟩
  | cons c a ih =>
    intro y run tail h ha ht
    cases run with
    | nil =>
      simp only [List.nil_append, List.cons_append] at h
      have h1 := ht c (by rw [← h]; rfl)
      rw [ha c (List.mem_cons_self _ _)] at h1
      cases h1
    | cons c' r =>
      simp only [List.cons_append, List.cons.injEq] at h
      obtain ⟨r2, h1, h2⟩ := ih h.2 (fun x hx => ha x (List.mem_cons_of_mem _ hx)) ht
      exact ⟨r2, by rw [h.1, h1]; rfl, h2⟩

theorem dropWhile_run {P : Char → Bool} {a y : Str} (ha : ∀ c ∈ a, P c = true)
    (hy : ∀ c, y.head? = some c → P c = false) : (a ++ y).dropWhile P = y := by
  induction a with
  | nil =>
    cases y with
    | nil => rfl
    | cons c r => simp [List.dropWhile, hy c rfl]
  | cons c a ih =>
    simp only [List.cons_append, List.dropWhile_cons, ha c (List.mem_cons_self _ _), if_true]
    exact ih (fun x hx => ha x (List.mem_cons_of_mem _ hx))

theorem takeWhile_run {P : Char → Bool} {a y : Str} (ha : ∀ c ∈ a, P c = true)
    (hy : ∀ c, y.head? = some c → P c = false) : (a ++ y).takeWhile P = a := by
  induction a with
  | nil =>
    cases y with
    | nil => rfl
    | cons c r => simp [List.takeWhile, hy c rfl]
  | cons c a ih =>
    simp only [List.cons_append, List.takeWhile_cons, ha c (List.mem_cons_self _ _), if_true]
    rw [ih (fun x hx => ha x (List.mem_cons_of_mem _ hx))]

/-! ## Introduction and elimination of quantified classes -/

/-- A character matched by an item of a class is matched by the class, with or without the
flag `i`. -/
theorem classTest_of_item {i : Bool} {items : List ClassItem} {c : Char}
    (h : items.any (fun it => it.test c) = true) : classTest i items c = true := by
  unfold classTest
  cases i with
  | false => simpa using h
  | true =>
    simp only [if_true, List.any_eq_true]
    refine ⟨c, ?_, by simpa [List.any_eq_true] using h⟩
    unfold caseVariants
    split_ifs <;> exact List.mem_cons_self _ _

/-- A quantified class can consume any run of characters of the class whose length fits. -/
theorem repRun_cls_intro (fl : Flags) (items : List ClassItem) (q : Str)
    (caps : List (Nat × Str)) :
    ∀ (w : Str) (mn : Nat) (mx : Option Nat) (pre : Str),
      (∀ c ∈ w, classTest fl.ignoreCase items c = true) → mn ≤ w.length →
      (∀ n, mx = some n → w.length ≤ n) →
      RepRun (Step fl (.cls items)) mn mx ⟨pre, w ++ q, caps⟩ ⟨w.reverse ++ pre, q, caps⟩ := by
  intro w
  induction w with
  | nil =>
    intro mn mx pre _ hmn _
    exact RepRun.done (Or.inl (by simpa using hmn))
  | cons c w ih =>
    intro mn mx pre hw hmn hmx
    refine RepRun.more (t := ⟨c :: pre, w ++ q, caps⟩) ?_ ?_ ?_ ?_
    · intro h0
      have := hmx 0 h0
      simp at this
    · exact ⟨c, w ++ q, rfl, hw c (List.mem_cons_self _ _), rfl⟩
    · intro _; simp
    · have := ih (mn - 1) (mx.map (· - 1)) (c :: pre)
        (fun x hx => hw x (List.mem_cons_of_mem _ hx))
        (by simp only [List.length_cons] at hmn; omega)
        (by
          intro n hn
          cases mx with
          | none => simp at hn
          | some m =>
            simp only [Option.map_some', Option.some.injEq] at hn
            have := hmx m rfl
            simp only [List.length_cons] at this
            omega)
      simpa using this

/-- What a run of a quantified class does: it consumes characters of the class and leaves
the captures alone. -/
theorem step_rep_cls {fl : Flags} {g : Bool} {mn : Nat} {mx : Option Nat}
    {items : List ClassItem} {s t : St} (h : Step fl (.rep g mn mx (.cls items)) s t) :
    ∃ w, s.suf = w ++ t.suf ∧ (∀ c ∈ w, classTest fl.ignoreCase items c = true) ∧
      ((∀ n, mx = some n → mn ≤ n) → mn ≤ w.length) ∧ t.caps = s.caps := by
  obtain ⟨w, hw, hl⟩ := step_lang fl _ s t h
  obtain ⟨h1, h2, _⟩ := lang_rep_cls hl
  exact ⟨w, hw, h1, h2, step_noCaps fl (.rep g mn mx (.cls items)) rfl s t h⟩

theorem take_append_length (v r : Str) : (v ++ r).take ((v ++ r).length - r.length) = v := by
  simp

/-! ## The labelled name pattern `namePatterns[0]` -/

theorem lowerChar_eq_low {x d : Char} (h : lowerChar x = lowerChar d) (hd : d.toNat < 0x41) :
    x = d := by
  have h' := (char_eq_iff _ _).mp h
  rw [lowerChar_toNat, lowerChar_toNat] at h'
  rw [char_eq_iff]
  split_ifs at h' <;> omega

theorem nameChar_not_space {c : Char} (h : isNameChar c = true) : isWhiteSpace c = false := by
  simp only [isNameChar, Bool.or_eq_true, beq_iff_eq] at h
  rcases h with h | h
  · exact letter_not_space h
  · rw [h]; decide

theorem space_not_nameChar {c : Char} (h : isWhiteSpace c = true) : isNameChar c = false := by
  cases hn : isNameChar c with
  | false => rfl
  | true => rw [nameChar_not_space hn] at h; cases h

theorem space_not_letter {c : Char} (h : isWhiteSpace c = true) : isLetter c = false := by
  cases hn : isLetter c with
  | false => rfl
  | true => rw [letter_not_space hn] at h; cases h

theorem letter_nameChar {c : Char} (h : isLetter c = true) : isNameChar c = true := by
  simp [isNameChar, h]

/-- The class `[A-Za-z']` matches letters and the apostrophe only, also under the flag `i`. -/
theorem nameChar_class {c : Char}
    (h : classTest true [.range 'A' 'Z', .range 'a' 'z', .ch (Char.ofNat 39)] c = true) :
    isNameChar c = true := by
  unfold classTest at h
  simp only [if_true, List.any_eq_true] at h
  obtain ⟨y, hy, it, hit, ht⟩ := h
  simp only [List.mem_cons, List.mem_singleton, List.not_mem_nil, or_false] at hit
  rcases hit with rfl | rfl | rfl
  · exact letter_nameChar (caseVariants_letter hy (range_AZ_letter y ht))
  · exact letter_nameChar (caseVariants_letter hy (range_az_letter y ht))
  · have hc : classTest true [.ch (Char.ofNat 39)] c = true := by
      unfold classTest
      simp only [if_true, List.any_eq_true]
      exact ⟨y, hy, _, List.mem_singleton.mpr rfl, ht⟩
    have := (classTest_chr_ci (c := Char.ofNat 39) (by decide) (by decide) c).mp hc
    have hc' := lowerChar_eq_low this (by decide)
    rw [hc']
    decide

/-- The texts of one iteration `(?:\s+[A-Za-z']+)`. -/
theorem lang_iter {e : Str}
    (h : Lang ⟨true, false⟩ (.seq (.plus .ws) (.plus alphaApos)) e) : IterShape e := by
  obtain ⟨S, T, rfl, hS, hT⟩ := h
  obtain ⟨hS1, hS2, _⟩ := lang_rep_cls hS
  obtain ⟨hT1, hT2, _⟩ := lang_rep_cls hT
  have hSlen := hS2 (by intro n hn; cases hn)
  have hTlen := hT2 (by intro n hn; cases hn)
  refine ⟨S, T, rfl, ?_, fun c hc => space_class (hS1 c hc), ?_,
    fun c hc => nameChar_class (hT1 c hc)⟩
  · intro h0; rw [h0] at hSlen; simp at hSlen
  · intro h0; rw [h0] at hTlen; simp at hTlen

/-- The texts captured by the labelled name patterns: a word of letters, then at most two
iterations. -/
theorem lang_labelledBody {v : Str}
    (h : Lang ⟨true, false⟩
      (.seq (.plus alpha) (.range 0 2 (.seq (.plus .ws) (.plus alphaApos)))) v) :
    ∃ (T0 : Str) (es : List Str), v = T0 ++ es.flatten ∧ T0 ≠ [] ∧ (∀ c ∈ T0, isLetter c = true) ∧
      es.length ≤ 2 ∧ ∀ e ∈ es, IterShape e := by
  obtain ⟨T0, b, rfl, hT0, hb⟩ := h
  obtain ⟨h1, h2, _⟩ := lang_rep_cls hT0
  have hlen := h2 (by intro n hn; cases hn)
  obtain ⟨es, rfl, _, hmax, hall⟩ := hb
  refine ⟨T0, es, rfl, ?_, fun c hc => alpha_letter (h1 c hc), hmax 2 rfl,
    fun e he => lang_iter (hall e he)⟩
  intro h0; rw [h0] at hlen; simp at hlen

theorem lineEndAt_head_space {s : Str} (h : lineEndAt s = true) :
    ∀ c, s.head? = some c → isWhiteSpace c = true := by
  intro c hc
  cases s with
  | nil => cases hc
  | cons x r =>
    simp only [List.head?_cons, Option.some.injEq] at hc
    subst hc
    simp only [lineEndAt, Bool.or_eq_true, beq_iff_eq, Bool.and_eq_true] at h
    rcases h with h | ⟨h, _⟩
    · rw [h]; decide
    · rw [h]; decide

/-- What follows a word inside or after the iterations starts with white space. -/
theorem iters_head_space {es : List Str} {suf3 : Str} (hes : ∀ e ∈ es, IterShape e)
    (hle : lineEndAt suf3 = true) :
    ∀ c, (es.flatten ++ suf3).head? = some c → isWhiteSpace c = true := by
  cases es with
  | nil => simpa using lineEndAt_head_space hle
  | cons e es' =>
    obtain ⟨S, T, rfl, hS, hSw, _, _⟩ := hes e (List.mem_cons_self _ _)
    cases S with
    | nil => exact absurd rfl hS
    | cons x S' =>
      intro c hc
      simp only [List.flatten_cons, List.cons_append, List.head?_cons,
        Option.some.injEq] at hc
      subst hc
      exact hSw x (List.mem_cons_self _ _)

/-- Iterations followed by a line end make the text continue the name. -/
theorem words_continue :
    ∀ (k : Nat) (es : List Str) (suf3 X : Str), es ≠ [] → es.length ≤ k →
      (∀ e ∈ es, IterShape e) → lineEndAt suf3 = true → X = es.flatten ++ suf3 →
      nameWordsThenEol k X = true := by
  intro k
  induction k with
  | zero =>
    intro es suf3 X hne hlen
    cases es with
    | nil => exact absurd rfl hne
    | cons e es' => simp at hlen
  | succ k ih =>
    intro es suf3 X hne hlen hes hle hX
    cases es with
    | nil => exact absurd rfl hne
    | cons e es' =>
      obtain ⟨S, T, rfl, hS, hSw, hT, hTn⟩ := hes e (List.mem_cons_self _ _)
      have hes' : ∀ e ∈ es', IterShape e := fun x hx => hes x (List.mem_cons_of_mem _ hx)
      have hY := iters_head_space hes' hle
      have hTY : ∀ c, (T ++ (es'.flatten ++ suf3)).head? = some c → isWhiteSpace c = false := by
        intro c hc
        cases T with
        | nil => exact absurd rfl hT
        | cons x T' =>
          simp only [List.cons_append, List.head?_cons, Option.some.injEq] at hc
          subst hc
          exact nameChar_not_space (hTn x (List.mem_cons_self _ _))
      have hX' : X = S ++ (T ++ (es'.flatten ++ suf3)) := by
        rw [hX]; simp
      have h1 : X.dropWhile isWhiteSpace = T ++ (es'.flatten ++ suf3) := by
        rw [hX']; exact dropWhile_run hSw hTY
      have hYn : ∀ c, (es'.flatten ++ suf3).head? = some c → isNameChar c = false :=
        fun c hc => space_not_nameChar (hY c hc)
      have h2 : (T ++ (es'.flatten ++ suf3)).takeWhile isNameChar = T := takeWhile_run hTn hYn
      have h3 : (T ++ (es'.flatten ++ suf3)).dropWhile isNameChar = es'.flatten ++ suf3 :=
        dropWhile_run hTn hYn
      unfold nameWordsThenEol
      simp only [h1, h2, h3, Bool.and_eq_true, Bool.or_eq_true, Bool.not_eq_true',
        List.isEmpty_eq_false_iff_exists_mem]
      refine ⟨?_, ?_⟩
      · cases T with
        | nil => exact absurd rfl hT
        | cons x T' => exact ⟨x, List.mem_cons_self _ _⟩
      · cases es' with
        | nil => left; simpa using hle
        | cons e' es'' =>
          right
          refine ⟨?_, ih (e' :: es'') suf3 _ (by simp) (by simpa using hlen) hes' hle rfl⟩
          have := hY
          cases hh : (e' :: es'').flatten ++ suf3 with
          | nil =>
            obtain ⟨S', T', rfl, hS', _⟩ := hes' e' (List.mem_cons_self _ _)
            cases S' with
            | nil => exact absurd rfl hS'
            | cons y S'' => simp at hh
          | cons y r =>
            rw [hh] at this
            exact this y rfl

theorem words_tail_head (ws : List Str) (rest : Str) :
    ∀ c, ((ws.map (fun w => ' ' :: w)).flatten ++ '\n' :: rest).head? = some c →
      isWhiteSpace c = true := by
  intro c hc
  cases ws with
  | nil =>
    simp only [List.map_nil, List.flatten_nil, List.nil_append, List.head?_cons,
      Option.some.injEq] at hc
    subst hc; decide
  | cons w ws' =>
    simp only [List.map_cons, List.flatten_cons, List.cons_append, List.head?_cons,
      Option.some.injEq] at hc
    subst hc; decide

/-- The iterations that can be followed by a line end are exactly the remaining words of
the name, unless the text after the line break continues the name. -/
theorem words_unique :
    ∀ (ws : List Str) (k : Nat) (es : List Str) (suf3 rest : Str),
      (∀ w ∈ ws, w ≠ [] ∧ ∀ c ∈ w, isLetter c = true) → es.length ≤ k → ws.length ≤ k →
      (∀ e ∈ es, IterShape e) → lineEndAt suf3 = true →
      es.flatten ++ suf3 = (ws.map (fun w => ' ' :: w)).flatten ++ '\n' :: rest →
      nameWordsThenEol (k - ws.length) ('\n' :: rest) = false →
      es.flatten = (ws.map (fun w => ' ' :: w)).flatten ∧ suf3 = '\n' :: rest := by
  intro ws
  induction ws with
  | nil =>
    intro k es suf3 rest _ hlen _ hes hle heq hrest
    cases es with
    | nil => exact ⟨rfl, by simpa using heq⟩
    | cons e es' =>
      have := words_continue k (e :: es') suf3 ('\n' :: rest) (by simp) hlen hes hle
        (by simpa using heq.symm)
      simp only [List.length_nil, Nat.sub_zero] at hrest
      rw [hrest] at this
      cases this
  | cons W ws' ih =>
    intro k es suf3 rest hws hlen hwlen hes hle heq hrest
    obtain ⟨hW, hWl⟩ := hws W (List.mem_cons_self _ _)
    have hws' : ∀ w ∈ ws', w ≠ [] ∧ ∀ c ∈ w, isLetter c = true :=
      fun x hx => hws x (List.mem_cons_of_mem _ hx)
    cases es with
    | nil =>
      simp only [List.flatten_nil, List.nil_append, List.map_cons, List.flatten_cons,
        List.cons_append] at heq
      rw [heq] at hle
      simp [lineEndAt] at hle
    | cons e es' =>
      obtain ⟨S, T, rfl, hS, hSw, hT, hTn⟩ := hes e (List.mem_cons_self _ _)
      have hes' : ∀ e ∈ es', IterShape e := fun x hx => hes x (List.mem_cons_of_mem _ hx)
      have hY := iters_head_space hes' hle
      have hY' := words_tail_head ws' rest
      have heq1 : S ++ (T ++ (es'.flatten ++ suf3)) =
          [' '] ++ (W ++ ((ws'.map (fun w => ' ' :: w)).flatten ++ '\n' :: rest)) := by
        simpa using heq
      have hTY : ∀ c, (T ++ (es'.flatten ++ suf3)).head? = some c → isWhiteSpace c = false := by
        intro c hc
        cases T with
        | nil => exact absurd rfl hT
        | cons x T' =>
          simp only [List.cons_append, List.head?_cons, Option.some.injEq] at hc
          subst hc
          exact nameChar_not_space (hTn x (List.mem_cons_self _ _))
      have hWY : ∀ c, (W ++ ((ws'.map (fun w => ' ' :: w)).flatten ++ '\n' :: rest)).head? =
          some c → isWhiteSpace c = false := by
        intro c hc
        cases W with
        | nil => exact absurd rfl hW
        | cons x W' =>
          simp only [List.cons_append, List.head?_cons, Option.some.injEq] at hc
          subst hc
          exact letter_not_space (hWl x (List.mem_cons_self _ _))
      obtain ⟨hS1, heq2⟩ := run_unique heq1 hSw (by decide) hTY hWY
      obtain ⟨hT1, heq3⟩ := run_unique heq2 hTn (fun c hc => letter_nameChar (hWl c hc))
        (fun c hc => space_not_nameChar (hY c hc)) (fun c hc => space_not_nameChar (hY' c hc))
      have hk : k - (W :: ws').length = (k - 1) - ws'.length := by
        simp only [List.length_cons]; omega
      rw [hk] at hrest
      simp only [List.length_cons] at hlen hwlen
      obtain ⟨h1, h2⟩ := ih (k - 1) es' suf3 rest hws' (by omega) (by omega) hes' hle heq3 hrest
      refine ⟨?_, h2⟩
      simp only [List.flatten_cons, List.map_cons]
      rw [hS1, hT1, h1]
      simp

/-! ## Runs of `namePatterns[0]` on a labelled name line -/

/-- The line end `(?:\r?\n|$)` without the flag `m`. -/
theorem step_lineEnd {s t : St} (h : Step ⟨true, false⟩ lineEnd s t) :
    lineEndAt s.suf = true ∧ t.caps = s.caps := by
  refine ⟨?_, step_noCaps _ lineEnd rfl s t h⟩
  rcases h with ⟨u, hopt, c, r, hsuf, hc, _⟩ | ⟨heol, _⟩
  · obtain ⟨w, hw, hl⟩ := step_lang _ _ s u hopt
    obtain ⟨h1, _, h3⟩ := lang_rep_cls hl
    have hc' : c = '\n' :=
      lowerChar_eq_low ((classTest_chr_ci (c := '\n') (by decide) (by decide) c).mp hc)
        (by decide)
    subst hc'
    have hlen := h3 1 rfl
    rw [hw, hsuf]
    match w, h1, hlen with
    | [], _, _ => rfl
    | [x], h1, _ =>
      have hx : x = '\r' :=
        lowerChar_eq_low
          ((classTest_chr_ci (c := '\r') (by decide) (by decide) x).mp
            (h1 x (List.mem_singleton.mpr rfl)))
          (by decide)
      subst hx
      rfl
    | _ :: _ :: _, _, hlen => simp at hlen
  · cases hs : s.suf with
    | nil => rfl
    | cons c r =>
      simp [eolHolds, hs] at heol

theorem step_lineEnd_newline (pre rest : Str) (caps : List (Nat × Str)) :
    Step ⟨true, false⟩ lineEnd ⟨pre, '\n' :: rest, caps⟩ ⟨'\n' :: pre, rest, caps⟩ := by
  refine Or.inl ⟨⟨pre, '\n' :: rest, caps⟩, RepRun.done (Or.inl rfl), ?_⟩
  exact ⟨'\n', rest, rfl, by decide, rfl⟩

theorem letter_alpha {i : Bool} {c : Char} (h : isLetter c = true) :
    classTest i [.range 'A' 'Z', .range 'a' 'z'] c = true := by
  apply classTest_of_item
  have h1 : (ClassItem.range 'A' 'Z').test c = isUpperAZ c := rfl
  have h2 : (ClassItem.range 'a' 'z').test c = isLowerAZ c := rfl
  simp only [List.any_cons, List.any_nil, Bool.or_false, h1, h2]
  exact h

theorem letter_alphaApos {i : Bool} {c : Char} (h : isLetter c = true) :
    classTest i [.range 'A' 'Z', .range 'a' 'z', .ch (Char.ofNat 39)] c = true := by
  apply classTest_of_item
  have h1 : (ClassItem.range 'A' 'Z').test c = isUpperAZ c := rfl
  have h2 : (ClassItem.range 'a' 'z').test c = isLowerAZ c := rfl
  simp only [List.any_cons, List.any_nil, Bool.or_false, h1, h2]
  simp only [isLetter, Bool.or_eq_true] at h
  rcases h with h | h <;> simp [h]

/-- One iteration `(?:\s+[A-Za-z']+)` over a space and a word. -/
theorem step_iter_intro (fl : Flags) (W Y pre : Str) (caps : List (Nat × Str))
    (hW : W ≠ []) (hWl : ∀ c ∈ W, isLetter c = true) :
    Step fl (.seq (.plus .ws) (.plus alphaApos)) ⟨pre, ' ' :: (W ++ Y), caps⟩
      ⟨W.reverse ++ (' ' :: pre), Y, caps⟩ := by
  refine ⟨⟨' ' :: pre, W ++ Y, caps⟩, ?_, ?_⟩
  · have := repRun_cls_intro fl [.space] (W ++ Y) caps [' '] 1 none pre
      (by
        intro c hc
        rw [List.mem_singleton.mp hc]
        exact classTest_of_item (by decide))
      (by simp) (by intro n hn; cases hn)
    simpa using this
  · exact repRun_cls_intro fl _ Y caps W 1 none (' ' :: pre)
      (fun c hc => letter_alphaApos (hWl c hc))
      (by
        cases W with
        | nil => exact absurd rfl hW
        | cons x r => simp)
      (by intro n hn; cases hn)

/-- The iterations over the remaining words of the name. -/
theorem iters_intro (fl : Flags) (Y : Str) (caps : List (Nat × Str)) :
    ∀ (ws : List Str) (m : Nat) (pre : Str), ws.length ≤ m →
      (∀ w ∈ ws, w ≠ [] ∧ ∀ c ∈ w, isLetter c = true) →
      ∃ pre', RepRun (Step fl (.seq (.plus .ws) (.plus alphaApos))) 0 (some m)
        ⟨pre, (ws.map (fun w => ' ' :: w)).flatten ++ Y, caps⟩ ⟨pre', Y, caps⟩ := by
  intro ws
  induction ws with
  | nil => intro m pre _ _; exact ⟨pre, RepRun.done (Or.inl rfl)⟩
  | cons W ws' ih =>
    intro m pre hlen hws
    obtain ⟨hW, hWl⟩ := hws W (List.mem_cons_self _ _)
    simp only [List.length_cons] at hlen
    obtain ⟨pre', hrun⟩ := ih (m - 1) (W.reverse ++ (' ' :: pre)) (by omega)
      (fun x hx => hws x (List.mem_cons_of_mem _ hx))
    refine ⟨pre', ?_⟩
    refine RepRun.more
      (t := ⟨W.reverse ++ (' ' :: pre), (ws'.map (fun w => ' ' :: w)).flatten ++ Y, caps⟩)
      ?_ ?_ ?_ ?_
    · intro h0
      simp only [Option.some.injEq] at h0
      omega
    · have := step_iter_intro fl W ((ws'.map (fun w => ' ' :: w)).flatten ++ Y) pre caps hW hWl
      simpa using this
    · intro _
      simp only [List.map_cons, List.flatten_cons, List.cons_append, List.length_cons,
        List.length_append]
      omega
    · simpa using hrun

/-- Every run of `namePatterns[0]` from a line `Name: N` captures `N`, when the text after
the line break does not continue the name. -/
theorem namePattern0_run {pre rest w1 : Str} {ws : List Str} {t : St}
    (hw1 : w1 ≠ [] ∧ ∀ c ∈ w1, isLetter c = true)
    (hws : ∀ w ∈ ws, w ≠ [] ∧ ∀ c ∈ w, isLetter c = true) (hlen : ws.length ≤ 2)
    (hrest : nameWordsThenEol (2 - ws.length) ('\n' :: rest) = false)
    (h : Step ⟨true, false⟩ namePattern0.re
      ⟨pre, "Name:".toList ++
        (' ' :: ((w1 ++ (ws.map (fun w => ' ' :: w)).flatten) ++ '\n' :: rest)), []⟩ t) :
    t.caps = [(1, w1 ++ (ws.map (fun w => ' ' :: w)).flatten)] := by
  obtain ⟨u1, h1, h⟩ :=
    (step_seqs_cons _ (.str "Name:") [.star .ws, labelledName, lineEnd] _ _).mp h
  obtain ⟨u2, h2, h⟩ := (step_seqs_cons _ (.star .ws) [labelledName, lineEnd] _ _).mp h
  obtain ⟨u3, h3, h4⟩ := (step_seqs_cons _ labelledName [lineEnd] _ _).mp h
  obtain ⟨w, q, hq, hci, rfl⟩ := (step_lits rfl "Name:".toList (by decide) _ _).mp h1
  simp only at hq
  have hwlen : w.length = "Name:".toList.length := by
    have := congrArg List.length hci
    simpa [toLowerCase] using this
  obtain ⟨_, hq'⟩ := List.append_inj hq hwlen.symm
  subst hq'
  obtain ⟨w2, hw2, hw2s, _, hcaps2⟩ := step_rep_cls h2
  simp only at hw2 hcaps2
  obtain ⟨u', hbody, rfl⟩ := h3
  obtain ⟨v, hv, hlang⟩ := step_lang _ _ u2 u' hbody
  have hcaps' := step_noCaps _ _ (by rfl) u2 u' hbody
  obtain ⟨hle, hcaps4⟩ := step_lineEnd h4
  simp only at hle hcaps4
  obtain ⟨T0, es, rfl, hT0, hT0l, heslen, hes⟩ := lang_labelledBody hlang
  have hY := iters_head_space hes hle
  have hY' := words_tail_head ws rest
  rw [hv] at hw2
  have hhead1 : ∀ c, ((T0 ++ es.flatten) ++ u'.suf).head? = some c → isWhiteSpace c = false := by
    intro c hc
    cases T0 with
    | nil => exact absurd rfl hT0
    | cons x r =>
      simp only [List.cons_append, List.head?_cons, Option.some.injEq] at hc
      subst hc
      exact letter_not_space (hT0l x (List.mem_cons_self _ _))
  have hhead2 : ∀ c, ((w1 ++ (ws.map (fun w => ' ' :: w)).flatten) ++ '\n' :: rest).head? =
      some c → isWhiteSpace c = false := by
    intro c hc
    obtain ⟨hne, hl⟩ := hw1
    cases w1 with
    | nil => exact absurd rfl hne
    | cons x r =>
      simp only [List.cons_append, List.head?_cons, Option.some.injEq] at hc
      subst hc
      exact letter_not_space (hl x (List.mem_cons_self _ _))
  have heq0 : [' '] ++ ((w1 ++ (ws.map (fun w => ' ' :: w)).flatten) ++ '\n' :: rest) =
      w2 ++ ((T0 ++ es.flatten) ++ u'.suf) := by simpa using hw2
  obtain ⟨_, heq1⟩ := run_unique heq0 (by decide) (fun c hc => space_class (hw2s c hc))
    hhead2 hhead1
  have heq2 : T0 ++ (es.flatten ++ u'.suf) =
      w1 ++ ((ws.map (fun w => ' ' :: w)).flatten ++ '\n' :: rest) := by
    simpa using heq1.symm
  obtain ⟨hT, heq3⟩ := run_unique heq2 hT0l hw1.2
    (fun c hc => space_not_letter (hY c hc)) (fun c hc => space_not_letter (hY' c hc))
  obtain ⟨hflat, hsuf⟩ := words_unique ws 2 es u'.suf rest hws heslen hlen hes hle heq3 hrest
  rw [hcaps4]
  show (1, u2.suf.take (u2.suf.length - u'.suf.length)) :: u'.caps = _
  rw [hv, take_append_length, hcaps', hcaps2, hT, hflat]

/-- A run of `namePatterns[0]` from a line `Name: N` exists. -/
theorem namePattern0_run_exists (pre rest w1 : Str) (ws : List Str)
    (hw1 : w1 ≠ [] ∧ ∀ c ∈ w1, isLetter c = true)
    (hws : ∀ w ∈ ws, w ≠ [] ∧ ∀ c ∈ w, isLetter c = true) (hlen : ws.length ≤ 2) :
    ∃ t, Step ⟨true, false⟩ namePattern0.re
      ⟨pre, "Name:".toList ++
        (' ' :: ((w1 ++ (ws.map (fun w => ' ' :: w)).flatten) ++ '\n' :: rest)), []⟩ t := by
  obtain ⟨pre', hiters⟩ := iters_intro ⟨true, false⟩ ('\n' :: rest) []
    ws 2 (w1.reverse ++ (' ' :: ("Name:".toList.reverse ++ pre))) hlen hws
  refine ⟨⟨'\n' :: pre', rest,
    [(1, (((w1 ++ (ws.map (fun w => ' ' :: w)).flatten) ++ '\n' :: rest).take
      (((w1 ++ (ws.map (fun w => ' ' :: w)).flatten) ++ '\n' :: rest).length -
        ('\n' :: rest).length)))]⟩, ?_⟩
  refine (step_seqs_cons _ (.str "Name:") [.star .ws, labelledName, lineEnd] _ _).mpr
    ⟨⟨"Name:".toList.reverse ++ pre,
      ' ' :: ((w1 ++ (ws.map (fun w => ' ' :: w)).flatten) ++ '\n' :: rest), []⟩, ?_, ?_⟩
  · exact (step_lits rfl "Name:".toList (by decide) _ _).mpr ⟨"Name:".toList, _, rfl, rfl, rfl⟩
  refine (step_seqs_cons _ (.star .ws) [labelledName, lineEnd] _ _).mpr
    ⟨⟨' ' :: ("Name:".toList.reverse ++ pre),
      (w1 ++ (ws.map (fun w => ' ' :: w)).flatten) ++ '\n' :: rest, []⟩, ?_, ?_⟩
  · have := repRun_cls_intro ⟨true, false⟩ [.space]
      ((w1 ++ (ws.map (fun w => ' ' :: w)).flatten) ++ '\n' :: rest) [] [' '] 0 none
      ("Name:".toList.reverse ++ pre)
      (by
        intro c hc
        rw [List.mem_singleton.mp hc]
        exact classTest_of_item (by decide))
      (by simp) (by intro n hn; cases hn)
    simpa using this
  refine (step_seqs_cons _ labelledName [lineEnd] _ _).mpr
    ⟨⟨pre', '\n' :: rest,
      [(1, (((w1 ++ (ws.map (fun w => ' ' :: w)).flatten) ++ '\n' :: rest).take
        (((w1 ++ (ws.map (fun w => ' ' :: w)).flatten) ++ '\n' :: rest).length -
          ('\n' :: rest).length)))]⟩, ?_, step_lineEnd_newline _ _ _⟩
  refine ⟨⟨pre', '\n' :: rest, []⟩, ?_, rfl⟩
  refine ⟨⟨w1.reverse ++ (' ' :: ("Name:".toList.reverse ++ pre)),
    (ws.map (fun w => ' ' :: w)).flatten ++ '\n' :: rest, []⟩, ?_, hiters⟩
  have := repRun_cls_intro ⟨true, false⟩ [.range 'A' 'Z', .range 'a' 'z']
    ((ws.map (fun w => ' ' :: w)).flatten ++ '\n' :: rest) [] w1 1 none
    (' ' :: ("Name:".toList.reverse ++ pre))
    (fun c hc => letter_alpha (hw1.2 c hc))
    (by
      obtain ⟨hne, _⟩ := hw1
      cases w1 with
      | nil => exact absurd rfl hne
      | cons x r => simp)
    (by intro n hn; cases hn)
  simpa using this

/-! ## The leftmost match of `namePatterns[0]` on a labelled name line -/

/-- An occurrence that starts before the end of `pre` and is at most one character longer
than `a` lies inside `pre ++ a`. -/
theorem occurrence_within {p w q pre a b : Str} (h : p ++ (w ++ q) = pre ++ (a ++ b))
    (hlt : p.length < pre.length) (hlen : w.length ≤ a.length + 1) : w <:+: pre ++ a := by
  have h1 : p ++ w <+: pre ++ (a ++ b) := ⟨q, by rw [← h]; simp⟩
  have h2 : pre ++ a <+: pre ++ (a ++ b) := ⟨b, by simp⟩
  obtain ⟨r, hr⟩ := List.prefix_of_prefix_length_le h1 h2
    (by simp only [List.length_append]; omega)
  exact ⟨p, r, hr⟩

/-- The name `w1 w2 ...` ends with a letter. -/
theorem joined_last_letter :
    ∀ (ws : List Str) (w1 : Str), (w1 ≠ [] ∧ ∀ c ∈ w1, isLetter c = true) →
      (∀ w ∈ ws, w ≠ [] ∧ ∀ c ∈ w, isLetter c = true) →
      ∃ y front, w1 ++ (ws.map (fun w => ' ' :: w)).flatten = front ++ [y] ∧
        isLetter y = true := by
  intro ws
  induction ws with
  | nil =>
    intro w1 hw1 _
    rcases List.eq_nil_or_concat w1 with h | ⟨front, y, h⟩
    · exact absurd h hw1.1
    · refine ⟨y, front, by simp [h], hw1.2 y (by rw [h]; simp)⟩
  | cons W ws' ih =>
    intro w1 _ hws
    obtain ⟨y, front, h, hy⟩ := ih W (hws W (List.mem_cons_self _ _))
      (fun x hx => hws x (List.mem_cons_of_mem _ hx))
    refine ⟨y, w1 ++ ' ' :: front, ?_, hy⟩
    simp only [List.map_cons, List.flatten_cons, List.cons_append, List.append_assoc]
    rw [h]

theorem trim_joined (w1 : Str) (ws : List Str) (hw1 : w1 ≠ [] ∧ ∀ c ∈ w1, isLetter c = true)
    (hws : ∀ w ∈ ws, w ≠ [] ∧ ∀ c ∈ w, isLetter c = true) :
    trim (w1 ++ (ws.map (fun w => ' ' :: w)).flatten) =
      w1 ++ (ws.map (fun w => ' ' :: w)).flatten := by
  apply trim_eq_self
  · obtain ⟨hne, hl⟩ := hw1
    cases w1 with
    | nil => exact absurd rfl hne
    | cons x r => exact ⟨x, _, rfl, hl x (List.mem_cons_self _ _)⟩
  · exact joined_last_letter ws w1 hw1 hws

/-- On a text whose first `Name:` is followed by a space, a name of one to three words and a
line break, the leftmost match of `namePatterns[0]` captures that name, unless the text
after the line break continues the name. -/
theorem exec_namePattern0_labelled (pre rest w1 : Str) (ws : List Str)
    (hfirst : includes (toLowerCase (pre ++ "Name".toList)) "name:".toList = false)
    (hw1 : w1 ≠ [] ∧ ∀ c ∈ w1, isLetter c = true)
    (hws : ∀ w ∈ ws, w ≠ [] ∧ ∀ c ∈ w, isLetter c = true) (hlen : ws.length ≤ 2)
    (hrest : nameWordsThenEol (2 - ws.length) ('\n' :: rest) = false) :
    ∃ mt, namePattern0.exec (pre ++ ("Name:".toList ++
        (' ' :: ((w1 ++ (ws.map (fun w => ' ' :: w)).flatten) ++ '\n' :: rest)))) = some mt ∧
      mt.get 1 = some (w1 ++ (ws.map (fun w => ' ' :: w)).flatten) := by
  obtain ⟨t0, ht0⟩ := namePattern0_run_exists pre.reverse rest w1 ws hw1 hws hlen
  have hsome := (exec_isSome_iff_hasMatch namePattern0 _).mpr ⟨pre, _, t0, rfl, ht0⟩
  obtain ⟨mt, hmt⟩ := Option.isSome_iff_exists.mp hsome
  refine ⟨mt, hmt, ?_⟩
  obtain ⟨p, w, q, t, htext, hstep, _, hmteq, hmin⟩ := exec_some_run hmt
  have hnlt : ¬ pre.length < p.length := fun hlt => hmin pre _ t0 rfl hlt ht0
  have hnlt' : ¬ p.length < pre.length := by
    intro hlt
    obtain ⟨u1, h1, _⟩ :=
      (step_seqs_cons _ (.str "Name:") [.star .ws, labelledName, lineEnd] _ _).mp hstep
    obtain ⟨w', q', hq, hci, _⟩ := (step_lits rfl "Name:".toList (by decide) _ _).mp h1
    simp only at hq
    have hwlen : w'.length = 5 := by
      have := congrArg List.length hci
      simpa [toLowerCase] using this
    have htext' : p ++ (w' ++ q') = pre ++ ("Name".toList ++ (':' :: ' ' ::
        ((w1 ++ (ws.map (fun w => ' ' :: w)).flatten) ++ '\n' :: rest))) := by
      rw [← hq, ← htext]; rfl
    have hin := occurrence_within htext' hlt (by rw [hwlen]; rfl)
    have hin' : toLowerCase w' <:+: toLowerCase (pre ++ "Name".toList) := by
      obtain ⟨a, b, hab⟩ := hin
      exact ⟨toLowerCase a, toLowerCase b, by
        rw [← hab, toLowerCase_append, toLowerCase_append]⟩
    rw [hci] at hin'
    have := (includes_iff_occurs _ _).mpr hin'
    rw [show toLowerCase "Name:".toList = "name:".toList from by decide, hfirst] at this
    cases this
  have hpl : pre.length = p.length := by omega
  obtain ⟨hp, hq⟩ := List.append_inj htext hpl
  subst hp
  rw [← hq] at hstep
  have hcaps := namePattern0_run hw1 hws hlen hrest hstep
  rw [hmteq]
  simp only [MatchResult.get, hcaps]
  rfl

/-- The name part of `extractPersonalInfo` on such a text. -/
theorem extractName_labelled (pre rest w1 : Str) (ws : List Str)
    (hfirst : includes (toLowerCase (pre ++ "Name".toList)) "name:".toList = false)
    (hw1 : w1 ≠ [] ∧ ∀ c ∈ w1, isLetter c = true)
    (hws : ∀ w ∈ ws, w ≠ [] ∧ ∀ c ∈ w, isLetter c = true) (hlen : ws.length ≤ 2)
    (hrole : containsRoleKeyword roleKeywords
      (w1 ++ (ws.map (fun w => ' ' :: w)).flatten) = false)
    (hrest : nameWordsThenEol (2 - ws.length) ('\n' :: rest) = false) :
    extractName (pre ++ ("Name:".toList ++
        (' ' :: ((w1 ++ (ws.map (fun w => ' ' :: w)).flatten) ++ '\n' :: rest)))) =
      some (w1 ++ (ws.map (fun w => ' ' :: w)).flatten, 98) := by
  obtain ⟨mt, hmt, hget⟩ := exec_namePattern0_labelled pre rest w1 ws hfirst hw1 hws hlen hrest
  unfold extractName namePatterns
  rw [primaryName]
  simp only [hmt, hget, trim_joined w1 ws hw1 hws, hrole]
  rfl

/-- The name found by the name part is the name of the result. -/
theorem personalInfo_name {text N : Str} {c : Nat} (h : extractName text = some (N, c)) :
    ∃ info, extractPersonalInfo text = some info ∧ info.name = N ∧
      info.confidence.name = some c := by
  obtain ⟨name, cn, email, ce, phone, cp, location, cl, h1, _, _, _, hinfo⟩ :=
    extractPersonalInfo_total text
  rw [h] at h1
  simp only [Option.some.injEq, Prod.mk.injEq] at h1
  obtain ⟨rfl, rfl⟩ := h1
  exact ⟨_, hinfo, rfl, rfl⟩

/-! ## Literal texts without the flag `i` -/

theorem step_chr_cs {fl : Flags} (hi : fl.ignoreCase = false) (c : Char) (s t : St) :
    Step fl (.chr c) s t ↔
      ∃ rest, s.suf = c :: rest ∧ t = { s with pre := c :: s.pre, suf := rest } := by
  simp only [Re.chr, Step, hi, classTest, Bool.false_eq_true, if_false, List.any_cons,
    List.any_nil, Bool.or_false, ClassItem.test, beq_iff_eq]
  constructor
  · rintro ⟨x, rest, h1, rfl, h3⟩
    exact ⟨rest, h1, h3⟩
  · rintro ⟨rest, h1, h3⟩
    exact ⟨c, rest, h1, rfl, h3⟩

theorem step_lits_seqs_cs {fl : Flags} (hi : fl.ignoreCase = false) (kw : Str)
    (tail : List Re) :
    ∀ s t, Step fl (Re.seqs (kw.map Re.chr ++ tail)) s t ↔
      ∃ q, s.suf = kw ++ q ∧ Step fl (Re.seqs tail) ⟨kw.reverse ++ s.pre, q, s.caps⟩ t := by
  induction kw with
  | nil =>
    intro s t
    simp only [List.map_nil, List.nil_append, List.reverse_nil]
    constructor
    · intro h; exact ⟨s.suf, rfl, h⟩
    · rintro ⟨q, h1, h2⟩
      have : s = ⟨s.pre, q, s.caps⟩ := by
        cases s; simp only at h1; subst h1; rfl
      rw [this]; exact h2
  | cons c kw ih =>
    intro s t
    simp only [List.map_cons, List.cons_append]
    rw [step_seqs_cons]
    constructor
    · rintro ⟨u, hu, hrest⟩
      obtain ⟨rest, hx1, rfl⟩ := (step_chr_cs hi c s u).mp hu
      obtain ⟨q, hq1, hq2⟩ := (ih _ t).mp hrest
      simp only at hq1 hq2
      refine ⟨q, by rw [hx1, hq1], ?_⟩
      simpa using hq2
    · rintro ⟨q, hq1, hq2⟩
      refine ⟨{ s with pre := c :: s.pre, suf := kw ++ q }, ?_, ?_⟩
      · exact (step_chr_cs hi c s _).mpr ⟨kw ++ q, hq1, rfl⟩
      · refine (ih _ t).mpr ⟨q, rfl, ?_⟩
        simpa using hq2

theorem step_lits_cs {fl : Flags} (hi : fl.ignoreCase = false) (kw : Str) (s t : St) :
    Step fl (Re.lits kw) s t ↔
      ∃ q, s.suf = kw ++ q ∧ t = ⟨kw.reverse ++ s.pre, q, s.caps⟩ := by
  have h := step_lits_seqs_cs hi kw [] s t
  simp only [List.append_nil] at h
  rw [Re.lits, h]
  simp only [Re.seqs, Step]

/-! ## White space at the ends of a text -/

theorem trimStart_space_append {w a : Str} (hw : ∀ c ∈ w, isWhiteSpace c = true) :
    trimStart (w ++ a) = trimStart a := by
  induction w with
  | nil => rfl
  | cons x w ih =>
    simp only [trimStart, List.cons_append, List.dropWhile_cons, hw x (List.mem_cons_self _ _),
      if_true]
    exact ih (fun c hc => hw c (List.mem_cons_of_mem _ hc))

theorem trim_space_append {w a : Str} (hw : ∀ c ∈ w, isWhiteSpace c = true) :
    trim (w ++ a) = trim a := by
  unfold trim
  rw [trimStart_space_append hw]

theorem trim_append_space {x : Char} {a E : Str} (hx : isWhiteSpace x = false)
    (hE : ∀ c ∈ E, isWhiteSpace c = true) : trim ((x :: a) ++ E) = trim (x :: a) := by
  unfold trim
  have h1 : trimStart ((x :: a) ++ E) = (x :: a) ++ E := trimStart_cons_of_not_space _ hx
  rw [h1, trimStart_cons_of_not_space _ hx, List.reverse_append,
    trimStart_space_append (fun c hc => hE c (List.mem_reverse.mp hc))]

/-! ## The first location pattern -/

/-- The class `[A-Za-z\s,]` without the flag `i`. -/
theorem location_class (c : Char) :
    classTest false [.range 'A' 'Z', .range 'a' 'z', .space, .ch ','] c = isLocationChar c := by
  have h1 : (ClassItem.range 'A' 'Z').test c = isUpperAZ c := rfl
  have h2 : (ClassItem.range 'a' 'z').test c = isLowerAZ c := rfl
  simp only [classTest, Bool.false_eq_true, if_false, List.any_cons, List.any_nil,
    Bool.or_false, h1, h2]
  simp only [ClassItem.test, isLocationChar, isLetter, Bool.or_assoc]

theorem lineTerminator_space {c : Char} (h : isLineTerminator c = true) :
    isWhiteSpace c = true := by
  simp only [isLineTerminator, Bool.or_eq_true, beq_iff_eq] at h
  simp only [isWhiteSpace, Bool.or_eq_true, beq_iff_eq, Bool.and_eq_true, decide_eq_true_eq]
  omega

theorem lineTerminator_location {c : Char} (h : isLineTerminator c = true) :
    isLocationChar c = true := by
  simp [isLocationChar, lineTerminator_space h]

theorem step_eol_m {s t : St} (h : Step ⟨false, true⟩ .eol s t) :
    lineBoundaryAt s.suf = true ∧ t = s := by
  obtain ⟨h1, h2⟩ := h
  refine ⟨?_, h2⟩
  cases hs : s.suf with
  | nil => rfl
  | cons c r => simpa [eolHolds, hs, lineBoundaryAt] using h1

theorem step_eol_m_intro (s : St) (h : lineBoundaryAt s.suf = true) :
    Step ⟨false, true⟩ .eol s s := by
  refine ⟨?_, rfl⟩
  cases hs : s.suf with
  | nil => simp [eolHolds, hs]
  | cons c r =>
    rw [hs] at h
    simpa [eolHolds, hs, lineBoundaryAt] using h

/-! ## Runs of `locationPatterns[0]` on a labelled location line -/

theorem split_leading_space :
    ∀ (V : Str), (∃ c ∈ V, isWhiteSpace c = false) →
      ∃ V0 x V1, V = V0 ++ x :: V1 ∧ (∀ c ∈ V0, isWhiteSpace c = true) ∧
        isWhiteSpace x = false := by
  intro V
  induction V with
  | nil => rintro ⟨c, hc, _⟩; cases hc
  | cons y V ih =>
    rintro ⟨c, hc, hcs⟩
    by_cases hy : isWhiteSpace y = true
    · have hc' : c ∈ V := by
        rcases List.mem_cons.mp hc with rfl | h
        · rw [hy] at hcs; cases hcs
        · exact h
      obtain ⟨V0, x, V1, rfl, h0, hx⟩ := ih ⟨c, hc', hcs⟩
      refine ⟨y :: V0, x, V1, rfl, ?_, hx⟩
      intro d hd
      rcases List.mem_cons.mp hd with rfl | h
      · exact hy
      · exact h0 d h
    · exact ⟨[], y, V, rfl, by simp, by simpa using hy⟩

theorem value_char_not_terminator {c : Char} (h : isLetter c = true ∨ c = ' ' ∨ c = ',') :
    isLineTerminator c = false := by
  rcases h with h | rfl | rfl
  · cases ht : isLineTerminator c with
    | false => rfl
    | true =>
      have := lineTerminator_space ht
      rw [letter_not_space h] at this
      cases this
  · decide
  · decide

theorem value_char_location {c : Char} (h : isLetter c = true ∨ c = ' ' ∨ c = ',') :
    isLocationChar c = true := by
  rcases h with h | rfl | rfl
  · simp [isLocationChar, h]
  · decide
  · decide

theorem boundary_false {r3 Z : Str} (hr3 : ∀ c ∈ r3, isLineTerminator c = false)
    (hZ : ∀ c, Z.head? = some c → isLocationChar c = false) (hZne : Z ≠ []) :
    lineBoundaryAt (r3 ++ Z) = false := by
  cases r3 with
  | cons y r => exact hr3 y (List.mem_cons_self _ _)
  | nil =>
    cases Z with
    | nil => exact absurd rfl hZne
    | cons z r =>
      cases ht : isLineTerminator z with
      | false => simpa [lineBoundaryAt] using ht
      | true =>
        have := hZ z rfl
        rw [lineTerminator_location ht] at this
        cases this

/-- Every run of `locationPatterns[0]` from a line `Location:V` captures `V`, up to white
space at both ends, when the white space after the line is followed by a line that holds a
character outside the class `[A-Za-z\s,]`, or by the end of the text. -/
theorem locationPattern0_run {p V W L Z : Str} {t : St}
    (hV : ∀ c ∈ V, isLetter c = true ∨ c = ' ' ∨ c = ',')
    (hVl : ∃ c ∈ V, isLetter c = true)
    (hW : ∀ c ∈ W, isWhiteSpace c = true)
    (hL : ∀ c ∈ L, isLocationChar c = true ∧ isLineTerminator c = false)
    (hZ : ∀ c, Z.head? = some c → isLocationChar c = false)
    (hLZ : L = [] ∨ Z ≠ [])
    (h : Step ⟨false, true⟩ locationPattern0.re
      ⟨p, "Location:".toList ++ (V ++ (W ++ (L ++ Z))), []⟩ t) :
    ∃ g, t.caps = [(1, g)] ∧ trim g = trim V := by
  obtain ⟨u1, h1, h⟩ := (step_seqs_cons _ (.str "Location:")
    [.star .ws, .group 1 (.plus (.cls [.range 'A' 'Z', .range 'a' 'z', .space, .ch ','])),
      .eol] _ _).mp h
  obtain ⟨u2, h2, h⟩ := (step_seqs_cons _ (.star .ws)
    [.group 1 (.plus (.cls [.range 'A' 'Z', .range 'a' 'z', .space, .ch ','])), .eol] _ _).mp h
  obtain ⟨u3, h3, h4⟩ := (step_seqs_cons _
    (.group 1 (.plus (.cls [.range 'A' 'Z', .range 'a' 'z', .space, .ch ',']))) [.eol] _ _).mp h
  obtain ⟨q, hq, rfl⟩ := (step_lits_cs rfl "Location:".toList _ _).mp h1
  simp only at hq
  have hq' := List.append_cancel_left hq
  subst hq'
  obtain ⟨w2, hw2, hw2s, _, hcaps2⟩ := step_rep_cls h2
  simp only at hw2 hcaps2
  obtain ⟨u', hbody, rfl⟩ := h3
  obtain ⟨g, hg, hgs, _, hcaps'⟩ := step_rep_cls hbody
  obtain ⟨hbound, rfl⟩ := step_eol_m h4
  simp only at hbound
  have hgs' : ∀ c ∈ g, isLocationChar c = true := fun c hc => by
    rw [← location_class]; exact hgs c hc
  obtain ⟨V0, x, V1, rfl, hV0, hx⟩ := split_leading_space V
    (by obtain ⟨c, hc, hl⟩ := hVl; exact ⟨c, hc, letter_not_space hl⟩)
  rw [hg] at hw2
  have heq0 : w2 ++ (g ++ u'.suf) = V0 ++ (x :: V1 ++ (W ++ (L ++ Z))) := by
    rw [← hw2]; simp
  obtain ⟨r2, hr2, heq1⟩ := run_within heq0 (fun c hc => space_class (hw2s c hc))
    (by intro c hc; simp only [List.cons_append, List.head?_cons, Option.some.injEq] at hc
        subst hc; exact hx)
  have hr2s : ∀ c ∈ r2, isWhiteSpace c = true := fun c hc =>
    hV0 c (by rw [hr2]; exact List.mem_append_right _ hc)
  have hV' : ∀ c ∈ r2 ++ x :: V1, isLetter c = true ∨ c = ' ' ∨ c = ',' := by
    intro c hc
    apply hV c
    rw [hr2]
    simp only [List.append_assoc, List.mem_append, List.mem_cons] at hc ⊢
    tauto
  have heq2 : g ++ u'.suf = ((r2 ++ x :: V1) ++ (W ++ L)) ++ Z := by
    rw [heq1]; simp
  obtain ⟨r3, hr3, hS3⟩ := run_within heq2 hgs' hZ
  have htrimV : trim (V0 ++ x :: V1) = trim (x :: V1) := trim_space_append hV0
  have hgoal : ∀ E, g = (r2 ++ x :: V1) ++ E → (∀ c ∈ E, isWhiteSpace c = true) →
      ∃ g', (1, u2.suf.take (u2.suf.length - u'.suf.length)) :: u'.caps = [(1, g')] ∧
        trim g' = trim (V0 ++ x :: V1) := by
    intro E hE hEs
    refine ⟨g, ?_, ?_⟩
    · rw [hg, take_append_length, hcaps', hcaps2]
    · rw [htrimV, hE, List.append_assoc, trim_space_append hr2s]
      exact trim_append_space hx hEs
  rcases List.append_eq_append_iff.mp hr3 with ⟨a', ha', hWL⟩ | ⟨c', hc', hr3'⟩
  · -- `g` extends to `a'` beyond the value
    rcases List.append_eq_append_iff.mp hWL.symm with ⟨b', hb', _⟩ | ⟨c'', hc'', hL'⟩
    · -- `a'` is a part of the white space `W`
      exact hgoal a' ha' (fun c hc => hW c (by rw [hb']; exact List.mem_append_left _ hc))
    · -- `a'` reaches into the next line `L`
      cases c'' with
      | nil =>
        simp only [List.append_nil] at hc''
        exact hgoal a' ha' (fun c hc => hW c (by rw [← hc'']; exact hc))
      | cons y r =>
        exfalso
        have hZne : Z ≠ [] := by
          rcases hLZ with h0 | h0
          · rw [h0] at hL'; cases hL'
          · exact h0
        have hr3L : ∀ c ∈ r3, isLineTerminator c = false := fun c hc =>
          (hL c (by rw [hL']; exact List.mem_append_right _ hc)).2
        rw [hS3, boundary_false hr3L hZ hZne] at hbound
        cases hbound
  · -- `g` stops inside the value
    cases c' with
    | nil =>
      simp only [List.append_nil] at hc'
      exact hgoal [] (by rw [← hc']; simp) (by simp)
    | cons y r =>
      exfalso
      have hy : isLineTerminator y = false :=
        value_char_not_terminator (hV' y (by rw [hc']; simp))
      rw [hS3, hr3'] at hbound
      simp only [List.cons_append, lineBoundaryAt, hy] at hbound
      cases hbound

/-- A run of `locationPatterns[0]` from a line `Location:V` that is followed by a line
terminator or by the end of the text. -/
theorem locationPattern0_run_exists (p V Y : Str)
    (hV : ∀ c ∈ V, isLetter c = true ∨ c = ' ' ∨ c = ',') (hVne : V ≠ [])
    (hY : lineBoundaryAt Y = true) :
    ∃ t, Step ⟨false, true⟩ locationPattern0.re ⟨p, "Location:".toList ++ (V ++ Y), []⟩ t := by
  refine ⟨⟨V.reverse ++ ("Location:".toList.reverse ++ p), Y,
    [(1, (V ++ Y).take ((V ++ Y).length - Y.length))]⟩, ?_⟩
  refine (step_seqs_cons _ (.str "Location:")
    [.star .ws, .group 1 (.plus (.cls [.range 'A' 'Z', .range 'a' 'z', .space, .ch ','])),
      .eol] _ _).mpr ⟨⟨"Location:".toList.reverse ++ p, V ++ Y, []⟩, ?_, ?_⟩
  · exact (step_lits_cs rfl "Location:".toList _ _).mpr ⟨_, rfl, rfl⟩
  refine (step_seqs_cons _ (.star .ws)
    [.group 1 (.plus (.cls [.range 'A' 'Z', .range 'a' 'z', .space, .ch ','])), .eol] _ _).mpr
    ⟨⟨"Location:".toList.reverse ++ p, V ++ Y, []⟩, RepRun.done (Or.inl rfl), ?_⟩
  refine (step_seqs_cons _
    (.group 1 (.plus (.cls [.range 'A' 'Z', .range 'a' 'z', .space, .ch ',']))) [.eol] _ _).mpr
    ⟨⟨V.reverse ++ ("Location:".toList.reverse ++ p), Y,
      [(1, (V ++ Y).take ((V ++ Y).length - Y.length))]⟩, ?_, step_eol_m_intro _ hY⟩
  refine ⟨⟨V.reverse ++ ("Location:".toList.reverse ++ p), Y, []⟩, ?_, rfl⟩
  exact repRun_cls_intro ⟨false, true⟩ _ Y [] V 1 none _
    (fun c hc => by rw [location_class]; exact value_char_location (hV c hc))
    (by
      cases V with
      | nil => exact absurd rfl hVne
      | cons x r => simp)
    (by intro n hn; cases hn)

/-! ## The leftmost match of `locationPatterns[0]` on a labelled location line -/

/-- On a text whose first `Location:` is followed by a value of letters, spaces and commas,
the leftmost match of `locationPatterns[0]` captures that value, up to white space at both
ends. -/
theorem exec_locationPattern0_labelled (pre V W L Z : Str)
    (hfirst : includes (pre ++ "Location".toList) "Location:".toList = false)
    (hV : ∀ c ∈ V, isLetter c = true ∨ c = ' ' ∨ c = ',')
    (hVl : ∃ c ∈ V, isLetter c = true)
    (hW : ∀ c ∈ W, isWhiteSpace c = true)
    (hL : ∀ c ∈ L, isLocationChar c = true ∧ isLineTerminator c = false)
    (hZ : ∀ c, Z.head? = some c → isLocationChar c = false)
    (hLZ : L = [] ∨ Z ≠ [])
    (hbound : lineBoundaryAt (W ++ (L ++ Z)) = true) :
    ∃ mt g, locationPattern0.exec (pre ++ ("Location:".toList ++ (V ++ (W ++ (L ++ Z))))) =
        some mt ∧ mt.get 1 = some g ∧ trim g = trim V := by
  have hVne : V ≠ [] := by
    obtain ⟨c, hc, _⟩ := hVl
    exact List.ne_nil_of_mem hc
  obtain ⟨t0, ht0⟩ := locationPattern0_run_exists pre.reverse V (W ++ (L ++ Z)) hV hVne hbound
  have hsome := (exec_isSome_iff_hasMatch locationPattern0 _).mpr ⟨pre, _, t0, rfl, ht0⟩
  obtain ⟨mt, hmt⟩ := Option.isSome_iff_exists.mp hsome
  obtain ⟨p, w, q, t, htext, hstep, _, hmteq, hmin⟩ := exec_some_run hmt
  have hnlt : ¬ pre.length < p.length := fun hlt => hmin pre _ t0 rfl hlt ht0
  have hnlt' : ¬ p.length < pre.length := by
    intro hlt
    obtain ⟨u1, h1, _⟩ := (step_seqs_cons _ (.str "Location:")
      [.star .ws, .group 1 (.plus (.cls [.range 'A' 'Z', .range 'a' 'z', .space, .ch ','])),
        .eol] _ _).mp hstep
    obtain ⟨q', hq, _⟩ := (step_lits_cs rfl "Location:".toList _ _).mp h1
    simp only at hq
    have htext' : p ++ ("Location:".toList ++ q') =
        pre ++ ("Location".toList ++ (':' :: (V ++ (W ++ (L ++ Z))))) := by
      rw [← hq, ← htext]; rfl
    have hin := occurrence_within htext' hlt (by decide)
    have := (includes_iff_occurs _ _).mpr hin
    rw [hfirst] at this
    cases this
  have hpl : pre.length = p.length := by omega
  obtain ⟨hp, hq⟩ := List.append_inj htext hpl
  subst hp
  rw [← hq] at hstep
  obtain ⟨g, hcaps, htrim⟩ := locationPattern0_run hV hVl hW hL hZ hLZ hstep
  refine ⟨mt, g, hmt, ?_, htrim⟩
  rw [hmteq]
  simp only [MatchResult.get, hcaps]
  rfl

/-- The location part of `extractPersonalInfo` on such a text. -/
theorem extractLocation_labelled (pre V W L Z : Str)
    (hfirst : includes (pre ++ "Location".toList) "Location:".toList = false)
    (hV : ∀ c ∈ V, isLetter c = true ∨ c = ' ' ∨ c = ',')
    (hVl : ∃ c ∈ V, isLetter c = true)
    (hW : ∀ c ∈ W, isWhiteSpace c = true)
    (hL : ∀ c ∈ L, isLocationChar c = true ∧ isLineTerminator c = false)
    (hZ : ∀ c, Z.head? = some c → isLocationChar c = false)
    (hLZ : L = [] ∨ Z ≠ [])
    (hbound : lineBoundaryAt (W ++ (L ++ Z)) = true) :
    extractLocation (pre ++ ("Location:".toList ++ (V ++ (W ++ (L ++ Z))))) locationPatterns =
      some (trim V, some 75) := by
  obtain ⟨mt, g, hmt, hget, htrim⟩ :=
    exec_locationPattern0_labelled pre V W L Z hfirst hV hVl hW hL hZ hLZ hbound
  unfold locationPatterns
  rw [extractLocation]
  simp only [hmt, hget, htrim]

/-- The location found by the location part is the location of the result. -/
theorem personalInfo_location {text loc : Str} {c : Option Nat}
    (h : extractLocation text locationPatterns = some (loc, c)) :
    ∃ info, extractPersonalInfo text = some info ∧ info.location = loc ∧
      info.confidence.location = c := by
  obtain ⟨name, cn, email, ce, phone, cp, location, cl, _, _, _, h4, hinfo⟩ :=
    extractPersonalInfo_total text
  rw [h] at h4
  simp only [Option.some.injEq, Prod.mk.injEq] at h4
  obtain ⟨rfl, rfl⟩ := h4
  exact ⟨_, hinfo, rfl, rfl⟩

/-- The trimmed value holds a letter. -/
theorem trim_value_ne_nil {V : Str} (hVl : ∃ c ∈ V, isLetter c = true) : trim V ≠ [] := by
  obtain ⟨V0, x, V1, rfl, hV0, hx⟩ := split_leading_space V
    (by obtain ⟨c, hc, hl⟩ := hVl; exact ⟨c, hc, letter_not_space hl⟩)
  rw [trim_space_append hV0]
  exact trim_ne_nil_of_head _ hx

/-! ## Evaluations of the program on concrete texts -/

/-- C5 (evaluation at the failing input): on the text `"* Name: Senior Developer\n"`
every primary pattern is rejected or fails, and the bulleted `Name:` branch then accepts
the candidate `"Senior Developer"` with confidence 95, although it contains the role
keywords `senior` and `developer`. -/
theorem bulletName_accepts_role_keyword :
    (extractPersonalInfo "* Name: Senior Developer\n".toList).map
        (fun info => (info.name, info.confidence.name)) =
      some ("Senior Developer".toList, some 95) ∧
    containsRoleKeyword roleKeywords "Senior Developer".toList = true := by decide

/-- C6 (counterexample): the text `"Name: Bob\nName: Priya Shah\n"` contains
`"Name: Priya Shah"` followed by a line break, yet the extracted name is `"Bob"`. -/
theorem priya_label_not_leftmost :
    includes "Name: Bob\nName: Priya Shah\n".toList "Name: Priya Shah\n".toList = true ∧
    (extractPersonalInfo "Name: Bob\nName: Priya Shah\n".toList).map
        (fun info => (info.name, info.confidence.name)) = some ("Bob".toList, some 98) ∧
    "Bob".toList ≠ "Priya Shah".toList := by decide

/-- C7 (counterexample): the first line is the role title, a later line is `Name: Bob`,
and the extracted name is `"Bob\nSkills"`, not `"Bob"`: the capture runs over the line
break. -/
theorem labelled_name_runs_over_line :
    (extractPersonalInfo "Senior Software Engineer\nName: Bob\nSkills\n".toList).map
        (fun info => (info.name, info.confidence.name)) = some ("Bob\nSkills".toList, some 98) ∧
    "Bob\nSkills".toList ≠ "Bob".toList := by decide

/-- C8 (evaluation at the failing input): on the text `"Location: "` the location is
empty and `confidence.location` is 75. -/
theorem blank_location_has_confidence :
    (extractPersonalInfo "Location: ".toList).map
        (fun info => (info.location, info.confidence.location)) = some ([], some 75) := by
  decide

/-- C11 (counterexample): the first `Location:` line has the value `Paris`, and the
extracted location is `"Paris\nSummary"`: the capture is not confined to the line. -/
theorem location_runs_over_line :
    (extractPersonalInfo "Location: Paris\nSummary\nfoo: bar".toList).map
        (fun info => (info.location, info.confidence.location)) =
      some ("Paris\nSummary".toList, some 75) ∧
    "Paris\nSummary".toList ≠ "Paris".toList := by decide

/-- C13 (counterexample): the text has no explicit experience phrase and a
`PROFESSIONAL EXPERIENCE` heading followed by the years 2018 and 2025 before `EDUCATION`,
yet the result is `"Not specified"`: the section starts at the leftmost `experience` and
stops at the next `SKILLS`.  (The engine is taken to accept 65535 arguments in a call; the
result does not depend on that number.) -/
theorem work_section_starts_at_leftmost_heading :
    explicitExperience
        "I have experience.\nSKILLS: x\nPROFESSIONAL EXPERIENCE\n2018-2025\nEDUCATION".toList
        expPatterns = none ∧
    extractExperience 65535
        "I have experience.\nSKILLS: x\nPROFESSIONAL EXPERIENCE\n2018-2025\nEDUCATION".toList =
      some "Not specified".toList := by decide

/-- C14 (counterexample): the section holds the single year 2020 written twice, and the
result is `"1+ years"`, not `"Not specified"`.  (The engine is taken to accept 65535
arguments in a call; the result is the same for every such number from 2 on.) -/
theorem same_year_twice_is_inferred :
    explicitExperience "EXPERIENCE 2020 2020".toList expPatterns = none ∧
    extractExperience 65535 "EXPERIENCE 2020 2020".toList = some "1+ years".toList := by decide

/-- C17 (evaluation at the failing input): the line after the degree line begins with a
lower-case letter and still ends the excerpt. -/
theorem lower_case_line_ends_excerpt :
    extractEducation "BS in CS\nstanford".toList = "BS in CS...".toList := by decide

/-- C18: on the empty text every field takes its fallback. -/
theorem empty_text_fallbacks (argLimit : Nat) :
    extractPersonalInfo [] =
      some ⟨"John Doe".toList, [], [], [], ⟨some 30, none, none, none⟩⟩ ∧
    extractSkills [] = [] ∧
    extractExperience argLimit [] = some "Not specified".toList ∧
    extractEducation [] = "Not specified".toList :=
  ⟨by decide, by decide, rfl, by decide⟩

/-- C19 (counterexample): for the empty text and the kind `docx` the score is 75, not 70. -/
theorem empty_docx_is_75 :
    calculateExtractionConfidence [] "docx".toList = 75 ∧ (75 : Nat) ≠ 70 := by decide

/-- C20 (evaluation at the failing input): the text `"javascripts"` gets the skill bonus
(score 80) although no taxonomy entry occurs in it as a whole word. -/
theorem substring_skill_gets_bonus :
    calculateExtractionConfidence "javascripts".toList "pdf".toList = 80 ∧
    extractSkills "javascripts".toList = [] := by decide

/-- C23 (counterexample): the kind `"txt"` is neither `pdf` nor `docx`, and a score is
returned for it. -/
theorem unknown_kind_is_scored :
    "txt".toList ≠ "pdf".toList ∧ "txt".toList ≠ "docx".toList ∧
    calculateExtractionConfidence [] "txt".toList = 70 := by decide

/-! ## Claims on the document confidence -/

theorem ite_bonus (c : Prop) [Decidable c] (x k : Nat) :
    (if c then x + k else x) = x + (if c then k else 0) := by
  split <;> simp

theorem confidence_ge_base (text fileType : Str) :
    70 ≤ calculateExtractionConfidence text fileType := by
  unfold calculateExtractionConfidence
  simp only [ite_bonus]
  apply Nat.le_min.mpr
  constructor
  · omega
  · simp only [Nat.add_assoc]
    exact Nat.le_add_right _ _

/-- C1: for every text and every file-type argument the document confidence is an
integer between 70 and 95. -/
theorem calculateExtractionConfidence_range (text fileType : Str) :
    70 ≤ calculateExtractionConfidence text fileType ∧
      calculateExtractionConfidence text fileType ≤ 95 := by
  refine ⟨confidence_ge_base text fileType, ?_⟩
  unfold calculateExtractionConfidence
  exact Nat.min_le_left _ _

/-- C19 (amended): for the empty text the score is 70 for the kind `pdf`, the lowest
score any text and kind can get, and 75 for the kind `docx`, whose bonus always applies. -/
theorem empty_text_confidence :
    calculateExtractionConfidence [] "pdf".toList = 70 ∧
    calculateExtractionConfidence [] "docx".toList = 75 ∧
    ∀ text fileType, 70 ≤ calculateExtractionConfidence text fileType := by
  exact ⟨by decide, by decide, confidence_ge_base⟩

/-- C21: the score for `docx` is the score for `pdf` plus 5, capped at 95. -/
theorem docx_is_pdf_plus_five (text : Str) :
    calculateExtractionConfidence text "docx".toList =
      min 95 (calculateExtractionConfidence text "pdf".toList + 5) := by
  have hne : ¬ ("pdf".toList = "docx".toList) := by decide
  unfold calculateExtractionConfidence
  simp only [hne, if_false, if_true]
  split_ifs <;> omega

/-- C23 (amended): a file-type argument other than `docx` is not rejected; it is scored
like `pdf`, without the bonus. -/
theorem other_kind_scored_like_pdf (text fileType : Str) (h : fileType ≠ "docx".toList) :
    calculateExtractionConfidence text fileType =
      calculateExtractionConfidence text "pdf".toList := by
  have hne : ¬ ("pdf".toList = "docx".toList) := by decide
  unfold calculateExtractionConfidence
  simp only [h, hne, if_false]

/-- C23 (witness): the kind `txt` on the empty text. -/
theorem other_kind_scored_like_pdf_witness :
    "txt".toList ≠ "docx".toList ∧
    calculateExtractionConfidence [] "txt".toList =
      calculateExtractionConfidence [] "pdf".toList :=
  ⟨by decide, other_kind_scored_like_pdf [] "txt".toList (by decide)⟩

/-! ## Claims on the name -/

/-- C3: for every text `extractPersonalInfo` returns a record whose name is not empty
and whose `confidence.name` is set. -/
theorem name_never_empty (text : Str) :
    ∃ info, extractPersonalInfo text = some info ∧ info.name ≠ [] ∧
      info.confidence.name.isSome = true := by
  obtain ⟨name, cn, email, ce, phone, cp, location, cl, h1, _, _, _, h⟩ :=
    extractPersonalInfo_total text
  obtain ⟨name', cn', h1', hne, _⟩ := extractName_spec text
  rw [h1] at h1'
  cases h1'
  exact ⟨_, h, hne, rfl⟩

/-- C4: when none of the six primary patterns and none of the three secondary patterns
has a match, the name is the sentinel `John Doe` with confidence 30. -/
theorem sentinel_when_nothing_matches (text : Str)
    (hprimary : ∀ p ∈ namePatterns, p.exec text = none)
    (hcontact : contactSectionPattern.exec text = none)
    (hbullet : bulletNamePattern.exec text = none)
    (hdirect : directBulletPattern.exec text = none) :
    ∃ info, extractPersonalInfo text = some info ∧ info.name = "John Doe".toList ∧
      info.confidence.name = some 30 := by
  obtain ⟨name, cn, email, ce, phone, cp, location, cl, h1, _, _, _, h⟩ :=
    extractPersonalInfo_total text
  have hloop : ∀ (pats : List RegExp) (i : Nat), (∀ p ∈ pats, p.exec text = none) →
      primaryName text i pats = some none := by
    intro pats
    induction pats with
    | nil => intro i _; rfl
    | cons p rest ih =>
      intro i hp
      rw [primaryName, hp p (List.mem_cons_self _ _)]
      exact ih (i + 1) (fun q hq => hp q (List.mem_cons_of_mem _ hq))
  have hname : extractName text = some ("John Doe".toList, 30) := by
    unfold extractName
    rw [hloop namePatterns 0 hprimary]
    simp only [secondaryName, hcontact, hbullet, hdirect]
  rw [hname] at h1
  cases h1
  exact ⟨_, h, rfl, rfl⟩

/-- C4 (witness): the text `"12345"`, where no pattern matches. -/
theorem sentinel_when_nothing_matches_witness :
    (∀ p ∈ namePatterns, p.exec "12345".toList = none) ∧
    ∃ info, extractPersonalInfo "12345".toList = some info ∧ info.name = "John Doe".toList ∧
      info.confidence.name = some 30 :=
  ⟨by decide, sentinel_when_nothing_matches "12345".toList (by decide) (by decide) (by decide)
    (by decide)⟩

/-- C25: `confidence.name` is one of 98, 95, 90, 85, 80, 75 and 30, never 70, and it is 30
only with the sentinel name. -/
theorem name_confidence_values (text : Str) :
    ∃ info, extractPersonalInfo text = some info ∧
      info.confidence.name ∈ [some 98, some 95, some 90, some 85, some 80, some 75, some 30] ∧
      info.confidence.name ≠ some 70 ∧
      (info.confidence.name = some 30 → info.name = "John Doe".toList) := by
  obtain ⟨name, cn, email, ce, phone, cp, location, cl, h1, _, _, _, h⟩ :=
    extractPersonalInfo_total text
  obtain ⟨name', cn', h1', _, hconf⟩ := extractName_spec text
  rw [h1] at h1'
  cases h1'
  refine ⟨_, h, ?_⟩
  simp only [Option.some.injEq, List.mem_cons, List.mem_singleton, List.not_mem_nil, or_false,
    ne_eq]
  rcases hconf with ⟨j, hj, rfl⟩ | rfl | rfl | ⟨rfl, rfl⟩
  · interval_cases j <;> simp [nameConfidence]
  · simp
  · simp
  · simp

/-! ## Claims on the phone -/

/-- C10: the phone is either empty, without confidence, or a piece of the text copied
as it stands that holds exactly ten decimal digits, with confidence 85. -/
theorem phone_is_verbatim_ten_digits (text : Str) :
    ∃ info, extractPersonalInfo text = some info ∧
      ((info.phone = [] ∧ info.confidence.phone = none) ∨
       (info.phone ≠ [] ∧ info.phone <:+: text ∧ countDigits info.phone = 10 ∧
        info.confidence.phone = some 85)) := by
  obtain ⟨name, cn, email, ce, phone, cp, location, cl, _, _, h3, _, h⟩ :=
    extractPersonalInfo_total text
  refine ⟨_, h, ?_⟩
  rcases extractPhone_spec text with ⟨_, h3', _⟩ | ⟨mt, ph, _, _, hne, hin, hl, h3', _⟩
  · rw [h3] at h3'
    cases h3'
    exact Or.inl ⟨rfl, rfl⟩
  · rw [h3] at h3'
    cases h3'
    exact Or.inr ⟨hne, hin, lang_phoneCore_digits hl, rfl⟩

/-! ## Claims on the skills, the phone, the email -/

/-- C24: the skills found are a sublist of the taxonomy, in taxonomy order and in the
spelling of the taxonomy, and no skill occurs twice. -/
theorem extractSkills_sublist_nodup (text : Str) :
    List.Sublist (extractSkills text) skillsTaxonomy ∧ (extractSkills text).Nodup := by
  have hnodup : skillsTaxonomy.Nodup := by decide
  have hfilter : ∀ f : String → Bool, (skillsTaxonomy.filter f).Nodup :=
    fun f => hnodup.sublist (List.filter_sublist _)
  unfold extractSkills
  simp only []
  rw [dedupKeepFirst_of_nodup _ (hfilter _)]
  exact ⟨List.filter_sublist _, hfilter _⟩

/-- C26: the phone is what the first, bare pattern alone gives: the `+1` and `Phone:`
patterns never decide, and the phone starts with `(` or a digit, never with `+1` or
`Phone`; the text `"+1 555-123-4567"` gives `"555-123-4567"`. -/
theorem phone_decided_by_bare_pattern (text : Str) :
    extractPhone text phoneMatches = extractPhone text [phonePattern0] ∧
    (∃ info, extractPersonalInfo text = some info ∧
      extractPhone text [phonePattern0] = some (info.phone, info.confidence.phone) ∧
      (∀ c, info.phone.head? = some c → c = '(' ∨ isDigit c = true) ∧
      ¬ ("+1".toList <+: info.phone) ∧ ¬ ("Phone".toList <+: info.phone)) ∧
    (extractPersonalInfo "+1 555-123-4567".toList).map (fun info => info.phone) =
      some "555-123-4567".toList := by
  obtain ⟨name, cn, email, ce, phone, cp, location, cl, _, _, h3, _, h⟩ :=
    extractPersonalInfo_total text
  have hhead : ∀ ph : Str, (∀ c, ph.head? = some c → c = '(' ∨ isDigit c = true) →
      ¬ ("+1".toList <+: ph) ∧ ¬ ("Phone".toList <+: ph) := by
    intro ph hph
    constructor
    · rintro ⟨r, rfl⟩
      rcases hph '+' rfl with h1 | h1
      · exact absurd h1 (by decide)
      · exact absurd h1 (by decide)
    · rintro ⟨r, rfl⟩
      rcases hph 'P' rfl with h1 | h1
      · exact absurd h1 (by decide)
      · exact absurd h1 (by decide)
  refine ⟨?_, ⟨_, h, ?_⟩, by decide⟩
  · rcases extractPhone_spec text with ⟨_, h1, h2⟩ | ⟨_, _, _, _, _, _, _, h1, h2⟩
    · rw [h1, h2]
    · rw [h1, h2]
  · rcases extractPhone_spec text with ⟨_, h1, h2⟩ | ⟨_, ph, _, _, _, _, hl, h1, h2⟩
    · rw [h3] at h1
      cases h1
      exact ⟨h2, by simp, hhead [] (by simp)⟩
    · rw [h3] at h1
      cases h1
      exact ⟨h2, lang_phoneCore_head hl, hhead _ (lang_phoneCore_head hl)⟩

/-- C9: when the email pattern has a match, the email is the lower-cased text of a match
at the leftmost position where the pattern matches, it has no upper-case letter and its
confidence is 95; otherwise the email is empty (and has no confidence).  The text
`"john.doe@email.com"` gives that email with confidence 95, an empty phone and no
`confidence.phone`. -/
theorem email_is_lowercased_leftmost_match (text : Str) :
    (∃ info, extractPersonalInfo text = some info ∧
      ((¬ HasMatch emailPattern text ∧ info.email = [] ∧ info.confidence.email = none) ∨
       (∃ p w q t, text = p ++ (w ++ q) ∧
          Step emailPattern.flags emailPattern.re ⟨p.reverse, w ++ q, []⟩ t ∧ t.suf = q ∧
          (∀ p' q' t', text = p' ++ q' → p'.length < p.length →
            ¬ Step emailPattern.flags emailPattern.re ⟨p'.reverse, q', []⟩ t') ∧
          info.email = toLowerCase w ∧ info.confidence.email = some 95 ∧
          ∀ c ∈ info.email, isUpperAZ c = false))) ∧
    extractPersonalInfo "john.doe@email.com".toList =
      some ⟨"John Doe".toList, "john.doe@email.com".toList, [], [],
        ⟨some 30, some 95, none, none⟩⟩ := by
  refine ⟨?_, by decide⟩
  obtain ⟨name, cn, email, ce, phone, cp, location, cl, _, h2, _, _, h⟩ :=
    extractPersonalInfo_total text
  refine ⟨_, h, ?_⟩
  rcases extractEmail_spec text with ⟨hnone, h2'⟩ | ⟨mt, v, hexec, _, hv, _, h2'⟩
  · rw [h2] at h2'
    cases h2'
    exact Or.inl ⟨(exec_eq_none_iff_not_hasMatch _ _).mp hnone, rfl, rfl⟩
  · rw [h2] at h2'
    cases h2'
    obtain ⟨p, w, q, t, htext, hstep, hsuf, hmt, hleft⟩ := exec_some_run hexec
    have hvw : v = w := by rw [hv, hmt]
    exact Or.inr ⟨p, w, q, t, htext, hstep, hsuf, hleft, by rw [hvw], rfl,
      toLowerCase_no_upper v⟩

/-! ## Claims on the name loop -/

/-- C27: a name pattern contributes only its leftmost match: when the capture of that
match contains a role keyword the loop goes on with the next pattern. -/
theorem rejected_leftmost_match_abandons_pattern (text : Str) (p : RegExp)
    (rest : List RegExp) (i : Nat) (cap : Str)
    (hmatch : (p.exec text).bind (fun mt => mt.get 1) = some cap)
    (hrole : containsRoleKeyword roleKeywords (trim cap) = true) :
    primaryName text i (p :: rest) = primaryName text (i + 1) rest := by
  rw [primaryName]
  cases h : p.exec text with
  | none => rfl
  | some mt =>
    rw [h] at hmatch
    have hget : mt.get 1 = some cap := hmatch
    simp only [hget, hrole, if_true]

/-- C27 (witness): on `"Senior Engineer\nJane Smith\n"` the leftmost match of the fourth
pattern is the rejected `"Senior Engineer"`, the later line `Jane Smith` is never tried
and the result is the sentinel `John Doe` with confidence 30. -/
theorem rejected_leftmost_match_abandons_pattern_witness :
    primaryName "Senior Engineer\nJane Smith\n".toList 3 [namePattern3, namePattern4, namePattern5] =
      primaryName "Senior Engineer\nJane Smith\n".toList 4 [namePattern4, namePattern5] ∧
    (extractPersonalInfo "Senior Engineer\nJane Smith\n".toList).map
      (fun info => (info.name, info.confidence.name)) = some ("John Doe".toList, some 30) :=
  ⟨rejected_leftmost_match_abandons_pattern "Senior Engineer\nJane Smith\n".toList namePattern3
      [namePattern4, namePattern5] 3 "Senior Engineer".toList (by decide) (by decide),
    by decide⟩

/-! ## Claims on the experience -/

theorem explicitExperience_none {text : Str} (h : ∀ p ∈ expPatterns, p.exec text = none) :
    explicitExperience text expPatterns = none := by
  rcases explicitExperience_spec text expPatterns (fun _ hp => hp) with
    ⟨_, hres⟩ | ⟨before, p, after, mt, _, hsplit, _, hp, _⟩
  · exact hres
  · have := h p (by rw [hsplit]; simp)
    rw [this] at hp; cases hp

/-- Without an explicit phrase the result is the one of the inference. -/
theorem extractExperience_inferred {argLimit : Nat} {text : Str}
    (h : ∀ p ∈ expPatterns, p.exec text = none) :
    extractExperience argLimit text =
      (inferredExperience argLimit text).map (fun r => r.getD "Not specified".toList) := by
  unfold extractExperience
  rw [explicitExperience_none h]
  cases inferredExperience argLimit text with
  | none => rfl
  | some r =>
    cases r with
    | none => rfl
    | some s => rfl

/-- C12: when an explicit experience phrase matches, the result is the digit string
captured by the first pattern, in the order of `expPatterns`, that matches, followed by
`" years"`; the `+` is not part of it and the work history is not consulted. -/
theorem explicit_experience_first_pattern (argLimit : Nat) (text : Str)
    (h : ∃ p ∈ expPatterns, (p.exec text).isSome = true) :
    ∃ before p after mt N, expPatterns = before ++ p :: after ∧
      (∀ q ∈ before, q.exec text = none) ∧ p.exec text = some mt ∧ mt.get 1 = some N ∧
      N ≠ [] ∧ (∀ c ∈ N, isDigit c = true) ∧
      extractExperience argLimit text = some (N ++ " years".toList) := by
  rcases explicitExperience_spec text expPatterns (fun _ hp => hp) with
    ⟨hnone, _⟩ | ⟨before, p, after, mt, N, hsplit, hbefore, hp, hN, hne, hdig, hres⟩
  · obtain ⟨p, hp, hsome⟩ := h
    rw [hnone p hp] at hsome
    cases hsome
  · refine ⟨before, p, after, mt, N, hsplit, hbefore, hp, hN, hne, hdig, ?_⟩
    unfold extractExperience
    rw [hres]

/-- C12 (witness): `"5+ years of experience"` gives `"5 years"`. -/
theorem explicit_experience_first_pattern_witness :
    (∃ p ∈ expPatterns, (p.exec "5+ years of experience".toList).isSome = true) ∧
    (∃ before p after mt N, expPatterns = before ++ p :: after ∧
      (∀ q ∈ before, q.exec "5+ years of experience".toList = none) ∧
      p.exec "5+ years of experience".toList = some mt ∧ mt.get 1 = some N ∧
      N ≠ [] ∧ (∀ c ∈ N, isDigit c = true) ∧
      extractExperience 65535 "5+ years of experience".toList = some (N ++ " years".toList)) ∧
    extractExperience 65535 "5+ years of experience".toList = some "5 years".toList :=
  ⟨by decide,
    explicit_experience_first_pattern 65535 "5+ years of experience".toList (by decide),
    by decide⟩

/-- The result of the inference on at least two years that a call can take: the span from
the least to the greatest year, at least 1. -/
theorem inferred_span {argLimit : Nat} {text : Str} {ys : List Str}
    (hexp : ∀ p ∈ expPatterns, p.exec text = none)
    (hsec : sectionYears text = some ys) (hlen : 2 ≤ ys.length) (hlim : ys.length ≤ argLimit) :
    ∃ lo hi, lo ∈ ys.map parseInt ∧ hi ∈ ys.map parseInt ∧
      (∀ y ∈ ys.map parseInt, lo ≤ y ∧ y ≤ hi) ∧
      extractExperience argLimit text =
        some ((toString (max 1 (hi - lo))).toList ++ "+ years".toList) := by
  match ys, hsec, hlen, hlim with
  | [], _, hlen, _ => exact absurd hlen (by simp)
  | [_], _, hlen, _ => exact absurd hlen (by simp)
  | a :: b :: rest, hsec, _, hlim =>
    have hmin := foldl_min_spec ((b :: rest).map parseInt) (parseInt a)
    have hmax := foldl_max_spec ((b :: rest).map parseInt) (parseInt a)
    refine ⟨_, _, hmin.1, hmax.1, fun y hy => ⟨hmin.2 y hy, hmax.2 y hy⟩, ?_⟩
    rw [extractExperience_inferred hexp, inferred_value hsec hlim]
    rfl

/-- C13 (amended): when no explicit experience phrase matches and the work-history
section, that is the capture of the leftmost match of the section pattern, holds at
least two years `20xx`, no more than a call takes arguments, of which the smallest is 2018
and the largest 2025, the result is `"7+ years"`. -/
theorem section_2018_2025_gives_seven (argLimit : Nat) (text : Str) (ys : List Str)
    (hexp : ∀ p ∈ expPatterns, p.exec text = none)
    (hsec : sectionYears text = some ys) (hlen : 2 ≤ ys.length) (hlim : ys.length ≤ argLimit)
    (hrange : ∀ y ∈ ys, 2018 ≤ parseInt y ∧ parseInt y ≤ 2025)
    (hlo : ∃ y ∈ ys, parseInt y = 2018) (hhi : ∃ y ∈ ys, parseInt y = 2025) :
    extractExperience argLimit text = some "7+ years".toList := by
  obtain ⟨lo, hi, hlom, hhim, hall, hres⟩ := inferred_span hexp hsec hlen hlim
  have hrange' : ∀ y ∈ ys.map parseInt, 2018 ≤ y ∧ y ≤ 2025 := by
    intro y hy
    obtain ⟨x, hx, rfl⟩ := List.mem_map.mp hy
    exact hrange x hx
  obtain ⟨y1, hy1, hy1'⟩ := hlo
  obtain ⟨y2, hy2, hy2'⟩ := hhi
  have h1 := (hall _ (List.mem_map_of_mem parseInt hy1)).1
  have h2 := (hall _ (List.mem_map_of_mem parseInt hy2)).2
  have h3 := (hrange' lo hlom).1
  have h4 := (hrange' hi hhim).2
  have elo : lo = 2018 := by omega
  have ehi : hi = 2025 := by omega
  rw [hres, elo, ehi]
  decide

set_option maxRecDepth 1000000 in
/-- C13 (witness): the sample text `john_doe`, whose section holds 2020, 2025, 2018, 2020,
with an engine that accepts 65535 arguments in a call. -/
theorem section_2018_2025_gives_seven_witness :
    sectionYears sampleJohnDoe.toList =
      some ["2020".toList, "2025".toList, "2018".toList, "2020".toList] ∧
    extractExperience 65535 sampleJohnDoe.toList = some "7+ years".toList :=
  ⟨by decide,
    section_2018_2025_gives_seven 65535 sampleJohnDoe.toList
      ["2020".toList, "2025".toList, "2018".toList, "2020".toList]
      (by decide) (by decide) (by decide) (by decide) (by decide) (by decide) (by decide)⟩

/-- C14 (amended): without an explicit experience phrase the occurrences of a year `20xx`
in the work-history section decide.  With fewer than two (or no section) the result is
`"Not specified"`.  With two or more, no more than a call takes arguments, the result is
`k+ years`, `k` being the span from the least to the greatest year and at least 1; two
occurrences of the same year are enough, and give `"1+ years"`. -/
theorem year_occurrences_decide_inference (argLimit : Nat) (text : Str)
    (hexp : ∀ p ∈ expPatterns, p.exec text = none) :
    (((sectionYears text).getD []).length < 2 →
      extractExperience argLimit text = some "Not specified".toList) ∧
    (∀ ys, sectionYears text = some ys → 2 ≤ ys.length → ys.length ≤ argLimit →
      ∃ lo hi, lo ∈ ys.map parseInt ∧ hi ∈ ys.map parseInt ∧
        (∀ y ∈ ys.map parseInt, lo ≤ y ∧ y ≤ hi) ∧
        extractExperience argLimit text =
          some ((toString (max 1 (hi - lo))).toList ++ "+ years".toList)) ∧
    (∀ ys, sectionYears text = some ys → 2 ≤ ys.length → ys.length ≤ argLimit →
      (∀ a ∈ ys, ∀ b ∈ ys, parseInt a = parseInt b) →
      extractExperience argLimit text = some "1+ years".toList) := by
  refine ⟨?_, ?_, ?_⟩
  · intro hyears
    rw [extractExperience_inferred hexp]
    cases hsec : sectionYears text with
    | none => rw [inferred_no_section hsec]; rfl
    | some ys =>
      rw [hsec] at hyears
      rw [inferred_few hsec hyears]
      rfl
  · intro ys hsec hlen hlim
    exact inferred_span hexp hsec hlen hlim
  · intro ys hsec hlen hlim hsame
    obtain ⟨lo, hi, hlom, hhim, _, hres⟩ := inferred_span hexp hsec hlen hlim
    obtain ⟨a, ha, rfl⟩ := List.mem_map.mp hlom
    obtain ⟨b, hb, rfl⟩ := List.mem_map.mp hhim
    rw [hres, hsame a ha b hb, Nat.sub_self]
    rfl

/-- C14 (witness): the text `"EXPERIENCE 2020"`, with a single year, gives
`"Not specified"`, and the text `"EXPERIENCE 2020 2020"` gives `"1+ years"`, with an engine
that accepts 65535 arguments in a call. -/
theorem year_occurrences_decide_inference_witness :
    (∀ p ∈ expPatterns, p.exec "EXPERIENCE 2020".toList = none) ∧
    ((sectionYears "EXPERIENCE 2020".toList).getD []).length < 2 ∧
    extractExperience 65535 "EXPERIENCE 2020".toList = some "Not specified".toList ∧
    (∀ p ∈ expPatterns, p.exec "EXPERIENCE 2020 2020".toList = none) ∧
    sectionYears "EXPERIENCE 2020 2020".toList = some ["2020".toList, "2020".toList] ∧
    extractExperience 65535 "EXPERIENCE 2020 2020".toList = some "1+ years".toList :=
  ⟨by decide, by decide,
    (year_occurrences_decide_inference 65535 "EXPERIENCE 2020".toList (by decide)).1
      (by decide),
    by decide, by decide,
    (year_occurrences_decide_inference 65535 "EXPERIENCE 2020 2020".toList (by decide)).2.2
      ["2020".toList, "2020".toList] (by decide) (by decide) (by decide) (by decide)⟩

theorem experience_forms_exclusive (s : Str) :
    ¬ (s = "Not specified".toList ∧ ∃ N : Str, s = N ++ " years".toList) ∧
    ¬ (s = "Not specified".toList ∧ ∃ D : Str, s = D ++ "+ years".toList) ∧
    ¬ ((∃ N : Str, (∀ c ∈ N, isDigit c = true) ∧ s = N ++ " years".toList) ∧
        ∃ D : Str, s = D ++ "+ years".toList) := by
  refine ⟨?_, ?_, ?_⟩
  · rintro ⟨h1, N, h2⟩
    rw [h1] at h2
    have := congrArg List.getLast? h2
    simp at this
  · rintro ⟨h1, D, h2⟩
    rw [h1] at h2
    have := congrArg List.getLast? h2
    simp at this
  · rintro ⟨⟨N, hN, h1⟩, D, h2⟩
    rw [h1] at h2
    have e1 : N ++ " years".toList = (N ++ [' ']) ++ "years".toList := by simp
    have e2 : D ++ "+ years".toList = (D ++ ['+', ' ']) ++ "years".toList := by simp
    rw [e1, e2] at h2
    have h3 := List.append_cancel_right h2
    have h4 : N = D ++ ['+'] := by
      have e3 : D ++ ['+', ' '] = (D ++ ['+']) ++ [' '] := by simp
      rw [e3] at h3
      exact List.append_cancel_right h3
    have := hN '+' (by rw [h4]; simp)
    exact absurd this (by decide)

/-- The method raises exactly when no explicit phrase matches and the section holds at
least two years and more of them than a call takes arguments. -/
theorem extractExperience_none_iff (argLimit : Nat) (text : Str) :
    extractExperience argLimit text = none ↔
      (∀ p ∈ expPatterns, p.exec text = none) ∧
        ∃ ys, sectionYears text = some ys ∧ 2 ≤ ys.length ∧ argLimit < ys.length := by
  rcases explicitExperience_spec text expPatterns (fun _ hp => hp) with
    ⟨hnone, _⟩ | ⟨before, p, after, mt, N, hsplit, _, hp, _, _, _, hres⟩
  · rw [extractExperience_inferred hnone, ← inferred_none_iff]
    constructor
    · intro h
      refine ⟨hnone, ?_⟩
      cases hi : inferredExperience argLimit text with
      | none => rfl
      | some r => rw [hi] at h; cases h
    · rintro ⟨_, h⟩
      rw [h]; rfl
  · constructor
    · intro h
      unfold extractExperience at h
      rw [hres] at h
      cases h
    · rintro ⟨hnone, _⟩
      have := hnone p (by rw [hsplit]; simp)
      rw [this] at hp
      cases hp

/-- C15: the result of `extractExperience` is `"Not specified"`, or a non-empty string of
decimal digits followed by `" years"`, or `k` followed by `"+ years"` for an integer `k`
from 1 to 99, and no result has two of these forms; no result is returned only when the
section holds more years than a call takes arguments, where the method raises. -/
theorem extractExperience_forms (argLimit : Nat) (text : Str) :
    (∃ s, extractExperience argLimit text = some s ∧
      (s = "Not specified".toList ∨
       (∃ N, N ≠ [] ∧ (∀ c ∈ N, isDigit c = true) ∧ s = N ++ " years".toList) ∨
       (∃ k, 1 ≤ k ∧ k ≤ 99 ∧ s = (toString k).toList ++ "+ years".toList)) ∧
      ¬ (s = "Not specified".toList ∧ ∃ N : Str, s = N ++ " years".toList) ∧
      ¬ (s = "Not specified".toList ∧ ∃ D : Str, s = D ++ "+ years".toList) ∧
      ¬ ((∃ N : Str, (∀ c ∈ N, isDigit c = true) ∧ s = N ++ " years".toList) ∧
          ∃ D : Str, s = D ++ "+ years".toList)) ∨
    (extractExperience argLimit text = none ∧
      ∃ ys, sectionYears text = some ys ∧ 2 ≤ ys.length ∧ argLimit < ys.length) := by
  rcases explicitExperience_spec text expPatterns (fun _ hp => hp) with
    ⟨hnone, _⟩ | ⟨_, _, _, _, N, _, _, _, _, hne, hdig, hres⟩
  · rw [extractExperience_inferred hnone]
    rcases inferredExperience_spec argLimit text with h | ⟨k, h1, h2, h⟩ | ⟨h, hys⟩
    · rw [h]
      exact Or.inl ⟨_, rfl, Or.inl rfl, experience_forms_exclusive _⟩
    · rw [h]
      exact Or.inl ⟨_, rfl, Or.inr (Or.inr ⟨k, h1, h2, rfl⟩), experience_forms_exclusive _⟩
    · rw [h]
      exact Or.inr ⟨rfl, hys⟩
  · unfold extractExperience
    rw [hres]
    exact Or.inl ⟨_, rfl, Or.inr (Or.inl ⟨N, hne, hdig, rfl⟩), experience_forms_exclusive _⟩

/-! ## Claims on the education -/

/-- C16: `extractEducation` returns either `"Not specified"` or an excerpt `e` followed by
`"..."`, where `e` is not empty and has at most 100 characters; the result has then at
most 103 characters and ends with the ellipsis whether or not something was cut. -/
theorem extractEducation_forms (text : Str) :
    extractEducation text = "Not specified".toList ∨
    ∃ e, e ≠ [] ∧ e.length ≤ 100 ∧ extractEducation text = e ++ "...".toList ∧
      (extractEducation text).length ≤ 103 ∧ "...".toList <:+ extractEducation text := by
  unfold extractEducation
  cases h : educationLoop text educationPatterns with
  | none => exact Or.inl rfl
  | some s =>
    obtain ⟨e, h1, h2, rfl⟩ := educationLoop_some h
    refine Or.inr ⟨e, h1, h2, rfl, ?_, ?_⟩
    · simp only [List.length_append]
      have : "...".toList.length = 3 := rfl
      omega
    · exact List.suffix_append _ _

/-- C28: `extractEducation` returns `"Not specified"` exactly when the text contains,
whatever the case of the letters, none of the degree keywords (anywhere, also inside a
longer word) and no `education:`; the text `"john.doe@email.com"` gives `"mail.com..."`
because `email` contains `ma`. -/
theorem education_not_specified_iff (text : Str) :
    (extractEducation text = "Not specified".toList ↔
      (∀ kw ∈ degreeKeywords, ¬ OccursCI kw.toList text) ∧
        ¬ OccursCI "education:".toList text) ∧
    extractEducation "john.doe@email.com".toList = "mail.com...".toList ∧
    includes (toLowerCase "email".toList) (toLowerCase "MA".toList) = true := by
  refine ⟨?_, by decide, by decide⟩
  rw [extractEducation_eq_iff, exec_eq_none_iff_not_hasMatch, exec_eq_none_iff_not_hasMatch,
    hasMatch_education0_iff, hasMatch_education1_iff]
  constructor
  · rintro ⟨h0, h1⟩
    exact ⟨fun kw hkw hocc => h0 ⟨kw, hkw, hocc⟩, h1⟩
  · rintro ⟨h0, h1⟩
    exact ⟨fun ⟨kw, hkw, hocc⟩ => h0 kw hkw hocc, h1⟩

/-! ## Claim on the third location pattern -/

/-- C29: when the first two location patterns do not match and the third does, the location
is a piece of the text, in the text's own letter case, with confidence 75, and it is either
a span `<letters and spaces>, California` (trimmed at its start) or exactly one of the bare
state names `New York`, `Texas`, `Florida`. -/
theorem third_location_pattern_result (text : Str)
    (h0 : locationPattern0.exec text = none) (h1 : locationPattern1.exec text = none)
    (h2 : (locationPattern2.exec text).isSome = true) :
    ∃ info, extractPersonalInfo text = some info ∧ info.confidence.location = some 75 ∧
      info.location <:+: text ∧
      ((∃ a b cal, info.location = trimStart a ++ ',' :: (b ++ cal) ∧
          (∀ c ∈ a, isLetter c = true ∨ isWhiteSpace c = true) ∧
          (∀ c ∈ b, isWhiteSpace c = true) ∧
          toLowerCase cal = "california".toList) ∨
       toLowerCase info.location = "new york".toList ∨
       toLowerCase info.location = "texas".toList ∨
       toLowerCase info.location = "florida".toList) := by
  obtain ⟨name, cn, email, ce, phone, cp, location, cl, _, _, _, h4, h⟩ :=
    extractPersonalInfo_total text
  obtain ⟨mt, hmt⟩ := Option.isSome_iff_exists.mp h2
  obtain ⟨v, hv, hin, body, hbody, hlang⟩ := exec_group_some 1 (by decide) hmt
  have hloc : extractLocation text locationPatterns = some (trim v, some 75) := by
    simp only [locationPatterns, extractLocation, h0, h1, hmt, hv]
  rw [hloc] at h4
  simp only [Option.some.injEq, Prod.mk.injEq] at h4
  obtain ⟨rfl, rfl⟩ := h4
  refine ⟨_, h, rfl, (trim_occurs v).trans hin, ?_⟩
  have hb : groupBodies 1 locationPattern2.re =
      [.alts [.seqs [.plus alphaSpace, .chr ',', .star .ws, .str "California"],
              .str "New York", .str "Texas", .str "Florida"]] := rfl
  rw [hb, List.mem_singleton] at hbody
  subst hbody
  show _ ∨ toLowerCase (trim v) = _ ∨ toLowerCase (trim v) = _ ∨ toLowerCase (trim v) = _
  rcases lang_locationPattern2 hlang with ⟨a, b, cal, rfl, ha, hb', hcal⟩ | hv' | hv' | hv'
  · left
    obtain ⟨y, front, rfl, hy⟩ :=
      getLast_letter_of_ci "californi".toList 'a' hcal (by decide)
    refine ⟨a, b, front ++ [y], ?_, ha, hb', hcal⟩
    have e1 : a ++ ',' :: (b ++ (front ++ [y])) = (a ++ ',' :: (b ++ front)) ++ [y] := by simp
    rw [e1, trim_append_singleton _ (letter_not_space hy),
      trimStart_append_cons a _ (by decide)]
    simp
  · right; left
    rw [trim_of_ci 'N' "ew Yor".toList 'k' (by decide) (by decide) hv']
    exact hv'
  · right; right; left
    rw [trim_of_ci 'T' "exa".toList 's' (by decide) (by decide) hv']
    exact hv'
  · right; right; right
    rw [trim_of_ci 'F' "lorid".toList 'a' (by decide) (by decide) hv']
    exact hv'

/-- C29 (witness): the text `"Austin, Texas."` gives the location `"Texas"`. -/
theorem third_location_pattern_result_witness :
    locationPattern0.exec "Austin, Texas.".toList = none ∧
    locationPattern1.exec "Austin, Texas.".toList = none ∧
    (locationPattern2.exec "Austin, Texas.".toList).isSome = true ∧
    (extractPersonalInfo "Austin, Texas.".toList).map (fun info => info.location) =
      some "Texas".toList ∧
    ∃ info, extractPersonalInfo "Austin, Texas.".toList = some info ∧
      info.confidence.location = some 75 ∧ info.location <:+: "Austin, Texas.".toList ∧
      ((∃ a b cal, info.location = trimStart a ++ ',' :: (b ++ cal) ∧
          (∀ c ∈ a, isLetter c = true ∨ isWhiteSpace c = true) ∧
          (∀ c ∈ b, isWhiteSpace c = true) ∧
          toLowerCase cal = "california".toList) ∨
       toLowerCase info.location = "new york".toList ∨
       toLowerCase info.location = "texas".toList ∨
       toLowerCase info.location = "florida".toList) :=
  ⟨by decide, by decide, by decide, by decide,
    third_location_pattern_result "Austin, Texas.".toList (by decide) (by decide) (by decide)⟩

/-! ## Claims on the skills and on the labelled name -/

/-- C2: an entry of the taxonomy is in the result of `extractSkills` exactly when it occurs
in the text, whatever the case of its letters, at a place where it is neither preceded nor
followed by a word character; the text `"JavaScript"` yields `"JavaScript"` and not
`"Java"`. -/
theorem skill_found_iff_whole_word (text : Str) :
    (∀ s ∈ skillsTaxonomy, s ∈ extractSkills text ↔ OccursWholeWordCI s.toList text) ∧
    extractSkills "JavaScript".toList = ["JavaScript"] :=
  ⟨fun _ hs => mem_extractSkills_iff hs text, by decide⟩

/-- C6 (amended): when the first `Name:` of the text, whatever its letter case, is the one of
`"Name: Priya Shah"` followed by a line break, and the text after the line break does not
continue the name (white space, one word of letters and apostrophes, end of line), the name
is `"Priya Shah"` with confidence 98. -/
theorem priya_shah_label (pre rest : Str)
    (hfirst : includes (toLowerCase (pre ++ "Name".toList)) "name:".toList = false)
    (hrest : nameWordsThenEol 1 ('\n' :: rest) = false) :
    ∃ info, extractPersonalInfo (pre ++ "Name: Priya Shah\n".toList ++ rest) = some info ∧
      info.name = "Priya Shah".toList ∧ info.confidence.name = some 98 := by
  have h := extractName_labelled pre rest "Priya".toList ["Shah".toList] hfirst (by decide)
    (by decide) (by decide) (by decide) hrest
  have htext : pre ++ "Name: Priya Shah\n".toList ++ rest =
      pre ++ ("Name:".toList ++ (' ' :: (("Priya".toList ++
        (["Shah".toList].map (fun w => ' ' :: w)).flatten) ++ '\n' :: rest))) := by
    simp
  rw [htext]
  exact personalInfo_name h

/-- C6 (witness): the text `"Name: Priya Shah\n"`. -/
theorem priya_shah_label_witness :
    includes (toLowerCase ([] ++ "Name".toList)) "name:".toList = false ∧
    nameWordsThenEol 1 ['\n'] = false ∧
    (extractPersonalInfo "Name: Priya Shah\n".toList).map
        (fun info => (info.name, info.confidence.name)) =
      some ("Priya Shah".toList, some 98) ∧
    ∃ info, extractPersonalInfo ([] ++ "Name: Priya Shah\n".toList ++ []) = some info ∧
      info.name = "Priya Shah".toList ∧ info.confidence.name = some 98 :=
  ⟨by decide, by decide, by decide, priya_shah_label [] [] (by decide) (by decide)⟩

/-- C7 (amended): when the first line is the role title `Senior Software Engineer`, the first
`Name:` of the text, whatever its letter case, is followed by a space, by a name `N` of one
to three words of letters separated by single spaces and by a line break, `N` contains no
role keyword, and the text after the line break does not continue the name (white space and
at most as many further words of letters and apostrophes as `N` lacks to three, the last one
ending its line), the name is `N` with confidence 98. -/
theorem labelled_name_after_role_line (mid w1 : Str) (ws : List Str) (rest : Str)
    (hfirst : includes
      (toLowerCase ("Senior Software Engineer\n".toList ++ mid ++ "Name".toList))
      "name:".toList = false)
    (hw1 : w1 ≠ [] ∧ ∀ c ∈ w1, isLetter c = true)
    (hws : ∀ w ∈ ws, w ≠ [] ∧ ∀ c ∈ w, isLetter c = true) (hlen : ws.length ≤ 2)
    (hrole : containsRoleKeyword roleKeywords
      (w1 ++ (ws.map (fun w => ' ' :: w)).flatten) = false)
    (hrest : nameWordsThenEol (2 - ws.length) ('\n' :: rest) = false) :
    ∃ info, extractPersonalInfo ("Senior Software Engineer\n".toList ++ mid ++
        "Name: ".toList ++ (w1 ++ (ws.map (fun w => ' ' :: w)).flatten) ++ '\n' :: rest) =
        some info ∧
      info.name = w1 ++ (ws.map (fun w => ' ' :: w)).flatten ∧
      info.confidence.name = some 98 := by
  have h := extractName_labelled ("Senior Software Engineer\n".toList ++ mid) rest w1 ws
    hfirst hw1 hws hlen hrole hrest
  have htext : "Senior Software Engineer\n".toList ++ mid ++
        "Name: ".toList ++ (w1 ++ (ws.map (fun w => ' ' :: w)).flatten) ++ '\n' :: rest =
      ("Senior Software Engineer\n".toList ++ mid) ++ ("Name:".toList ++ (' ' :: ((w1 ++
        (ws.map (fun w => ' ' :: w)).flatten) ++ '\n' :: rest))) := by
    simp
  rw [htext]
  exact personalInfo_name h

/-- C7 (witness): the text `"Senior Software Engineer\nName: John Doe\n"`. -/
theorem labelled_name_after_role_line_witness :
    (extractPersonalInfo "Senior Software Engineer\nName: John Doe\n".toList).map
        (fun info => (info.name, info.confidence.name)) =
      some ("John Doe".toList, some 98) ∧
    ∃ info, extractPersonalInfo ("Senior Software Engineer\n".toList ++ [] ++
        "Name: ".toList ++
        ("John".toList ++ (["Doe".toList].map (fun w => ' ' :: w)).flatten) ++ '\n' :: []) =
        some info ∧
      info.name = "John".toList ++ (["Doe".toList].map (fun w => ' ' :: w)).flatten ∧
      info.confidence.name = some 98 :=
  ⟨by decide,
    labelled_name_after_role_line [] "John".toList ["Doe".toList] [] (by decide) (by decide)
      (by decide) (by decide) (by decide) (by decide)⟩

/-! ## Claim on the labelled location -/

/-- C11 (amended): when the first `Location:` of the text is followed by a value `V` of
letters, spaces and commas that holds a letter, then by the end of the text or by a line
terminator, and the white space `W` after the value is followed by the end of the text or by
a line `L` that holds, before its end, a character outside `[A-Za-z\s,]`, the location is the
trimmed value, it is not empty, and `confidence.location` is 75. -/
theorem labelled_location (pre V W L Z : Str)
    (hfirst : includes (pre ++ "Location".toList) "Location:".toList = false)
    (hV : ∀ c ∈ V, isLetter c = true ∨ c = ' ' ∨ c = ',')
    (hVl : ∃ c ∈ V, isLetter c = true)
    (hW : ∀ c ∈ W, isWhiteSpace c = true)
    (hL : ∀ c ∈ L, isLocationChar c = true ∧ isLineTerminator c = false)
    (hZ : (Z.head?.map isLocationChar) ≠ some true)
    (hLZ : L = [] ∨ Z ≠ [])
    (hbound : lineBoundaryAt (W ++ L ++ Z) = true) :
    ∃ info, extractPersonalInfo (pre ++ "Location:".toList ++ V ++ W ++ L ++ Z) = some info ∧
      info.location = trim V ∧ info.location ≠ [] ∧ info.confidence.location = some 75 := by
  have hZ' : ∀ c, Z.head? = some c → isLocationChar c = false := by
    intro c hc
    rw [hc] at hZ
    cases h : isLocationChar c with
    | false => rfl
    | true => rw [Option.map_some', h] at hZ; exact absurd rfl hZ
  have h := extractLocation_labelled pre V W L Z hfirst hV hVl hW hL hZ' hLZ
    (by rw [← List.append_assoc]; exact hbound)
  have htext : pre ++ "Location:".toList ++ V ++ W ++ L ++ Z =
      pre ++ ("Location:".toList ++ (V ++ (W ++ (L ++ Z)))) := by
    simp only [List.append_assoc]
  rw [htext]
  obtain ⟨info, h1, h2, h3⟩ := personalInfo_location h
  exact ⟨info, h1, h2, by rw [h2]; exact trim_value_ne_nil hVl, h3⟩

set_option maxRecDepth 1000000 in
/-- C11 (witness): the sample text `jane_smith`, whose line `Location: San Francisco, CA` is
followed by the line `LinkedIn: ...`, gives the location `San Francisco, CA`. -/
theorem labelled_location_witness :
    sampleJaneSmith.toList.take 97 =
      "Jane Smith\nPhone: (555) 987-6543\nEmail: jane.smith@gmail.com\n".toList ++
        "Location:".toList ++ " San Francisco, CA".toList ++ "\n".toList ++ "LinkedIn".toList ∧
    sampleJaneSmith.toList = sampleJaneSmith.toList.take 97 ++ sampleJaneSmith.toList.drop 97 ∧
    trim " San Francisco, CA".toList = "San Francisco, CA".toList ∧
    extractLocation sampleJaneSmith.toList locationPatterns =
      some ("San Francisco, CA".toList, some 75) ∧
    ∃ info, extractPersonalInfo
        ("Jane Smith\nPhone: (555) 987-6543\nEmail: jane.smith@gmail.com\n".toList ++
          "Location:".toList ++ " San Francisco, CA".toList ++ "\n".toList ++
          "LinkedIn".toList ++ sampleJaneSmith.toList.drop 97) = some info ∧
      info.location = trim " San Francisco, CA".toList ∧ info.location ≠ [] ∧
      info.confidence.location = some 75 :=
  ⟨by decide, (List.take_append_drop 97 _).symm, by decide, by decide,
    labelled_location
      "Jane Smith\nPhone: (555) 987-6543\nEmail: jane.smith@gmail.com\n".toList
      " San Francisco, CA".toList "\n".toList "LinkedIn".toList (sampleJaneSmith.toList.drop 97)
      (by decide) (by decide) (by decide) (by decide) (by decide) (by decide) (by decide)
      (by decide)⟩

/-! ## A section with many years -/

theorem year_at_space (pre rest : Str) :
    Re.m ⟨false, false⟩ yearPattern.re ⟨pre, ' ' :: rest, []⟩ some = none := rfl

theorem year_at_2020 (pre rest : Str) :
    Re.m ⟨false, false⟩ yearPattern.re ⟨pre, '2' :: '0' :: '2' :: '0' :: rest, []⟩ some =
      some ⟨'0' :: '2' :: '0' :: '2' :: pre, rest, []⟩ := by
  show (Re.seq (.cls [.ch '2']) (.seq (.cls [.ch '0']) (.rep true 2 (some 2) (.cls [.digit])))).m
    ⟨false, false⟩ ⟨pre, '2' :: '0' :: '2' :: '0' :: rest, []⟩ some = _
  rw [m_seq, m_cls_cons, if_pos (by decide), m_seq, m_cls_cons, if_pos (by decide)]
  exact m_rep_cls_run ⟨false, false⟩ [.digit] rest [] some _ ['2', '0'] 2 (some 2)
    ('0' :: '2' :: pre) (by decide) (Or.inl rfl) (by simp) rfl

theorem search_year (pre rest : Str) :
    search yearPattern.flags yearPattern.re pre (' ' :: '2' :: '0' :: '2' :: '0' :: rest) =
      some ⟨pre.length + 1, "2020".toList, []⟩ := by
  rw [search]
  simp only [show yearPattern.flags = ⟨false, false⟩ from rfl, year_at_space]
  rw [search]
  simp only [year_at_2020]
  have hlen : ('2' :: '0' :: '2' :: '0' :: rest).length - rest.length = 4 := by
    simp only [List.length_cons]; omega
  rw [hlen]
  rfl

/-- The years found by the global search in `n` times ` 2020`. -/
theorem years_of_replicate :
    ∀ (n fuel : Nat) (pre : Str), n ≤ fuel →
      globalMatchesFrom yearPattern fuel pre (List.replicate n " 2020".toList).flatten =
        List.replicate n "2020".toList := by
  intro n
  induction n with
  | zero =>
    intro fuel pre _
    cases fuel with
    | zero => rfl
    | succ fuel =>
      rw [globalMatchesFrom]
      have : search yearPattern.flags yearPattern.re pre
          (List.replicate 0 " 2020".toList).flatten = none := rfl
      rw [this]
      rfl
  | succ n ih =>
    intro fuel pre hle
    cases fuel with
    | zero => omega
    | succ fuel =>
      have hflat : (List.replicate (n + 1) " 2020".toList).flatten =
          ' ' :: '2' :: '0' :: '2' :: '0' :: (List.replicate n " 2020".toList).flatten := rfl
      rw [hflat, globalMatchesFrom, search_year]
      simp only [List.length_cons, Nat.add_sub_cancel_left]
      have hskip : (1 + if ("2020".toList).length = 0 then 1 else ("2020".toList).length) = 5 :=
        rfl
      rw [hskip]
      rw [if_neg (by omega)]
      simp only [List.take, List.drop]
      rw [List.replicate_succ]
      congr 1
      exact ih fuel _ (by omega)

theorem globalMatches_manyYears (n : Nat) :
    globalMatches yearPattern (List.replicate n " 2020".toList).flatten =
      List.replicate n "2020".toList := by
  unfold globalMatches
  apply years_of_replicate
  have : (List.replicate n " 2020".toList).flatten.length = 5 * n := by
    induction n with
    | zero => rfl
    | succ n ih =>
      rw [List.replicate_succ, List.flatten_cons, List.length_append, ih]
      have : (" 2020".toList).length = 5 := rfl
      omega
  omega

theorem replicate_years_chars (n : Nat) :
    ∀ c ∈ (List.replicate n " 2020".toList).flatten, c = ' ' ∨ c = '2' ∨ c = '0' := by
  intro c hc
  obtain ⟨l, hl, hcl⟩ := List.mem_flatten.mp hc
  rw [List.eq_of_mem_replicate hl] at hcl
  have : ∀ d ∈ " 2020".toList, d = ' ' ∨ d = '2' ∨ d = '0' := by decide
  exact this c hcl

theorem manyYears_chars (n : Nat) :
    ∀ c ∈ manyYears n,
      lowerChar c ≠ 'y' ∧ lowerChar c ≠ ':' ∧
      (c ∈ (List.replicate n " 2020".toList).flatten → lowerChar c ≠ 'e' ∧ lowerChar c ≠ 's') := by
  intro c hc
  have h1 : ∀ d ∈ "EXPERIENCE".toList, lowerChar d ≠ 'y' ∧ lowerChar d ≠ ':' := by decide
  have h2 : ∀ d : Char, d = ' ' ∨ d = '2' ∨ d = '0' →
      lowerChar d ≠ 'y' ∧ lowerChar d ≠ ':' ∧ lowerChar d ≠ 'e' ∧ lowerChar d ≠ 's' := by
    intro d hd
    rcases hd with rfl | rfl | rfl <;> decide
  rcases List.mem_append.mp hc with h | h
  · exact ⟨(h1 c h).1, (h1 c h).2, fun hr => by
      have := h2 c (replicate_years_chars n c hr)
      exact ⟨this.2.2.1, this.2.2.2⟩⟩
  · have := h2 c (replicate_years_chars n c h)
    exact ⟨this.1, this.2.1, fun _ => ⟨this.2.2.1, this.2.2.2⟩⟩

/-- A text consumed by a literal text holds every character of it, up to case. -/
theorem lang_lits_mem {fl : Flags} (hi : fl.ignoreCase = true) (kw : Str) {w : Str}
    (hkw : ∀ c ∈ kw, c.toNat ≠ 0xE2 ∧ c.toNat ≠ 0xC2) (h : Lang fl (Re.lits kw) w) :
    ∀ c ∈ toLowerCase kw, ∃ x ∈ w, lowerChar x = c := by
  intro c hc
  rw [← (lang_lits hi kw hkw w).mp h] at hc
  obtain ⟨x, hx, rfl⟩ := List.mem_map.mp hc
  exact ⟨x, hx, rfl⟩

/-- No explicit experience phrase matches in `EXPERIENCE 2020 2020 ...`. -/
theorem manyYears_no_explicit (n : Nat) : ∀ p ∈ expPatterns, p.exec (manyYears n) = none := by
  intro p hp
  cases hexec : p.exec (manyYears n) with
  | none => rfl
  | some mt =>
    exfalso
    obtain ⟨hin, hlang, _⟩ := exec_capture hexec
    have hchars : ∀ x ∈ mt.full, lowerChar x ≠ 'y' ∧ lowerChar x ≠ ':' := fun x hx =>
      ⟨(manyYears_chars n x (hin.subset hx)).1, (manyYears_chars n x (hin.subset hx)).2.1⟩
    simp only [expPatterns, List.mem_cons, List.mem_singleton, List.not_mem_nil, or_false] at hp
    rcases hp with rfl | rfl | rfl
    · obtain ⟨w1, r1, e1, _, h⟩ := (lang_seqs_cons _ _ _ _).mp hlang
      obtain ⟨w2, r2, e2, _, h⟩ := (lang_seqs_cons _ _ _ _).mp h
      obtain ⟨w3, r3, e3, _, h⟩ := (lang_seqs_cons _ _ _ _).mp h
      obtain ⟨w4, r4, e4, h4, _⟩ := (lang_seqs_cons _ _ _ _).mp h
      obtain ⟨x, hx, hxy⟩ := lang_lits_mem rfl "year".toList (by decide) h4 'y'
        (by decide)
      have hmem : x ∈ mt.full := by
        rw [e1, e2, e3, e4]
        simp only [List.mem_append]
        tauto
      exact (hchars x hmem).1 hxy
    · obtain ⟨w1, r1, e1, _, h⟩ := (lang_seqs_cons _ _ _ _).mp hlang
      obtain ⟨w2, r2, e2, _, h⟩ := (lang_seqs_cons _ _ _ _).mp h
      obtain ⟨w3, r3, e3, _, h⟩ := (lang_seqs_cons _ _ _ _).mp h
      obtain ⟨w4, r4, e4, h4, _⟩ := (lang_seqs_cons _ _ _ _).mp h
      obtain ⟨x, hx, hxy⟩ := lang_lits_mem rfl "yr".toList (by decide) h4 'y'
        (by decide)
      have hmem : x ∈ mt.full := by
        rw [e1, e2, e3, e4]
        simp only [List.mem_append]
        tauto
      exact (hchars x hmem).1 hxy
    · obtain ⟨w1, r1, e1, h1, _⟩ := (lang_seqs_cons _ _ _ _).mp hlang
      obtain ⟨x, hx, hxy⟩ := lang_lits_mem rfl "experience:".toList (by decide) h1 ':'
        (by decide)
      have hmem : x ∈ mt.full := by
        rw [e1]
        exact List.mem_append_left _ hx
      exact (hchars x hmem).2 hxy

/-- A literal text cannot start where the next character has another lower-case form. -/
theorem step_lits_head {c : Char} {kw : Str} {s t : St}
    (hkw : ∀ d ∈ c :: kw, d.toNat ≠ 0xE2 ∧ d.toNat ≠ 0xC2)
    (h : Step ⟨true, false⟩ (Re.lits (c :: kw)) s t) :
    ∃ x rest, s.suf = x :: rest ∧ lowerChar x = lowerChar c := by
  obtain ⟨w, q, hq, hci, _⟩ := (step_lits rfl (c :: kw) hkw s t).mp h
  cases w with
  | nil => simp [toLowerCase] at hci
  | cons x w' =>
    simp only [toLowerCase, List.map_cons, List.cons.injEq] at hci
    exact ⟨x, w' ++ q, hq, hci.1⟩

/-- Every run of the section pattern from the start of `EXPERIENCE 2020 2020 ...` captures
all the years. -/
theorem workSection_run (n : Nat) {t : St}
    (h : Step ⟨true, false⟩ workSectionPattern.re ⟨[], manyYears n, []⟩ t) :
    t.caps = [(1, (List.replicate n " 2020".toList).flatten)] := by
  obtain ⟨u1, h1, h⟩ := (step_seqs_cons _
    (.alts [.str "EXPERIENCE", .str "WORK HISTORY", .str "PROFESSIONAL EXPERIENCE"])
    [.group 1 (.lazyStar .anyChar), .alts [.str "EDUCATION", .str "SKILLS", .eol]] _ _).mp h
  obtain ⟨u2, h2, h3⟩ := (step_seqs_cons _ (.group 1 (.lazyStar .anyChar))
    [.alts [.str "EDUCATION", .str "SKILLS", .eol]] _ _).mp h
  have hu1 : u1 = ⟨"EXPERIENCE".toList.reverse, (List.replicate n " 2020".toList).flatten, []⟩ := by
    rcases h1 with h1 | h1 | h1
    · obtain ⟨w, q, hq, hci, rfl⟩ := (step_lits rfl "EXPERIENCE".toList (by decide) _ _).mp h1
      simp only at hq
      have hwlen : w.length = "EXPERIENCE".toList.length := by
        have := congrArg List.length hci
        simpa [toLowerCase] using this
      obtain ⟨hw, hq'⟩ := List.append_inj (show "EXPERIENCE".toList ++ _ = w ++ q from hq)
        hwlen.symm
      rw [← hw, ← hq']
      rfl
    · exfalso
      obtain ⟨x, rest, hx, hxc⟩ := step_lits_head (c := 'W') (by decide) h1
      have : x = 'E' := by
        have := congrArg List.head? hx
        simpa [manyYears] using this.symm
      rw [this] at hxc
      exact absurd hxc (by decide)
    · exfalso
      obtain ⟨x, rest, hx, hxc⟩ := step_lits_head (c := 'P') (by decide) h1
      have : x = 'E' := by
        have := congrArg List.head? hx
        simpa [manyYears] using this.symm
      rw [this] at hxc
      exact absurd hxc (by decide)
  subst hu1
  obtain ⟨u', hstar, rfl⟩ := h2
  obtain ⟨g, hg, _, _, hcaps⟩ := step_rep_cls hstar
  simp only at hg hcaps
  have hsufchars : ∀ x rest, u'.suf = x :: rest → lowerChar x ≠ 'e' ∧ lowerChar x ≠ 's' := by
    intro x rest hx
    have hmem : x ∈ (List.replicate n " 2020".toList).flatten := by
      rw [hg, hx]; simp
    exact (manyYears_chars n x (List.mem_append_right _ hmem)).2.2 hmem
  have hend : u'.suf = [] := by
    rcases h3 with h3 | h3 | h3
    · exfalso
      obtain ⟨x, rest, hx, hxc⟩ := step_lits_head (c := 'E') (by decide) h3
      exact (hsufchars x rest hx).1 (by rw [hxc]; decide)
    · exfalso
      obtain ⟨x, rest, hx, hxc⟩ := step_lits_head (c := 'S') (by decide) h3
      exact (hsufchars x rest hx).2 (by rw [hxc]; decide)
    · obtain ⟨heol, _⟩ := h3
      cases hs : u'.suf with
      | nil => rfl
      | cons c r => simp [eolHolds, hs] at heol
  have ht : t.caps =
      [(1, (List.replicate n " 2020".toList).flatten.take
        ((List.replicate n " 2020".toList).flatten.length - u'.suf.length))] := by
    have hcaps3 : t.caps = _ := step_noCaps ⟨true, false⟩
      (.alts [.str "EDUCATION", .str "SKILLS", .eol]) rfl _ _ h3
    rw [hcaps3]
    simp only [hcaps]
  rw [ht, hend]
  simp

/-- A run of the section pattern from the start of `EXPERIENCE 2020 2020 ...`. -/
theorem workSection_run_exists (n : Nat) :
    ∃ t, Step ⟨true, false⟩ workSectionPattern.re ⟨[], manyYears n, []⟩ t := by
  refine ⟨⟨(List.replicate n " 2020".toList).flatten.reverse ++ "EXPERIENCE".toList.reverse,
    [], [(1, (List.replicate n " 2020".toList).flatten.take
      ((List.replicate n " 2020".toList).flatten.length - ([] : Str).length))]⟩, ?_⟩
  refine (step_seqs_cons _
    (.alts [.str "EXPERIENCE", .str "WORK HISTORY", .str "PROFESSIONAL EXPERIENCE"])
    [.group 1 (.lazyStar .anyChar), .alts [.str "EDUCATION", .str "SKILLS", .eol]] _ _).mpr
    ⟨⟨"EXPERIENCE".toList.reverse, (List.replicate n " 2020".toList).flatten, []⟩, ?_, ?_⟩
  · exact Or.inl ((step_lits rfl "EXPERIENCE".toList (by decide) _ _).mpr
      ⟨"EXPERIENCE".toList, _, rfl, rfl, rfl⟩)
  refine (step_seqs_cons _ (.group 1 (.lazyStar .anyChar))
    [.alts [.str "EDUCATION", .str "SKILLS", .eol]] _ _).mpr ⟨_, ⟨⟨(List.replicate n
      " 2020".toList).flatten.reverse ++ "EXPERIENCE".toList.reverse, [], []⟩,
      repRun_anyChar_all _ _ _ _, rfl⟩, ?_⟩
  exact Or.inr (Or.inr ⟨rfl, rfl⟩)

/-- The years of the section of `EXPERIENCE 2020 2020 ...`. -/
theorem sectionYears_manyYears (n : Nat) :
    sectionYears (manyYears n) = some (List.replicate n "2020".toList) := by
  obtain ⟨t0, ht0⟩ := workSection_run_exists n
  have hsome := (exec_isSome_iff_hasMatch workSectionPattern _).mpr
    ⟨[], manyYears n, t0, rfl, ht0⟩
  obtain ⟨mt, hmt⟩ := Option.isSome_iff_exists.mp hsome
  obtain ⟨p, w, q, t, htext, hstep, _, hmteq, hmin⟩ := exec_some_run hmt
  have hp : p = [] := by
    cases p with
    | nil => rfl
    | cons c r => exact absurd ht0 (hmin [] _ t0 rfl (by simp))
  subst hp
  simp only [List.nil_append, List.reverse_nil] at htext hstep
  rw [← htext] at hstep
  have hcaps := workSection_run n hstep
  have hget : mt.get 1 = some (List.replicate n " 2020".toList).flatten := by
    rw [hmteq]
    simp only [MatchResult.get, hcaps]
    rfl
  have hmt' : workSectionPattern.exec (manyYears n) = some mt := hmt
  unfold sectionYears
  rw [hmt']
  simp only [Option.some_bind, hget, Option.map_some', globalMatches_manyYears]

/-- The method raises on `EXPERIENCE` followed by more years than a call takes arguments. -/
theorem manyYears_raises (argLimit k : Nat) :
    extractExperience argLimit (manyYears (argLimit + 2 + k)) = none := by
  unfold extractExperience
  rw [explicitExperience_none (manyYears_no_explicit _),
    inferred_raise (sectionYears_manyYears _) (by simp; omega) (by simp; omega)]

/-! ## Claim on raises -/

/-- C22 (evaluation at the failing inputs): on the text `EXPERIENCE` followed by ` 2020`
repeated more often than the engine accepts arguments in one call, `extractExperience`
raises, because the years are spread into the arguments of `Math.min`; it raises exactly
when no explicit phrase matches and the work-history section holds at least two years and
more of them than a call takes arguments; `extractPersonalInfo` never raises. -/
theorem long_year_list_raises (argLimit : Nat) :
    (∀ k, extractExperience argLimit (manyYears (argLimit + 2 + k)) = none) ∧
    (∀ text, extractExperience argLimit text = none ↔
      (∀ p ∈ expPatterns, p.exec text = none) ∧
        ∃ ys, sectionYears text = some ys ∧ 2 ≤ ys.length ∧ argLimit < ys.length) ∧
    (∀ text, ∃ info, extractPersonalInfo text = some info) := by
  refine ⟨fun k => manyYears_raises argLimit k,
    fun text => extractExperience_none_iff argLimit text, fun text => ?_⟩
  obtain ⟨name, cn, email, ce, phone, cp, location, cl, _, _, _, _, h⟩ :=
    extractPersonalInfo_total text
  exact ⟨_, h⟩

end ResumeParser
